import Mathlib

/-!
Verification of the PO/MO translation-catalog codec (`mo_convert.py`) and the
missing-translation report tool (`missing_translations.py`).

The Python code is shallowly embedded:

* a Python `str` is modelled as `PyStr := List Nat`, the sequence of Unicode
  code points of the string;
* a Python `bytes` is modelled as `Bytes := List Nat`, the sequence of byte
  values (each `< 256` wherever they are produced);
* fallible operations return `Option` or `Except`;
* library calls (`re.search` on the one fixed pattern, `ast.literal_eval` on
  string literals, `str.strip`, `str.splitlines`, `bytes.decode`,
  `str.encode`, `struct.pack`/`unpack` of `u32`, `dict` insertion order,
  `sorted`) are modelled by explicit executable definitions whose doc
  comments state exactly which behaviour of CPython they capture.
-/

/-- A Python `str`: the sequence of Unicode code points. -/
abbrev PyStr := List Nat

/-- A Python `bytes` value: the sequence of byte values. -/
abbrev Bytes := List Nat

/-- Embed a Lean string literal as a `PyStr` (its code points). -/
def pstr (s : String) : PyStr := s.data.map Char.toNat

/-- The catalog entry record `PoEntry` of `mo_convert.py`:
`msgctxt : Optional[str]`, `msgid : str`, `msgid_plural : Optional[str]`,
`msgstr : List[str]`. -/
structure PoEntry where
  msgctxt : Option PyStr
  msgid : PyStr
  msgid_plural : Option PyStr
  msgstr : List PyStr
deriving DecidableEq

/-- Code points that CPython's `str.strip()` / `str.isspace()` treat as
whitespace: ASCII `\t \n \v \f \r`, space, `\x1c`–`\x1f`, `\x85`, `\xa0`,
and the Unicode space/separator code points. -/
def pyIsSpace (c : Nat) : Bool :=
  (9 ≤ c && c ≤ 13) || c = 32 || (28 ≤ c && c ≤ 31) || c = 133 || c = 160 ||
  c = 5760 || (8192 ≤ c && c ≤ 8202) || c = 8232 || c = 8233 || c = 8239 ||
  c = 8287 || c = 12288

/-- Python `str.lstrip()` (whitespace). -/
def pyStripLeft (s : PyStr) : PyStr := s.dropWhile pyIsSpace

/-- Python `str.rstrip()` (whitespace). -/
def pyStripRight (s : PyStr) : PyStr := (s.reverse.dropWhile pyIsSpace).reverse

/-- Python `str.strip()` (whitespace on both ends). -/
def pyStrip (s : PyStr) : PyStr := pyStripRight (pyStripLeft s)

/-- Python `s.strip('"')`: remove every leading and trailing `"` (code 34). -/
def pyStripQuotes (s : PyStr) : PyStr :=
  ((s.dropWhile (· = 34)).reverse.dropWhile (· = 34)).reverse

/-- ASCII lower-casing of one code point, as used by case-insensitive
regex matching of the literal `charset=`. -/
def asciiLower (c : Nat) : Nat := if 65 ≤ c ∧ c ≤ 90 then c + 32 else c

/-- Match the literal `charset=` case-insensitively at the head of `s`,
returning the remainder after the match. -/
def matchCharsetKw : PyStr → Option PyStr := fun s =>
  let kw := pstr "charset="
  if (s.take kw.length).map asciiLower = kw then some (s.drop kw.length) else none

/-- The character class of the source's regex `r"charset=([^\\s;]+)"`.
Because the pattern is a *raw* string, `\\s` is an escaped backslash
followed by a literal `s`, so the class excludes backslash (92), `s` (115),
`S` (83, via `re.IGNORECASE`) and `;` (59) — not whitespace. -/
def charsetValChar (c : Nat) : Bool :=
  !(c = 92 || c = 115 || c = 83 || c = 59)

/-- `re.search(r"charset=([^\\s;]+)", s, flags=re.IGNORECASE)`: scan
left-to-right; at the first position where the literal `charset=` matches
case-insensitively and is followed by at least one character of the class,
capture the maximal run of class characters. -/
def findCharsetCapture : PyStr → Option PyStr
  | [] => none
  | c :: rest =>
    match matchCharsetKw (c :: rest) with
    | some r =>
      let v := r.takeWhile charsetValChar
      if v = [] then findCharsetCapture rest else some v
    | none => findCharsetCapture rest

/-- `_detect_charset_from_header` of `mo_convert.py`: regex-search the
header text for `charset=…`; on a match return the capture with
whitespace stripped and then surrounding `"` stripped, otherwise `"utf-8"`. -/
def detect_charset_from_header (header_msgstr : PyStr) : PyStr :=
  match findCharsetCapture header_msgstr with
  | none => pstr "utf-8"
  | some v => pyStripQuotes (pyStrip v)

/-- Python `str.replace(old, new)` for a single-character `old`:
every occurrence of the character `c` is replaced by the string `r`. -/
def pyReplaceChar (c : Nat) (r : PyStr) (s : PyStr) : PyStr :=
  s.flatMap (fun x => if x = c then r else [x])

/-- `_po_escape` of `mo_convert.py`: the chain of five `str.replace` calls
escaping `\`, `"`, tab, carriage return and newline (in that order). -/
def po_escape (s : PyStr) : PyStr :=
  pyReplaceChar 10 [92, 110]
    (pyReplaceChar 13 [92, 114]
      (pyReplaceChar 9 [92, 116]
        (pyReplaceChar 34 [92, 34]
          (pyReplaceChar 92 [92, 92] s))))

/-- The per-character action of `_po_escape`. -/
def poEscapeChar (c : Nat) : PyStr :=
  if c = 92 then [92, 92]
  else if c = 34 then [92, 34]
  else if c = 9 then [92, 116]
  else if c = 13 then [92, 114]
  else if c = 10 then [92, 110]
  else [c]

/-- Python `s.split("\n")` (split on every newline, keeping empty parts). -/
def splitNl : PyStr → List PyStr
  | [] => [[]]
  | c :: rest =>
    let r := splitNl rest
    if c = 10 then [] :: r
    else
      match r with
      | [] => [[c]]
      | l :: ls => (c :: l) :: ls

/-- Quote each newline-split part of a string: every part except the last
keeps its trailing newline (escaped) inside the quotes. -/
def poQuoteParts : List PyStr → List PyStr
  | [] => []
  | [last] => [[34] ++ po_escape last ++ [34]]
  | part :: rest => ([34] ++ po_escape (part ++ [10]) ++ [34]) :: poQuoteParts rest

/-- `_po_quote` of `mo_convert.py`: quote a string for PO output, splitting
it at newlines into one quoted line per part; every part except the last
keeps its trailing newline (escaped) inside the quotes; the empty string
becomes the single line `""`. -/
def po_quote (s : PyStr) : List PyStr :=
  if s = [] then [[34, 34]] else poQuoteParts (splitNl s)

/-- Decimal digit test (code points `0`–`9`). -/
def isDigitCp (c : Nat) : Bool := 48 ≤ c && c ≤ 57

/-- Octal digit test (code points `0`–`7`). -/
def isOctCp (c : Nat) : Bool := 48 ≤ c && c ≤ 55

/-- Hex digit value of a code point, if it is one. -/
def hexVal (c : Nat) : Option Nat :=
  if 48 ≤ c ∧ c ≤ 57 then some (c - 48)
  else if 97 ≤ c ∧ c ≤ 102 then some (c - 87)
  else if 65 ≤ c ∧ c ≤ 70 then some (c - 55)
  else none

/-- Consume exactly `n` hex digits, accumulating their value. -/
def readHex : Nat → Nat → PyStr → Option (Nat × PyStr)
  | 0, acc, s => some (acc, s)
  | _ + 1, _, [] => none
  | n + 1, acc, c :: rest =>
    match hexVal c with
    | some d => readHex n (16 * acc + d) rest
    | none => none

/-- Consume up to `n` further octal digits (greedy), accumulating. -/
def readOct : Nat → Nat → PyStr → Nat × PyStr
  | 0, acc, s => (acc, s)
  | _ + 1, acc, [] => (acc, [])
  | n + 1, acc, c :: rest =>
    if isOctCp c then readOct n (8 * acc + (c - 48)) rest
    else (acc, c :: rest)

/-- One backslash escape of a CPython string literal, as interpreted by
`ast.literal_eval`: the input is the text after the backslash; the result is
the produced code points and the remaining text.  Recognised: `\n \t \r \\
\" \' \a \b \f \v`, backslash–newline (line continuation, produces
nothing), octal (up to 3 digits), `\xHH`, `\uHHHH`, `\UHHHHHHHH` (range
checked).  `\N{…}` named escapes are not modelled and count as failure; any
other `\c` keeps the backslash and the character, as CPython does. -/
def readEscape : PyStr → Option (PyStr × PyStr)
  | [] => none
  | e :: rest =>
    if e = 110 then some ([10], rest)
    else if e = 116 then some ([9], rest)
    else if e = 114 then some ([13], rest)
    else if e = 92 then some ([92], rest)
    else if e = 34 then some ([34], rest)
    else if e = 39 then some ([39], rest)
    else if e = 97 then some ([7], rest)
    else if e = 98 then some ([8], rest)
    else if e = 102 then some ([12], rest)
    else if e = 118 then some ([11], rest)
    else if e = 10 then some ([], rest)
    else if isOctCp e then
      let (v, r) := readOct 2 (e - 48) rest
      some ([v], r)
    else if e = 120 then
      match readHex 2 0 rest with
      | some (v, r) => some ([v], r)
      | none => none
    else if e = 117 then
      match readHex 4 0 rest with
      | some (v, r) => some ([v], r)
      | none => none
    else if e = 85 then
      match readHex 8 0 rest with
      | some (v, r) => if v ≤ 1114111 then some ([v], r) else none
      | none => none
    else if e = 78 then none
    else some ([92, e], rest)

/-- Parse the body of a double-quoted CPython string literal (the text after
the opening `"`), with `fuel` bounding the recursion; returns the decoded
content and the text after the closing quote.  A raw newline or carriage
return before the closing quote is a syntax error (unterminated literal). -/
def parseDqBody : Nat → PyStr → Option (PyStr × PyStr)
  | 0, _ => none
  | _ + 1, [] => none
  | fuel + 1, c :: rest =>
    if c = 34 then some ([], rest)
    else if c = 10 ∨ c = 13 then none
    else if c = 92 then
      match readEscape rest with
      | none => none
      | some (out, rest') =>
        match parseDqBody fuel rest' with
        | none => none
        | some (tail, rem) => some (out ++ tail, rem)
    else
      match parseDqBody fuel rest with
      | none => none
      | some (tail, rem) => some (c :: tail, rem)

/-- Parse a sequence of whitespace-separated double-quoted literals
(CPython's implicit string concatenation), accumulating their contents. -/
def parseDqConcat : Nat → PyStr → Option PyStr
  | 0, _ => none
  | fuel + 1, s =>
    match s with
    | 34 :: rest =>
      match parseDqBody (fuel + 1) rest with
      | none => none
      | some (content, rem) =>
        let rem' := pyStripLeft rem
        if rem' = [] then some content
        else
          match parseDqConcat fuel rem' with
          | none => none
          | some more => some (content ++ more)
    | _ => none

/-- `ast.literal_eval` restricted to what the PO reader can feed it: a
(possibly whitespace-padded) double-quoted string literal, or several
implicitly concatenated ones.  `compile()` rejects any source containing a
NUL byte (`ValueError: source code string cannot contain null bytes`), so a
NUL anywhere in the input is a failure.  Anything that is not such a string
expression is a failure (`none`). -/
def astLiteralEvalStr (s : PyStr) : Option PyStr :=
  if s.contains 0 then none
  else parseDqConcat (s.length + 1) (pyStrip s)

/-- `_parse_po_string_literal` of `mo_convert.py`: strip, require a leading
`"`, then `ast.literal_eval`; any failure yields the empty string. -/
def parse_po_string_literal (s : PyStr) : PyStr :=
  let s' := pyStrip s
  if s'.headD 0 = 34 then (astLiteralEvalStr s').getD [] else []

/-- Worker for decimal printing, with fuel bounding the recursion. -/
def natDigitsAux : Nat → Nat → PyStr
  | 0, _ => []
  | fuel + 1, n =>
    if n < 10 then [48 + n]
    else natDigitsAux fuel (n / 10) ++ [48 + n % 10]

/-- Decimal digits of `n`, most significant first (Python `f"{i}"`). -/
def natDigits (n : Nat) : PyStr := natDigitsAux (n + 1) n

/-- Python `int` of a digit string (fed only digit characters). -/
def digitsToNat (ds : PyStr) : Nat := ds.foldl (fun a d => 10 * a + (d - 48)) 0

/-- The indexed `msgstr[i]` lines of `write_po`, one group per
translation, starting at index `i`. -/
def msgstrIdxLines : Nat → List PyStr → List PyStr
  | _, [] => []
  | i, s :: rest =>
    ((pstr "msgstr[" ++ natDigits i ++ pstr "] " ++ (po_quote s).headD []) ::
      (po_quote s).tail) ++ msgstrIdxLines (i + 1) rest

/-- The `out_lines` block `write_po` emits for one entry, including the
trailing blank separator line. -/
def entryLines (e : PoEntry) : List PyStr :=
  (match e.msgctxt with
   | some c => (pstr "msgctxt " ++ (po_quote c).headD []) :: (po_quote c).tail
   | none => []) ++
  ((pstr "msgid " ++ (po_quote e.msgid).headD []) :: (po_quote e.msgid).tail) ++
  (match e.msgid_plural with
   | some p =>
     ((pstr "msgid_plural " ++ (po_quote p).headD []) :: (po_quote p).tail) ++
       msgstrIdxLines 0 e.msgstr
   | none =>
     let q := po_quote (e.msgstr.headD [])
     (pstr "msgstr " ++ q.headD []) :: q.tail) ++
  [[]]

/-- Python `"\n".join(lines)`. -/
def joinNl : List PyStr → PyStr
  | [] => []
  | l :: ls =>
    l ++ (match ls with
          | [] => []
          | _ :: _ => 10 :: joinNl ls)

/-- `write_po` of `mo_convert.py`: the text written out, i.e. the
`"\n".join` of all entry blocks (the file is written with `newline="\n"`,
so the text is unchanged on the way to disk). -/
def write_po (entries : List PoEntry) : PyStr :=
  joinNl (entries.flatMap entryLines)

/-- Code points at which Python `str.splitlines()` breaks. -/
def isPyLineBreak (c : Nat) : Bool :=
  c = 10 || c = 11 || c = 12 || c = 13 || c = 28 || c = 29 || c = 30 ||
  c = 133 || c = 8232 || c = 8233

/-- Worker for `str.splitlines()`: `acc` holds the current line reversed;
`\r\n` counts as a single break; a trailing break opens no empty line. -/
def pySplitlinesAux : PyStr → PyStr → List PyStr
  | [], acc => if acc = [] then [] else [acc.reverse]
  | 13 :: 10 :: rest, acc => acc.reverse :: pySplitlinesAux rest []
  | c :: rest, acc =>
    if isPyLineBreak c then acc.reverse :: pySplitlinesAux rest []
    else pySplitlinesAux rest (c :: acc)

/-- Python `str.splitlines()`. -/
def pySplitlines (s : PyStr) : List PyStr := pySplitlinesAux s []

/-- The field of the entry under construction that continuation lines
currently append to (`active_key` in `read_po`). -/
inductive ActiveField
  | ctxtF
  | idF
  | pluralF
  | strF (i : Nat)
deriving DecidableEq

/-- The loop state of `read_po`: finished entries, the entry under
construction, the active field, and the detected header charset
(the module's `nonlocal_header` cell). -/
structure RpState where
  entries : List PoEntry
  cur : Option PoEntry
  active : Option ActiveField
  header : PyStr
deriving DecidableEq

/-- The fresh entry `PoEntry(None, "", None, [])` created on demand. -/
def freshEntry : PoEntry := ⟨none, [], none, []⟩

/-- `flush()` of `read_po`: append the entry under construction (if any),
updating the detected charset when it is a header entry with a non-empty
translation list. -/
def rpFlush (st : RpState) : RpState :=
  match st.cur with
  | none => st
  | some c =>
    { st with
      entries := st.entries ++ [c]
      cur := none
      header :=
        if c.msgid = [] ∧ c.msgstr ≠ [] then
          detect_charset_from_header (c.msgstr.headD [])
        else st.header }

/-- Pad a translation list with empty strings up to length `n`
(the `while len(cur.msgstr) <= idx` loops). -/
def padTo (l : List PyStr) (n : Nat) : List PyStr :=
  l ++ List.replicate (n - l.length) []

/-- `re.match(r"^msgstr\[(\d+)\]", line)`: on success return the parsed
index and the text after the `]`. -/
def matchMsgstrIdx (line : PyStr) : Option (Nat × PyStr) :=
  if (pstr "msgstr[").isPrefixOf line then
    let rest := line.drop 7
    let ds := rest.takeWhile isDigitCp
    if ds = [] then none
    else if (rest.drop ds.length).headD 0 = 93 then
      some (digitsToNat ds, rest.drop (ds.length + 1))
    else none
  else none

/-- The continuation-line update of `read_po`: append the parsed fragment
to the currently active field of the entry under construction. -/
def contUpdate (k : ActiveField) (c : PoEntry) (frag : PyStr) : PoEntry :=
  match k with
  | .ctxtF => { c with msgctxt := some (c.msgctxt.getD [] ++ frag) }
  | .idF => { c with msgid := c.msgid ++ frag }
  | .pluralF => { c with msgid_plural := some (c.msgid_plural.getD [] ++ frag) }
  | .strF idx =>
    let m := padTo c.msgstr (idx + 1)
    { c with msgstr := m.set idx (m.getD idx [] ++ frag) }

/-- One iteration of the `read_po` line loop. -/
def processLine (st : RpState) (raw : PyStr) : RpState :=
  let line := pyStrip raw
  if line = [] then { rpFlush st with active := none }
  else if line.headD 0 = 35 then st
  else if (pstr "msgctxt").isPrefixOf line then
    let c := st.cur.getD freshEntry
    { st with
      cur := some { c with msgctxt := some (parse_po_string_literal (pyStrip (line.drop 7))) }
      active := some .ctxtF }
  else if (pstr "msgid_plural").isPrefixOf line then
    let c := st.cur.getD freshEntry
    { st with
      cur := some { c with msgid_plural := some (parse_po_string_literal (pyStrip (line.drop 12))) }
      active := some .pluralF }
  else if (pstr "msgid").isPrefixOf line then
    let c := st.cur.getD freshEntry
    { st with
      cur := some { c with msgid := parse_po_string_literal (pyStrip (line.drop 5)) }
      active := some .idF }
  else
    match matchMsgstrIdx line with
    | some (idx, rest) =>
      let c := st.cur.getD freshEntry
      let s := parse_po_string_literal (pyStrip rest)
      { st with
        cur := some { c with msgstr := (padTo c.msgstr (idx + 1)).set idx s }
        active := some (.strF idx) }
    | none =>
      if (pstr "msgstr").isPrefixOf line then
        let c := st.cur.getD freshEntry
        let s := parse_po_string_literal (pyStrip (line.drop 6))
        { st with
          cur := some { c with msgstr := if c.msgstr = [] then [s] else c.msgstr.set 0 s }
          active := some (.strF 0) }
      else if line.headD 0 = 34 then
        match st.active, st.cur with
        | some k, some c =>
          { st with cur := some (contUpdate k c (parse_po_string_literal line)) }
        | _, _ => st
      else st

/-- The initial `read_po` state. -/
def rpInit : RpState := ⟨[], none, none, pstr "utf-8"⟩

/-- `read_po` of `mo_convert.py`: split the text into lines, append one
blank line for the trailing flush, fold the line handler, and return the
detected charset and the entries. -/
def read_po (text : PyStr) : PyStr × List PoEntry :=
  let st := (pySplitlines text ++ [[]]).foldl processLine rpInit
  (st.header, st.entries)

/-! ### Escaping lemmas -/

theorem po_escape_append (a b : PyStr) :
    po_escape (a ++ b) = po_escape a ++ po_escape b := by
  simp [po_escape, pyReplaceChar]

theorem po_escape_nil : po_escape [] = [] := rfl

theorem po_escape_singleton (c : Nat) : po_escape [c] = poEscapeChar c := by
  by_cases h1 : c = 92
  · subst h1; decide
  by_cases h2 : c = 34
  · subst h2; decide
  by_cases h3 : c = 9
  · subst h3; decide
  by_cases h4 : c = 13
  · subst h4; decide
  by_cases h5 : c = 10
  · subst h5; decide
  simp [po_escape, pyReplaceChar, poEscapeChar, h1, h2, h3, h4, h5]

theorem po_escape_cons (c : Nat) (s : PyStr) :
    po_escape (c :: s) = poEscapeChar c ++ po_escape s := by
  have h : (c :: s) = [c] ++ s := rfl
  rw [h, po_escape_append, po_escape_singleton]

theorem zero_mem_poEscapeChar (c : Nat) : 0 ∈ poEscapeChar c ↔ c = 0 := by
  unfold poEscapeChar
  split_ifs with h1 h2 h3 h4 h5 <;> simp_all
  omega

theorem zero_not_mem_po_escape {s : PyStr} (h : 0 ∉ s) : 0 ∉ po_escape s := by
  induction s with
  | nil => simp [po_escape_nil]
  | cons c t ih =>
    rw [po_escape_cons]
    intro hmem
    rcases List.mem_append.mp hmem with hc | ht
    · exact h (by simp [(zero_mem_poEscapeChar c).mp hc])
    · exact ih (fun hx => h (List.mem_cons_of_mem _ hx)) ht

/-! ### Strip lemmas -/

theorem pyStripLeft_cons_of {c : Nat} (s : PyStr) (h : pyIsSpace c = false) :
    pyStripLeft (c :: s) = c :: s := by
  simp [pyStripLeft, List.dropWhile_cons, h]

theorem pyStripRight_concat_of {c : Nat} (s : PyStr) (h : pyIsSpace c = false) :
    pyStripRight (s ++ [c]) = s ++ [c] := by
  simp [pyStripRight, List.dropWhile_cons, h]

theorem pyStrip_quoted (X : PyStr) : pyStrip (34 :: (X ++ [34])) = 34 :: (X ++ [34]) := by
  unfold pyStrip
  rw [pyStripLeft_cons_of _ (by decide)]
  have h : (34 : Nat) :: (X ++ [34]) = (34 :: X) ++ [34] := by simp
  rw [h, pyStripRight_concat_of _ (by decide)]


/-! ### Parsing an escaped-and-quoted string -/

theorem parseDqBody_succ_quote (f : Nat) (rest : PyStr) :
    parseDqBody (f + 1) (34 :: rest) = some ([], rest) := by
  simp [parseDqBody]

theorem parseDqBody_succ_esc (f : Nat) (rest : PyStr) :
    parseDqBody (f + 1) (92 :: rest) =
      match readEscape rest with
      | none => none
      | some (out, rest') =>
        match parseDqBody f rest' with
        | none => none
        | some (tail, rem) => some (out ++ tail, rem) := by
  simp [parseDqBody]

theorem parseDqBody_succ_ord (f : Nat) {c : Nat} (rest : PyStr)
    (h34 : c ≠ 34) (h10 : c ≠ 10) (h13 : c ≠ 13) (h92 : c ≠ 92) :
    parseDqBody (f + 1) (c :: rest) =
      match parseDqBody f rest with
      | none => none
      | some (tail, rem) => some (c :: tail, rem) := by
  simp [parseDqBody, h34, h10, h13, h92]

theorem parseDqBody_escaped (s : PyStr) :
    ∀ (rest : PyStr) (fuel : Nat), (po_escape s).length < fuel →
      parseDqBody fuel (po_escape s ++ 34 :: rest) = some (s, rest) := by
  induction s with
  | nil =>
    intro rest fuel hf
    cases fuel with
    | zero => omega
    | succ f => rw [po_escape_nil, List.nil_append, parseDqBody_succ_quote]
  | cons c t ih =>
    intro rest fuel hf
    rw [po_escape_cons] at hf ⊢
    rw [List.append_assoc]
    by_cases hs : c = 92 ∨ c = 34 ∨ c = 9 ∨ c = 13 ∨ c = 10
    · obtain ⟨e, hpe, he⟩ :
          ∃ e, poEscapeChar c = [92, e] ∧
            ∀ tl : PyStr, readEscape (e :: tl) = some ([c], tl) := by
        rcases hs with h | h | h | h | h <;> subst h
        · exact ⟨92, rfl, fun tl => rfl⟩
        · exact ⟨34, rfl, fun tl => rfl⟩
        · exact ⟨116, rfl, fun tl => rfl⟩
        · exact ⟨114, rfl, fun tl => rfl⟩
        · exact ⟨110, rfl, fun tl => rfl⟩
      rw [hpe] at hf ⊢
      cases fuel with
      | zero => omega
      | succ f =>
        simp only [List.cons_append, List.nil_append]
        rw [parseDqBody_succ_esc, he]
        simp only [ih rest f (by simp at hf; omega)]
        rfl
    · push_neg at hs
      obtain ⟨h1, h2, h3, h4, h5⟩ := hs
      have hpe : poEscapeChar c = [c] := by simp [poEscapeChar, h1, h2, h3, h4, h5]
      rw [hpe] at hf ⊢
      cases fuel with
      | zero => omega
      | succ f =>
        simp only [List.cons_append, List.nil_append]
        rw [parseDqBody_succ_ord f _ h2 h5 h4 h1]
        simp only [ih rest f (by simp at hf; omega)]

theorem astLiteralEval_quoted_escaped (s : PyStr) (h0 : 0 ∉ s) :
    astLiteralEvalStr (34 :: (po_escape s ++ [34])) = some s := by
  have hmem : ¬ (0 ∈ (34 :: (po_escape s ++ [34]))) := by
    intro h
    simp only [List.mem_cons, List.mem_append, List.mem_singleton] at h
    rcases h with h | h | h
    · exact absurd h (by decide)
    · exact zero_not_mem_po_escape h0 h
    · exact absurd h (by decide)
  have hc : (34 :: (po_escape s ++ [34])).contains 0 = false := by simpa using hmem
  unfold astLiteralEvalStr
  rw [hc]
  simp only [Bool.false_eq_true, if_false, pyStrip_quoted]
  have hlen : (34 :: (po_escape s ++ [34])).length + 1 =
      ((po_escape s).length + 2) + 1 := by simp
  rw [hlen, parseDqConcat]
  have hbody : parseDqBody ((po_escape s).length + 2 + 1) (po_escape s ++ [34]) =
      some (s, []) := by
    have h : po_escape s ++ [34] = po_escape s ++ 34 :: [] := rfl
    rw [h, parseDqBody_escaped s [] _ (by omega)]
  rw [hbody]
  simp [pyStripLeft]

/-- C3: the Charset Resolver's regex is written `r"charset=([^\\s;]+)"`; in
a raw string the class excludes the letter `s` (and `\`, `;`) instead of
whitespace, so for the header `charset=us-ascii` it stops after the first
character and returns `"u"` instead of the parameter's value `us-ascii`
(the spec's contract: extract the parameter's value). The absent-parameter
default `"utf-8"` is still honoured. -/
theorem detect_charset_regex_bug :
    detect_charset_from_header (pstr "Content-Type: text/plain; charset=us-ascii\n") = pstr "u" ∧
    detect_charset_from_header (pstr "Content-Type: text/plain; charset=us-ascii\n") ≠ pstr "us-ascii" ∧
    detect_charset_from_header (pstr "no such parameter") = pstr "utf-8" :=
  ⟨by decide, by decide, by decide⟩

/-- C8 (counterexample): the string `"\\␀"` (a backslash followed by NUL)
contains a backslash, yet unescaping its escaped-and-quoted form yields the
empty string, because `ast.literal_eval` rejects source text containing a
NUL byte and `_parse_po_string_literal` then returns `""`. -/
theorem po_escape_unescape_cex :
    (92 ∈ ([92, 0] : PyStr)) ∧
    parse_po_string_literal ([34] ++ po_escape [92, 0] ++ [34]) ≠ [92, 0] :=
  ⟨by decide, by decide⟩

/-- C8 (amended): for every NUL-free string `s` containing a backslash,
double quote, tab, carriage return, or newline, applying the PO literal
parser to the output of the PO escaper wrapped in quotes yields `s`
again. -/
theorem po_escape_unescape_roundtrip (s : PyStr)
    (_hspec : ∃ c ∈ s, c = 92 ∨ c = 34 ∨ c = 9 ∨ c = 13 ∨ c = 10)
    (h0 : 0 ∉ s) :
    parse_po_string_literal ([34] ++ po_escape s ++ [34]) = s := by
  have hsh : [34] ++ po_escape s ++ [34] = 34 :: (po_escape s ++ [34]) := by simp
  rw [hsh]
  unfold parse_po_string_literal
  rw [pyStrip_quoted]
  simp only [List.headD_cons, reduceIte]
  rw [astLiteralEval_quoted_escaped s h0]
  rfl

/-- C8 (witness): the round-trip theorem applied to the concrete string
`"a\tb"`. -/
theorem po_escape_unescape_witness :
    ((∃ c ∈ pstr "a\tb", c = 92 ∨ c = 34 ∨ c = 9 ∨ c = 13 ∨ c = 10) ∧ 0 ∉ pstr "a\tb") ∧
    parse_po_string_literal ([34] ++ po_escape (pstr "a\tb") ++ [34]) = pstr "a\tb" :=
  ⟨⟨by decide, by decide⟩, po_escape_unescape_roundtrip _ (by decide) (by decide)⟩

/-! ### The missing-translation report tool (`missing_translations.py`) -/

/-- `_entry_key`: the `(msgctxt, msgid, msgid_plural)` key of an entry. -/
def entryKey (e : PoEntry) : Option PyStr × PyStr × Option PyStr :=
  (e.msgctxt, e.msgid, e.msgid_plural)

/-- `_normalize_msgstr`: `[p or "" for p in parts]`; the empty string is the
only falsy string, so every element is unchanged (kept in the source's
conditional form). -/
def normalize_msgstr (parts : List PyStr) : List PyStr :=
  parts.map (fun p => if p = [] then [] else p)

/-- `_is_missing_translation` of `missing_translations.py`. -/
def is_missing_translation (en_entry pt_entry : PoEntry) : Bool :=
  if pt_entry.msgid = [] then false
  else
    let en_msgstr := normalize_msgstr en_entry.msgstr
    let pt_msgstr := normalize_msgstr pt_entry.msgstr
    if pt_msgstr = [] ∨ pt_msgstr.all (fun s => pyStrip s == []) then true
    else
      let m := max en_msgstr.length pt_msgstr.length
      let enp := en_msgstr ++ List.replicate (m - en_msgstr.length) []
      let ptp := pt_msgstr ++ List.replicate (m - pt_msgstr.length) []
      (ptp.zip enp).all (fun pe => pe.1 == pe.2)

/-- Python `dict` insertion: an existing key keeps its position and gets
the new value; a new key is appended at the end. -/
def dictInsert {α β : Type} [DecidableEq α] : List (α × β) → α → β → List (α × β)
  | [], k, v => [(k, v)]
  | (k', v') :: rest, k, v =>
    if k' = k then (k', v) :: rest else (k', v') :: dictInsert rest k v

/-- Python `dict.get` / `dict[k]`: the value bound to `k`, if any. -/
def dictGet {α β : Type} [DecidableEq α] : List (α × β) → α → Option β
  | [], _ => none
  | (k', v') :: rest, k => if k' = k then some v' else dictGet rest k

/-- The `en_by_key` dict of `missing_translations.main`: entry key to entry
over the non-header reference entries, later duplicates overwriting. -/
def enByKey (en_entries : List PoEntry) :
    List ((Option PyStr × PyStr × Option PyStr) × PoEntry) :=
  (en_entries.filter (fun e => !(e.msgid = []))).foldl
    (fun m e => dictInsert m (entryKey e) e) []

/-- Whether the `main` loop of `missing_translations.py` reports `pt_entry`:
headers are skipped, entries whose key is absent from the reference map are
skipped, the rest are classified by `_is_missing_translation`. -/
def reportsMissing (en_entries : List PoEntry) (pt_entry : PoEntry) : Bool :=
  if pt_entry.msgid = [] then false
  else
    match dictGet (enByKey en_entries) (entryKey pt_entry) with
    | none => false
    | some en_entry => is_missing_translation en_entry pt_entry

/-- Spec-side wording of C5: all of the entry's translation strings are
blank. -/
def specAllBlank (ps : List PyStr) : Prop := ∀ s ∈ ps, pyStrip s = []

/-- Spec-side wording of C5: after padding the shorter of the two
translation sequences with empty strings to equal length, every target
translation string is character-for-character identical to the
corresponding reference translation string. -/
def specPaddedEq (en pt : List PyStr) : Prop :=
  ∀ i < max en.length pt.length, pt.getD i [] = en.getD i []

theorem normalize_msgstr_id (ps : List PyStr) : normalize_msgstr ps = ps := by
  unfold normalize_msgstr
  have h : ∀ p : PyStr, (if p = [] then ([] : PyStr) else p) = p := by
    intro p; split <;> simp_all
  simp [h]

theorem getD_pad (l : List PyStr) (m i : Nat) :
    (l ++ List.replicate (m - l.length) ([] : PyStr)).getD i [] = l.getD i [] := by
  by_cases hi : i < l.length
  · exact List.getD_append _ _ _ _ hi
  · rw [List.getD_append_right _ _ _ _ (Nat.le_of_not_lt hi),
      List.getD_eq_default _ _ (Nat.le_of_not_lt hi)]
    by_cases hr : i - l.length < m - l.length
    · rw [List.getD_eq_getElem?_getD, List.getElem?_replicate]
      simp [hr]
    · simp [List.getD_eq_default, List.length_replicate, Nat.le_of_not_lt hr]

theorem zip_all_eq_iff (l1 l2 : List PyStr) (h : l1.length = l2.length) :
    ((l1.zip l2).all (fun pe => pe.1 == pe.2) = true) ↔
      ∀ i < l1.length, l1.getD i [] = l2.getD i [] := by
  induction l1 generalizing l2 with
  | nil => simp
  | cons a t ih =>
    cases l2 with
    | nil => simp at h
    | cons b t2 =>
      simp only [List.zip_cons_cons, List.all_cons, Bool.and_eq_true, beq_iff_eq,
        List.length_cons]
      constructor
      · rintro ⟨hab, hall⟩ i hi
        cases i with
        | zero => simpa using hab
        | succ j =>
          have := (ih t2 (by simpa using h)).mp hall j (by omega)
          simpa using this
      · intro h'
        refine ⟨by simpa using h' 0 (by omega), ?_⟩
        refine (ih t2 (by simpa using h)).mpr (fun j hj => ?_)
        simpa using h' (j + 1) (by omega)

theorem is_missing_iff (en pt : PoEntry) (hhdr : pt.msgid ≠ []) :
    (is_missing_translation en pt = true ↔
      specAllBlank pt.msgstr ∨ specPaddedEq en.msgstr pt.msgstr) := by
  unfold is_missing_translation
  rw [if_neg hhdr, normalize_msgstr_id, normalize_msgstr_id]
  by_cases hb : pt.msgstr = [] ∨ pt.msgstr.all (fun s => pyStrip s == []) = true
  · rw [if_pos hb]
    simp only [true_iff]
    left
    rcases hb with hb | hb
    · intro s hs; rw [hb] at hs; simp at hs
    · intro s hs
      have := List.all_eq_true.mp hb s hs
      simpa using this
  · rw [if_neg hb]
    push_neg at hb
    obtain ⟨hb1, hb2⟩ := hb
    have hnab : ¬ specAllBlank pt.msgstr := by
      intro hab
      exact hb2 (List.all_eq_true.mpr (fun s hs => by simpa using hab s hs))
    have hlp : (pt.msgstr ++
        List.replicate (max en.msgstr.length pt.msgstr.length - pt.msgstr.length)
          ([] : PyStr)).length = max en.msgstr.length pt.msgstr.length := by
      simp only [List.length_append, List.length_replicate]
      omega
    have hle : (en.msgstr ++
        List.replicate (max en.msgstr.length pt.msgstr.length - en.msgstr.length)
          ([] : PyStr)).length = max en.msgstr.length pt.msgstr.length := by
      simp only [List.length_append, List.length_replicate]
      omega
    rw [zip_all_eq_iff _ _ (by rw [hlp, hle])]
    constructor
    · intro h
      right
      intro i hi
      have hgot := h i (by rw [hlp]; exact hi)
      rw [getD_pad, getD_pad] at hgot
      exact hgot
    · intro h i hi
      rcases h with h | h
      · exact absurd h hnab
      · rw [getD_pad, getD_pad]
        exact h i (by rw [hlp] at hi; exact hi)

/-- C5: for non-header target entries whose key is found in the reference
map, the report classifies the entry as a missing translation exactly when
all of its translation strings are blank, or, after padding the shorter of
the two translation sequences with empty strings to equal length, every
target translation string equals the corresponding reference one. -/
theorem missing_translation_classification (en_entries : List PoEntry)
    (pt en : PoEntry) (hhdr : pt.msgid ≠ [])
    (hkey : dictGet (enByKey en_entries) (entryKey pt) = some en) :
    (reportsMissing en_entries pt = true ↔
      specAllBlank pt.msgstr ∨ specPaddedEq en.msgstr pt.msgstr) := by
  unfold reportsMissing
  rw [if_neg hhdr, hkey]
  exact is_missing_iff en pt hhdr

/-- C5 (witness): a plural target entry with two blank translations whose
key exists in the reference catalog is reported (the spec's Scenario A). -/
theorem missing_translation_classification_witness :
    ((pstr "cat" : PyStr) ≠ [] ∧
      dictGet (enByKey [⟨none, pstr "cat", some (pstr "cats"), [pstr "Katze", pstr "Katzen"]⟩])
          (entryKey ⟨none, pstr "cat", some (pstr "cats"), [[], []]⟩) =
        some ⟨none, pstr "cat", some (pstr "cats"), [pstr "Katze", pstr "Katzen"]⟩) ∧
    (reportsMissing [⟨none, pstr "cat", some (pstr "cats"), [pstr "Katze", pstr "Katzen"]⟩]
        ⟨none, pstr "cat", some (pstr "cats"), [[], []]⟩ = true ↔
      specAllBlank [[], []] ∨
        specPaddedEq [pstr "Katze", pstr "Katzen"] [[], []]) :=
  ⟨⟨by decide, by decide⟩,
    missing_translation_classification
      [⟨none, pstr "cat", some (pstr "cats"), [pstr "Katze", pstr "Katzen"]⟩]
      ⟨none, pstr "cat", some (pstr "cats"), [[], []]⟩
      ⟨none, pstr "cat", some (pstr "cats"), [pstr "Katze", pstr "Katzen"]⟩
      (by decide) (by decide)⟩

/-- C10: `read_po` is total — it returns a charset and an entry list for
every input text; a line that is non-blank, not a comment, matches no
directive and is not an applicable continuation line leaves the loop state
unchanged; and a string literal the evaluator rejects (including one not
starting with a double quote) yields the empty string. -/
theorem read_po_totality :
    (∀ text : PyStr, ∃ cs es, read_po text = (cs, es)) ∧
    (∀ (st : RpState) (raw : PyStr),
      pyStrip raw ≠ [] →
      (pyStrip raw).headD 0 ≠ 35 →
      ¬ (pstr "msgctxt").isPrefixOf (pyStrip raw) →
      ¬ (pstr "msgid_plural").isPrefixOf (pyStrip raw) →
      ¬ (pstr "msgid").isPrefixOf (pyStrip raw) →
      matchMsgstrIdx (pyStrip raw) = none →
      ¬ (pstr "msgstr").isPrefixOf (pyStrip raw) →
      ((pyStrip raw).headD 0 ≠ 34 ∨ st.active = none ∨ st.cur = none) →
      processLine st raw = st) ∧
    (∀ s : PyStr,
      ((pyStrip s).headD 0 ≠ 34 ∨ astLiteralEvalStr (pyStrip s) = none) →
      parse_po_string_literal s = []) := by
  refine ⟨fun text => ⟨(read_po text).1, (read_po text).2, rfl⟩, ?_, ?_⟩
  · intro st raw h1 h2 h3 h4 h5 h6 h7 h8
    unfold processLine
    rw [if_neg h1, if_neg h2, if_neg h3, if_neg h4, if_neg h5, h6]
    simp only []
    rw [if_neg h7]
    rcases h8 with h8 | h8 | h8
    · rw [if_neg h8]
    · by_cases h9 : (pyStrip raw).headD 0 = 34
      · rw [if_pos h9, h8]
      · rw [if_neg h9]
    · by_cases h9 : (pyStrip raw).headD 0 = 34
      · rw [if_pos h9, h8]
        cases st.active <;> rfl
      · rw [if_neg h9]
  · intro s hs
    unfold parse_po_string_literal
    rcases hs with hs | hs
    · rw [if_neg hs]
    · by_cases h9 : (pyStrip s).headD 0 = 34
      · rw [if_pos h9, hs]
        rfl
      · rw [if_neg h9]

/-- C10 (witness): the totality theorem applied to concrete inputs — a
concrete text, a junk line in the initial state, and a rejected literal. -/
theorem read_po_totality_witness :
    (∃ cs es, read_po (pstr "msgid \"a\"") = (cs, es)) ∧
    processLine rpInit (pstr "random junk line") = rpInit ∧
    parse_po_string_literal (pstr "not a literal") = [] :=
  ⟨read_po_totality.1 (pstr "msgid \"a\""),
    read_po_totality.2.1 rpInit (pstr "random junk line") (by decide) (by decide)
      (by decide) (by decide) (by decide) (by decide) (by decide)
      (Or.inr (Or.inl rfl)),
    read_po_totality.2.2 (pstr "not a literal") (Or.inl (by decide))⟩

/-! ### PO round-trip: utility lemmas -/

theorem pstr_msgctxt_sp : pstr "msgctxt " = [109, 115, 103, 99, 116, 120, 116, 32] := by decide

theorem pstr_msgid_sp : pstr "msgid " = [109, 115, 103, 105, 100, 32] := by decide

theorem pstr_msgid_plural_sp :
    pstr "msgid_plural " = [109, 115, 103, 105, 100, 95, 112, 108, 117, 114, 97, 108, 32] := by
  decide

theorem pstr_msgstr_sp : pstr "msgstr " = [109, 115, 103, 115, 116, 114, 32] := by decide

theorem pstr_msgstr_br : pstr "msgstr[" = [109, 115, 103, 115, 116, 114, 91] := by decide

theorem pstr_br_sp : pstr "] " = [93, 32] := by decide

theorem pstr_msgctxt_kw : pstr "msgctxt" = [109, 115, 103, 99, 116, 120, 116] := by decide

theorem pstr_msgid_kw : pstr "msgid" = [109, 115, 103, 105, 100] := by decide

theorem pstr_msgid_plural_kw :
    pstr "msgid_plural" = [109, 115, 103, 105, 100, 95, 112, 108, 117, 114, 97, 108] := by decide

theorem pstr_msgstr_kw : pstr "msgstr" = [109, 115, 103, 115, 116, 114] := by decide

theorem pyStripLeft_noop {s : PyStr} (hh : pyIsSpace (s.headD 32) = false) :
    pyStripLeft s = s := by
  cases s with
  | nil => rfl
  | cons a t =>
    simp only [List.headD_cons] at hh
    simp [pyStripLeft, List.dropWhile_cons, hh]

theorem pyStripRight_noop {s : PyStr} (hh : pyIsSpace (s.reverse.headD 32) = false) :
    pyStripRight s = s := by
  unfold pyStripRight
  cases hrev : s.reverse with
  | nil =>
    have hs : s = [] := by simpa using congrArg List.reverse hrev
    subst hs; rfl
  | cons b r =>
    have hb : pyIsSpace b = false := by rw [hrev] at hh; simpa using hh
    rw [List.dropWhile_cons, if_neg (by simp [hb])]
    have h2 : s = (b :: r).reverse := by simpa using congrArg List.reverse hrev
    exact h2.symm

theorem pyStrip_noop {s : PyStr} (hh : pyIsSpace (s.headD 32) = false)
    (hl : pyIsSpace (s.reverse.headD 32) = false) : pyStrip s = s := by
  unfold pyStrip
  rw [pyStripLeft_noop hh, pyStripRight_noop hl]

theorem parse_quoted_escape (w : PyStr) (h0 : 0 ∉ w) :
    parse_po_string_literal (34 :: (po_escape w ++ [34])) = w := by
  unfold parse_po_string_literal
  rw [pyStrip_quoted]
  simp only [List.headD_cons, reduceIte]
  rw [astLiteralEval_quoted_escaped w h0]
  rfl

theorem quote_wrap_eq (E : PyStr) : [34] ++ E ++ [34] = 34 :: (E ++ [34]) := rfl

/-! ### Decimal printing round-trip -/

theorem digitsToNat_append_digit (xs : PyStr) (d : Nat) :
    digitsToNat (xs ++ [d]) = 10 * digitsToNat xs + (d - 48) := by
  unfold digitsToNat
  rw [List.foldl_append]
  rfl

theorem natDigitsAux_succ (f n : Nat) :
    natDigitsAux (f + 1) n =
      if n < 10 then [48 + n] else natDigitsAux f (n / 10) ++ [48 + n % 10] := rfl

theorem natDigitsAux_spec :
    ∀ (fuel n : Nat), n < fuel →
      digitsToNat (natDigitsAux fuel n) = n ∧
      (∀ c ∈ natDigitsAux fuel n, isDigitCp c = true) ∧
      natDigitsAux fuel n ≠ [] := by
  intro fuel
  induction fuel with
  | zero => omega
  | succ f ih =>
    intro n hn
    by_cases h10 : n < 10
    · rw [natDigitsAux_succ, if_pos h10]
      refine ⟨?_, ?_, by simp⟩
      · unfold digitsToNat
        simp only [List.foldl_cons, List.foldl_nil]
        omega
      · intro c hc
        simp only [List.mem_singleton] at hc
        subst hc
        simp only [isDigitCp, Bool.and_eq_true, decide_eq_true_eq]
        omega
    · have hdiv : n / 10 < f := by
        have h1 : n / 10 < n := Nat.div_lt_self (by omega) (by omega)
        omega
      obtain ⟨ih1, ih2, ih3⟩ := ih (n / 10) hdiv
      rw [natDigitsAux_succ, if_neg h10]
      refine ⟨?_, ?_, by simp⟩
      · rw [digitsToNat_append_digit, ih1]
        omega
      · intro c hc
        rcases List.mem_append.mp hc with hc | hc
        · exact ih2 c hc
        · simp only [List.mem_singleton] at hc
          subst hc
          simp only [isDigitCp, Bool.and_eq_true, decide_eq_true_eq]
          omega

theorem digitsToNat_natDigits (n : Nat) : digitsToNat (natDigits n) = n :=
  (natDigitsAux_spec (n + 1) n (by omega)).1

theorem natDigits_all_digits (n : Nat) : ∀ c ∈ natDigits n, isDigitCp c = true :=
  (natDigitsAux_spec (n + 1) n (by omega)).2.1

theorem natDigits_ne_nil (n : Nat) : natDigits n ≠ [] :=
  (natDigitsAux_spec (n + 1) n (by omega)).2.2

theorem takeWhile_append_stop {p : Nat → Bool} (a : PyStr) {b0 : Nat} (b' : PyStr)
    (ha : ∀ c ∈ a, p c = true) (hb : p b0 = false) :
    (a ++ b0 :: b').takeWhile p = a := by
  induction a with
  | nil => simp [List.takeWhile_cons, hb]
  | cons x t ih =>
    have hx : p x = true := ha x (List.mem_cons_self x t)
    have ht := ih (fun c hc => ha c (List.mem_cons_of_mem x hc))
    simp [List.takeWhile_cons, hx, ht]

/-! ### List set/pad helper lemmas -/

theorem set_append_singleton {α : Type} (l : List α) (x v : α) :
    (l ++ [x]).set l.length v = l ++ [v] := by
  induction l with
  | nil => rfl
  | cons a t ih => simp [List.set_cons_succ, ih]

theorem padTo_snoc_set (l : List PyStr) (v : PyStr) :
    (padTo l (l.length + 1)).set l.length v = l ++ [v] := by
  unfold padTo
  have h : l.length + 1 - l.length = 1 := by omega
  rw [h, List.replicate_one]
  exact set_append_singleton l ([] : PyStr) v

theorem padTo_noop (l : List PyStr) (n : Nat) (h : n ≤ l.length) : padTo l n = l := by
  unfold padTo
  have h0 : n - l.length = 0 := by omega
  simp [h0]

theorem getD_append_singleton (l : List PyStr) (w : PyStr) :
    (l ++ [w]).getD l.length [] = w := by
  rw [List.getD_append_right _ _ _ _ (Nat.le_refl _)]
  simp

/-! ### splitNl / joinNl -/

theorem splitNl_cons (c : Nat) (rest : PyStr) :
    splitNl (c :: rest) =
      if c = 10 then [] :: splitNl rest
      else
        match splitNl rest with
        | [] => [[c]]
        | l :: ls => (c :: l) :: ls := rfl

theorem splitNl_ne_nil (s : PyStr) : splitNl s ≠ [] := by
  cases s with
  | nil => simp [splitNl]
  | cons c rest =>
    rw [splitNl_cons]
    split
    · simp
    · split <;> simp

theorem joinNl_cons_cons (l q : PyStr) (ls : List PyStr) :
    joinNl (l :: q :: ls) = l ++ 10 :: joinNl (q :: ls) := rfl

theorem joinNl_singleton (l : PyStr) : joinNl [l] = l := by simp [joinNl]

theorem joinNl_splitNl (s : PyStr) : joinNl (splitNl s) = s := by
  induction s with
  | nil => rfl
  | cons c rest ih =>
    rw [splitNl_cons]
    by_cases hc : c = 10
    · subst hc
      simp only [reduceIte]
      obtain ⟨l, ls, hls⟩ : ∃ l ls, splitNl rest = l :: ls := by
        cases h : splitNl rest with
        | nil => exact absurd h (splitNl_ne_nil rest)
        | cons l ls => exact ⟨l, ls, rfl⟩
      rw [hls] at ih ⊢
      rw [joinNl_cons_cons, ih]
      rfl
    · rw [if_neg hc]
      cases h : splitNl rest with
      | nil => exact absurd h (splitNl_ne_nil rest)
      | cons l ls =>
        rw [h] at ih
        simp only []
        cases ls with
        | nil =>
          rw [joinNl_singleton] at ih
          rw [joinNl_singleton, ih]
        | cons q ls' =>
          rw [joinNl_cons_cons] at ih ⊢
          rw [List.cons_append]
          rw [← ih]

theorem splitNl_chars (s : PyStr) : ∀ p ∈ splitNl s, ∀ c ∈ p, c ∈ s ∧ c ≠ 10 := by
  induction s with
  | nil =>
    intro p hp c hc
    simp only [splitNl, List.mem_singleton] at hp
    subst hp
    simp at hc
  | cons x rest ih =>
    intro p hp c hc
    rw [splitNl_cons] at hp
    by_cases hx : x = 10
    · rw [if_pos hx] at hp
      rcases List.mem_cons.mp hp with hp | hp
      · subst hp; simp at hc
      · have := ih p hp c hc
        exact ⟨List.mem_cons_of_mem _ this.1, this.2⟩
    · rw [if_neg hx] at hp
      cases h : splitNl rest with
      | nil => exact absurd h (splitNl_ne_nil rest)
      | cons l ls =>
        rw [h] at hp
        simp only [] at hp
        rcases List.mem_cons.mp hp with hp | hp
        · subst hp
          rcases List.mem_cons.mp hc with hc | hc
          · subst hc; exact ⟨List.mem_cons_self _ _, hx⟩
          · have := ih l (h ▸ List.mem_cons_self l ls) c hc
            exact ⟨List.mem_cons_of_mem _ this.1, this.2⟩
        · have := ih p (h ▸ List.mem_cons_of_mem l hp) c hc
          exact ⟨List.mem_cons_of_mem _ this.1, this.2⟩

/-! ### Safety conditions for the PO round trip -/

/-- Characters that survive the PO round trip: NUL is rejected by the
literal evaluator, and the line-breaking characters other than newline and
carriage return (which `_po_escape` escapes) would be broken by
`splitlines` when reading back. -/
def poSafeChar (c : Nat) : Bool :=
  !(c = 0 || c = 11 || c = 12 || c = 28 || c = 29 || c = 30 || c = 133 ||
    c = 8232 || c = 8233)

/-- All characters of the string are PO-round-trip safe. -/
def poSafeStr (s : PyStr) : Bool := s.all poSafeChar

/-- An entry `write_po` can round-trip: all fields safe, and exactly one
translation when there is no plural (a singular entry's `msgstr` list
collapses to its first element on writing). -/
def poSafeEntry (e : PoEntry) : Bool :=
  (match e.msgctxt with | some c => poSafeStr c | none => true) &&
  poSafeStr e.msgid &&
  (match e.msgid_plural with | some p => poSafeStr p | none => true) &&
  e.msgstr.all poSafeStr &&
  (match e.msgid_plural with | none => e.msgstr.length == 1 | some _ => true)

theorem poSafe_no_zero {s : PyStr} (h : poSafeStr s = true) : 0 ∉ s := by
  intro h0
  have := List.all_eq_true.mp h 0 h0
  simp [poSafeChar] at this

theorem isPyLineBreak_false_of_safe {c : Nat} (hs : poSafeChar c = true)
    (h10 : c ≠ 10) (h13 : c ≠ 13) : isPyLineBreak c = false := by
  simp only [poSafeChar, Bool.not_eq_true', Bool.or_eq_false_iff, decide_eq_false_iff_not]
    at hs
  simp only [isPyLineBreak, Bool.or_eq_false_iff, decide_eq_false_iff_not]
  tauto

theorem po_escape_no_break {t : PyStr} (ht : ∀ c ∈ t, poSafeChar c = true) :
    ∀ x ∈ po_escape t, isPyLineBreak x = false := by
  induction t with
  | nil => intro x hx; rw [po_escape_nil] at hx; simp at hx
  | cons c t' ih =>
    intro x hx
    rw [po_escape_cons] at hx
    rcases List.mem_append.mp hx with hx | hx
    · have hc := ht c (List.mem_cons_self c t')
      unfold poEscapeChar at hx
      split_ifs at hx with h1 h2 h3 h4 h5
      · rcases List.mem_pair.mp hx with h | h <;> subst h <;> decide
      · rcases List.mem_pair.mp hx with h | h <;> subst h <;> decide
      · rcases List.mem_pair.mp hx with h | h <;> subst h <;> decide
      · rcases List.mem_pair.mp hx with h | h <;> subst h <;> decide
      · rcases List.mem_pair.mp hx with h | h <;> subst h <;> decide
      · have hxc : x = c := by simpa using hx
        subst hxc
        exact isPyLineBreak_false_of_safe hc h5 h4
    · exact ih (fun c' hc' => ht c' (List.mem_cons_of_mem c hc')) x hx

/-! ### po_quote facts -/

theorem poQuoteParts_singleton (p : PyStr) :
    poQuoteParts [p] = [[34] ++ po_escape p ++ [34]] := rfl

theorem poQuoteParts_cons_cons (p q : PyStr) (qs : List PyStr) :
    poQuoteParts (p :: q :: qs) =
      ([34] ++ po_escape (p ++ [10]) ++ [34]) :: poQuoteParts (q :: qs) := rfl

theorem po_quote_ne_nil (s : PyStr) : po_quote s ≠ [] := by
  unfold po_quote
  by_cases hs : s = []
  · simp [hs]
  · rw [if_neg hs]
    cases h : splitNl s with
    | nil => exact absurd h (splitNl_ne_nil s)
    | cons l ls =>
      cases ls with
      | nil => simp [poQuoteParts_singleton]
      | cons q qs => simp [poQuoteParts_cons_cons]

theorem poQuoteParts_shape :
    ∀ (ps : List PyStr), ∀ l ∈ poQuoteParts ps, ∃ inner, l = 34 :: (inner ++ [34]) := by
  intro ps
  induction ps with
  | nil => intro l hl; simp [poQuoteParts] at hl
  | cons p ps' ih =>
    cases ps' with
    | nil =>
      intro l hl
      rw [poQuoteParts_singleton] at hl
      simp only [List.mem_singleton] at hl
      exact ⟨po_escape p, by rw [hl]; rfl⟩
    | cons q qs =>
      intro l hl
      rw [poQuoteParts_cons_cons] at hl
      rcases List.mem_cons.mp hl with hl | hl
      · exact ⟨po_escape (p ++ [10]), by rw [hl]; rfl⟩
      · exact ih l hl

theorem po_quote_shape (s : PyStr) :
    ∀ l ∈ po_quote s, ∃ inner, l = 34 :: (inner ++ [34]) := by
  unfold po_quote
  by_cases hs : s = []
  · intro l hl
    rw [if_pos hs] at hl
    simp only [List.mem_singleton] at hl
    exact ⟨[], by rw [hl]; rfl⟩
  · rw [if_neg hs]
    exact poQuoteParts_shape (splitNl s)

theorem poQuoteParts_chars (ps : List PyStr)
    (hsafe : ∀ p ∈ ps, ∀ c ∈ p, poSafeChar c = true) :
    ∀ l ∈ poQuoteParts ps, ∀ x ∈ l, isPyLineBreak x = false := by
  induction ps with
  | nil => intro l hl; simp [poQuoteParts] at hl
  | cons p ps' ih =>
    have hp := hsafe p (List.mem_cons_self p ps')
    have hp10 : ∀ c ∈ p ++ [10], poSafeChar c = true := by
      intro c hc
      rcases List.mem_append.mp hc with hc | hc
      · exact hp c hc
      · simp only [List.mem_singleton] at hc; subst hc; decide
    cases ps' with
    | nil =>
      intro l hl
      rw [poQuoteParts_singleton] at hl
      simp only [List.mem_singleton] at hl
      subst hl
      intro x hx
      rcases List.mem_append.mp hx with hx | hx
      · rcases List.mem_append.mp hx with hx | hx
        · simp only [List.mem_singleton] at hx; subst hx; decide
        · exact po_escape_no_break hp x hx
      · simp only [List.mem_singleton] at hx; subst hx; decide
    | cons q qs =>
      intro l hl
      rw [poQuoteParts_cons_cons] at hl
      rcases List.mem_cons.mp hl with hl | hl
      · subst hl
        intro x hx
        rcases List.mem_append.mp hx with hx | hx
        · rcases List.mem_append.mp hx with hx | hx
          · simp only [List.mem_singleton] at hx; subst hx; decide
          · exact po_escape_no_break hp10 x hx
        · simp only [List.mem_singleton] at hx; subst hx; decide
      · exact ih (fun p' hp' => hsafe p' (List.mem_cons_of_mem p hp')) l hl

theorem po_quote_chars (s : PyStr) (hs : poSafeStr s = true) :
    ∀ l ∈ po_quote s, ∀ x ∈ l, isPyLineBreak x = false := by
  unfold po_quote
  by_cases h : s = []
  · intro l hl
    rw [if_pos h] at hl
    simp only [List.mem_singleton] at hl
    subst hl
    intro x hx
    rcases List.mem_pair.mp hx with hx | hx <;> subst hx <;> decide
  · rw [if_neg h]
    apply poQuoteParts_chars
    intro p hp c hc
    exact List.all_eq_true.mp hs c ((splitNl_chars s p hp c hc).1)

theorem poQuoteParts_flatMap (ps : List PyStr) (h0 : ∀ p ∈ ps, 0 ∉ p) :
    (poQuoteParts ps).flatMap parse_po_string_literal = joinNl ps := by
  induction ps with
  | nil => rfl
  | cons p ps' ih =>
    have hp0 : 0 ∉ p := h0 p (List.mem_cons_self p ps')
    cases ps' with
    | nil =>
      rw [poQuoteParts_singleton, joinNl_singleton]
      simp only [List.flatMap_cons, List.flatMap_nil, List.append_nil]
      rw [quote_wrap_eq, parse_quoted_escape p hp0]
    | cons q qs =>
      rw [poQuoteParts_cons_cons, joinNl_cons_cons]
      simp only [List.flatMap_cons]
      have hp100 : 0 ∉ p ++ [10] := by
        intro hc
        rcases List.mem_append.mp hc with hc | hc
        · exact hp0 hc
        · simp at hc
      rw [quote_wrap_eq, parse_quoted_escape _ hp100]
      rw [ih (fun p' hp' => h0 p' (List.mem_cons_of_mem p hp'))]
      simp

theorem po_quote_flatMap_parse (s : PyStr) (h0 : 0 ∉ s) :
    (po_quote s).flatMap parse_po_string_literal = s := by
  unfold po_quote
  by_cases hs : s = []
  · subst hs
    rw [if_pos rfl]
    decide
  · rw [if_neg hs]
    have h0' : ∀ p ∈ splitNl s, 0 ∉ p :=
      fun p hp hc => h0 ((splitNl_chars s p hp 0 hc).1)
    rw [poQuoteParts_flatMap (splitNl s) h0', joinNl_splitNl]

/-! ### processLine step lemmas -/

theorem isPrefixOf_cons_ne {a b : Nat} (as bs : PyStr) (h : a ≠ b) :
    List.isPrefixOf (a :: as) (b :: bs) = false := by
  simp [List.isPrefixOf, h]

theorem matchMsgstrIdx_quote (X : PyStr) : matchMsgstrIdx (34 :: X) = none := by
  unfold matchMsgstrIdx
  rw [pstr_msgstr_br, isPrefixOf_cons_ne _ _ (by decide)]
  rfl

theorem processLine_cont (st : RpState) (k : ActiveField) (c : PoEntry) (inner : PyStr)
    (hact : st.active = some k) (hcur : st.cur = some c) :
    processLine st (34 :: (inner ++ [34])) =
      { st with cur := some (contUpdate k c (parse_po_string_literal (34 :: (inner ++ [34])))) } := by
  unfold processLine
  rw [pyStrip_quoted]
  rw [if_neg (by simp), if_neg (by simp)]
  rw [pstr_msgctxt_kw, isPrefixOf_cons_ne _ _ (by decide)]
  rw [pstr_msgid_plural_kw, isPrefixOf_cons_ne _ _ (by decide)]
  rw [pstr_msgid_kw, isPrefixOf_cons_ne _ _ (by decide)]
  simp only [Bool.false_eq_true, if_false]
  rw [matchMsgstrIdx_quote]
  simp only []
  rw [pstr_msgstr_kw, isPrefixOf_cons_ne _ _ (by decide)]
  simp only [Bool.false_eq_true, if_false]
  rw [if_pos (by simp), hact, hcur]

theorem append_quoted_assoc (kw inner : PyStr) :
    kw ++ 34 :: (inner ++ [34]) = (kw ++ 34 :: inner) ++ [34] := by simp

theorem pyStrip_kw_quoted (kw inner : PyStr) (hkw : pyIsSpace (kw.headD 34) = false) :
    pyStrip (kw ++ 34 :: (inner ++ [34])) = kw ++ 34 :: (inner ++ [34]) := by
  apply pyStrip_noop
  · cases kw with
    | nil => simpa using (by decide : pyIsSpace 34 = false)
    | cons a t => simpa using hkw
  · rw [append_quoted_assoc, List.reverse_append]
    simpa using (by decide : pyIsSpace 34 = false)

theorem pyIsSpace_32 : pyIsSpace 32 = true := by decide

theorem pyIsSpace_34 : pyIsSpace 34 = false := by decide

theorem pyStrip_space_quoted (inner : PyStr) :
    pyStrip (32 :: (34 :: (inner ++ [34]))) = 34 :: (inner ++ [34]) := by
  unfold pyStrip
  have h1 : pyStripLeft (32 :: (34 :: (inner ++ [34]))) = 34 :: (inner ++ [34]) := by
    simp [pyStripLeft, List.dropWhile_cons, pyIsSpace_32, pyIsSpace_34]
  rw [h1]
  apply pyStripRight_noop
  have hsh : (34 :: (inner ++ [34])) = (34 :: inner) ++ [34] := by simp
  rw [hsh, List.reverse_append]
  simpa using pyIsSpace_34

theorem processLine_blank (st : RpState) :
    processLine st [] = { rpFlush st with active := none } := by
  unfold processLine
  rw [show pyStrip [] = [] from rfl, if_pos rfl]

theorem processLine_msgctxt (st : RpState) (inner : PyStr) :
    processLine st (pstr "msgctxt " ++ (34 :: (inner ++ [34]))) =
      { st with
        cur := some { st.cur.getD freshEntry with msgctxt := some (parse_po_string_literal (34 :: (inner ++ [34]))) }
        active := some .ctxtF } := by
  rw [pstr_msgctxt_sp]
  unfold processLine
  rw [pyStrip_kw_quoted _ _ (by decide)]
  rw [if_neg (by simp), if_neg (by simp)]
  have hpre : (pstr "msgctxt").isPrefixOf
      ([109, 115, 103, 99, 116, 120, 116, 32] ++ 34 :: (inner ++ [34])) = true := by
    rw [pstr_msgctxt_kw]
    simp [List.isPrefixOf]
  simp only [hpre, if_true]
  simp only [List.cons_append, List.nil_append, List.drop_succ_cons, List.drop_zero]
  rw [pyStrip_space_quoted]

theorem processLine_msgid_plural (st : RpState) (inner : PyStr) :
    processLine st (pstr "msgid_plural " ++ (34 :: (inner ++ [34]))) =
      { st with
        cur := some { st.cur.getD freshEntry with msgid_plural := some (parse_po_string_literal (34 :: (inner ++ [34]))) }
        active := some .pluralF } := by
  rw [pstr_msgid_plural_sp]
  unfold processLine
  rw [pyStrip_kw_quoted _ _ (by decide)]
  rw [if_neg (by simp), if_neg (by simp)]
  have hc : (pstr "msgctxt").isPrefixOf
      ([109, 115, 103, 105, 100, 95, 112, 108, 117, 114, 97, 108, 32] ++
        34 :: (inner ++ [34])) = false := by
    rw [pstr_msgctxt_kw]
    simp [List.isPrefixOf]
  rw [hc]
  simp only [Bool.false_eq_true, if_false]
  have hpre : (pstr "msgid_plural").isPrefixOf
      ([109, 115, 103, 105, 100, 95, 112, 108, 117, 114, 97, 108, 32] ++
        34 :: (inner ++ [34])) = true := by
    rw [pstr_msgid_plural_kw]
    simp [List.isPrefixOf]
  simp only [hpre, if_true]
  simp only [List.cons_append, List.nil_append, List.drop_succ_cons, List.drop_zero]
  rw [pyStrip_space_quoted]

theorem processLine_msgid (st : RpState) (inner : PyStr) :
    processLine st (pstr "msgid " ++ (34 :: (inner ++ [34]))) =
      { st with
        cur := some { st.cur.getD freshEntry with msgid := parse_po_string_literal (34 :: (inner ++ [34])) }
        active := some .idF } := by
  rw [pstr_msgid_sp]
  unfold processLine
  rw [pyStrip_kw_quoted _ _ (by decide)]
  rw [if_neg (by simp), if_neg (by simp)]
  have hc : (pstr "msgctxt").isPrefixOf
      ([109, 115, 103, 105, 100, 32] ++ 34 :: (inner ++ [34])) = false := by
    rw [pstr_msgctxt_kw]
    simp [List.isPrefixOf]
  have hp : (pstr "msgid_plural").isPrefixOf
      ([109, 115, 103, 105, 100, 32] ++ 34 :: (inner ++ [34])) = false := by
    rw [pstr_msgid_plural_kw]
    simp [List.isPrefixOf]
  rw [hc]
  simp only [Bool.false_eq_true, if_false]
  rw [hp]
  simp only [Bool.false_eq_true, if_false]
  have hpre : (pstr "msgid").isPrefixOf
      ([109, 115, 103, 105, 100, 32] ++ 34 :: (inner ++ [34])) = true := by
    rw [pstr_msgid_kw]
    simp [List.isPrefixOf]
  simp only [hpre, if_true]
  simp only [List.cons_append, List.nil_append, List.drop_succ_cons, List.drop_zero]
  rw [pyStrip_space_quoted]

theorem processLine_msgstr (st : RpState) (inner : PyStr) :
    processLine st (pstr "msgstr " ++ (34 :: (inner ++ [34]))) =
      { st with
        cur := some { st.cur.getD freshEntry with msgstr := if (st.cur.getD freshEntry).msgstr = [] then [parse_po_string_literal (34 :: (inner ++ [34]))] else (st.cur.getD freshEntry).msgstr.set 0 (parse_po_string_literal (34 :: (inner ++ [34]))) }
        active := some (.strF 0) } := by
  rw [pstr_msgstr_sp]
  unfold processLine
  rw [pyStrip_kw_quoted _ _ (by decide)]
  rw [if_neg (by simp), if_neg (by simp)]
  have hc : (pstr "msgctxt").isPrefixOf
      ([109, 115, 103, 115, 116, 114, 32] ++ 34 :: (inner ++ [34])) = false := by
    rw [pstr_msgctxt_kw]
    simp [List.isPrefixOf]
  have hp : (pstr "msgid_plural").isPrefixOf
      ([109, 115, 103, 115, 116, 114, 32] ++ 34 :: (inner ++ [34])) = false := by
    rw [pstr_msgid_plural_kw]
    simp [List.isPrefixOf]
  have hi : (pstr "msgid").isPrefixOf
      ([109, 115, 103, 115, 116, 114, 32] ++ 34 :: (inner ++ [34])) = false := by
    rw [pstr_msgid_kw]
    simp [List.isPrefixOf]
  have hmi : matchMsgstrIdx ([109, 115, 103, 115, 116, 114, 32] ++ 34 :: (inner ++ [34])) = none := by
    unfold matchMsgstrIdx
    have h7 : (pstr "msgstr[").isPrefixOf
        ([109, 115, 103, 115, 116, 114, 32] ++ 34 :: (inner ++ [34])) = false := by
      rw [pstr_msgstr_br]
      simp [List.isPrefixOf]
    rw [h7]
    simp
  rw [hc]
  simp only [Bool.false_eq_true, if_false]
  rw [hp]
  simp only [Bool.false_eq_true, if_false]
  rw [hi]
  simp only [Bool.false_eq_true, if_false]
  rw [hmi]
  simp only []
  have hpre : (pstr "msgstr").isPrefixOf
      ([109, 115, 103, 115, 116, 114, 32] ++ 34 :: (inner ++ [34])) = true := by
    rw [pstr_msgstr_kw]
    simp [List.isPrefixOf]
  simp only [hpre, if_true]
  simp only [List.cons_append, List.nil_append, List.drop_succ_cons, List.drop_zero]
  rw [pyStrip_space_quoted]

theorem matchMsgstrIdx_line (i : Nat) (X : PyStr) :
    matchMsgstrIdx ([109, 115, 103, 115, 116, 114, 91] ++ (natDigits i ++ (93 :: 32 :: X))) =
      some (i, 32 :: X) := by
  unfold matchMsgstrIdx
  have hpre : (pstr "msgstr[").isPrefixOf
      ([109, 115, 103, 115, 116, 114, 91] ++ (natDigits i ++ (93 :: 32 :: X))) = true := by
    rw [pstr_msgstr_br]
    simp [List.isPrefixOf]
  simp only [hpre, if_true]
  simp only [List.cons_append, List.nil_append, List.drop_succ_cons, List.drop_zero]
  rw [takeWhile_append_stop (natDigits i) _ (natDigits_all_digits i) (by decide)]
  rw [if_neg (natDigits_ne_nil i)]
  rw [List.drop_left]
  simp only [List.headD_cons]
  simp only [if_true, reduceIte]
  rw [digitsToNat_natDigits]
  have hd : (natDigits i ++ (93 :: 32 :: X)).drop ((natDigits i).length + 1) = 32 :: X := by
    rw [← List.drop_drop 1 (natDigits i).length, List.drop_left]
    rfl
  rw [hd]

theorem processLine_msgstridx (st : RpState) (i : Nat) (inner : PyStr) :
    processLine st (pstr "msgstr[" ++ (natDigits i ++ (93 :: 32 :: (34 :: (inner ++ [34]))))) =
      { st with
        cur := some { st.cur.getD freshEntry with msgstr := (padTo (st.cur.getD freshEntry).msgstr (i + 1)).set i (parse_po_string_literal (34 :: (inner ++ [34]))) }
        active := some (.strF i) } := by
  rw [pstr_msgstr_br]
  unfold processLine
  have hstrip : pyStrip ([109, 115, 103, 115, 116, 114, 91] ++
      (natDigits i ++ (93 :: 32 :: (34 :: (inner ++ [34]))))) =
      [109, 115, 103, 115, 116, 114, 91] ++
        (natDigits i ++ (93 :: 32 :: (34 :: (inner ++ [34])))) := by
    apply pyStrip_noop
    · simp only [List.cons_append, List.headD_cons]
      decide
    · have hsh : [109, 115, 103, 115, 116, 114, 91] ++
          (natDigits i ++ (93 :: 32 :: (34 :: (inner ++ [34])))) =
          (109 :: 115 :: 103 :: 115 :: 116 :: 114 :: 91 ::
            (natDigits i ++ (93 :: 32 :: (34 :: inner)))) ++ [34] := by
        simp
      rw [hsh, List.reverse_append]
      simpa using pyIsSpace_34
  rw [hstrip]
  rw [if_neg (by simp), if_neg (by simp)]
  have hc : (pstr "msgctxt").isPrefixOf
      ([109, 115, 103, 115, 116, 114, 91] ++
        (natDigits i ++ (93 :: 32 :: (34 :: (inner ++ [34]))))) = false := by
    rw [pstr_msgctxt_kw]
    simp [List.isPrefixOf]
  have hp : (pstr "msgid_plural").isPrefixOf
      ([109, 115, 103, 115, 116, 114, 91] ++
        (natDigits i ++ (93 :: 32 :: (34 :: (inner ++ [34]))))) = false := by
    rw [pstr_msgid_plural_kw]
    simp [List.isPrefixOf]
  have hi : (pstr "msgid").isPrefixOf
      ([109, 115, 103, 115, 116, 114, 91] ++
        (natDigits i ++ (93 :: 32 :: (34 :: (inner ++ [34]))))) = false := by
    rw [pstr_msgid_kw]
    simp [List.isPrefixOf]
  rw [hc]
  simp only [Bool.false_eq_true, if_false]
  rw [hp]
  simp only [Bool.false_eq_true, if_false]
  rw [hi]
  simp only [Bool.false_eq_true, if_false]
  rw [matchMsgstrIdx_line]
  simp only []
  rw [pyStrip_space_quoted]

/-! ### Continuation folds -/

theorem cont_fold_ctxt (qs : List PyStr)
    (hsh : ∀ l ∈ qs, ∃ inner, l = 34 :: (inner ++ [34])) :
    ∀ (es : List PoEntry) (c : PoEntry) (v : PyStr) (hdr : PyStr),
      c.msgctxt = some v →
      qs.foldl processLine ⟨es, some c, some .ctxtF, hdr⟩ =
        ⟨es, some { c with msgctxt := some (v ++ qs.flatMap parse_po_string_literal) },
          some .ctxtF, hdr⟩ := by
  induction qs with
  | nil =>
    intro es c v hdr hv
    simp only [List.foldl_nil, List.flatMap_nil, List.append_nil]
    obtain ⟨mc, mi, mp, ms⟩ := c
    simp only [] at hv
    subst hv
    rfl
  | cons q qs' ih =>
    intro es c v hdr hv
    obtain ⟨inner, hq⟩ := hsh q (List.mem_cons_self q qs')
    subst hq
    rw [List.foldl_cons, processLine_cont _ .ctxtF c inner rfl rfl]
    simp only [contUpdate, hv, Option.getD_some]
    rw [ih (fun l hl => hsh l (List.mem_cons_of_mem _ hl)) es _
      (v ++ parse_po_string_literal (34 :: (inner ++ [34]))) hdr rfl]
    simp only [List.flatMap_cons, List.append_assoc]

theorem cont_fold_id (qs : List PyStr)
    (hsh : ∀ l ∈ qs, ∃ inner, l = 34 :: (inner ++ [34])) :
    ∀ (es : List PoEntry) (c : PoEntry) (hdr : PyStr),
      qs.foldl processLine ⟨es, some c, some .idF, hdr⟩ =
        ⟨es, some { c with msgid := c.msgid ++ qs.flatMap parse_po_string_literal },
          some .idF, hdr⟩ := by
  induction qs with
  | nil =>
    intro es c hdr
    simp only [List.foldl_nil, List.flatMap_nil, List.append_nil]
  | cons q qs' ih =>
    intro es c hdr
    obtain ⟨inner, hq⟩ := hsh q (List.mem_cons_self q qs')
    subst hq
    rw [List.foldl_cons, processLine_cont _ .idF c inner rfl rfl]
    simp only [contUpdate]
    rw [ih (fun l hl => hsh l (List.mem_cons_of_mem _ hl))]
    simp only [List.flatMap_cons, List.append_assoc]

theorem cont_fold_plural (qs : List PyStr)
    (hsh : ∀ l ∈ qs, ∃ inner, l = 34 :: (inner ++ [34])) :
    ∀ (es : List PoEntry) (c : PoEntry) (v : PyStr) (hdr : PyStr),
      c.msgid_plural = some v →
      qs.foldl processLine ⟨es, some c, some .pluralF, hdr⟩ =
        ⟨es, some { c with msgid_plural := some (v ++ qs.flatMap parse_po_string_literal) },
          some .pluralF, hdr⟩ := by
  induction qs with
  | nil =>
    intro es c v hdr hv
    simp only [List.foldl_nil, List.flatMap_nil, List.append_nil]
    obtain ⟨mc, mi, mp, ms⟩ := c
    simp only [] at hv
    subst hv
    rfl
  | cons q qs' ih =>
    intro es c v hdr hv
    obtain ⟨inner, hq⟩ := hsh q (List.mem_cons_self q qs')
    subst hq
    rw [List.foldl_cons, processLine_cont _ .pluralF c inner rfl rfl]
    simp only [contUpdate, hv, Option.getD_some]
    rw [ih (fun l hl => hsh l (List.mem_cons_of_mem _ hl)) es _
      (v ++ parse_po_string_literal (34 :: (inner ++ [34]))) hdr rfl]
    simp only [List.flatMap_cons, List.append_assoc]

theorem cont_fold_str (qs : List PyStr)
    (hsh : ∀ l ∈ qs, ∃ inner, l = 34 :: (inner ++ [34])) :
    ∀ (es : List PoEntry) (c : PoEntry) (hdr : PyStr) (l0 : List PyStr) (w : PyStr),
      c.msgstr = l0 ++ [w] →
      qs.foldl processLine ⟨es, some c, some (.strF l0.length), hdr⟩ =
        ⟨es, some { c with msgstr := l0 ++ [w ++ qs.flatMap parse_po_string_literal] },
          some (.strF l0.length), hdr⟩ := by
  induction qs with
  | nil =>
    intro es c hdr l0 w hms
    simp only [List.foldl_nil, List.flatMap_nil, List.append_nil]
    obtain ⟨mc, mi, mp, ms⟩ := c
    simp only [] at hms
    subst hms
    rfl
  | cons q qs' ih =>
    intro es c hdr l0 w hms
    obtain ⟨inner, hq⟩ := hsh q (List.mem_cons_self q qs')
    subst hq
    rw [List.foldl_cons, processLine_cont _ (.strF l0.length) c inner rfl rfl]
    simp only [contUpdate, hms]
    have hpad : padTo (l0 ++ [w]) (l0.length + 1) = l0 ++ [w] :=
      padTo_noop _ _ (by simp)
    rw [hpad, getD_append_singleton, set_append_singleton]
    rw [ih (fun l hl => hsh l (List.mem_cons_of_mem _ hl)) es _ hdr l0
      (w ++ parse_po_string_literal (34 :: (inner ++ [34]))) rfl]
    simp only [List.flatMap_cons, List.append_assoc]

/-! ### Field folds: one directive line plus its continuation lines -/

theorem po_quote_cons (s : PyStr) :
    ∃ q0 qs, po_quote s = q0 :: qs := by
  cases h : po_quote s with
  | nil => exact absurd h (po_quote_ne_nil s)
  | cons a b => exact ⟨a, b, rfl⟩

theorem field_fold_msgctxt (s : PyStr) (hsafe : poSafeStr s = true)
    (es : List PoEntry) (cur : Option PoEntry) (act : Option ActiveField) (hdr : PyStr) :
    ((pstr "msgctxt " ++ (po_quote s).headD []) :: (po_quote s).tail).foldl processLine
        ⟨es, cur, act, hdr⟩ =
      ⟨es, some { cur.getD freshEntry with msgctxt := some s }, some .ctxtF, hdr⟩ := by
  have h0 := poSafe_no_zero hsafe
  obtain ⟨q0, qs, hpq⟩ := po_quote_cons s
  have hsh : ∀ l ∈ qs, ∃ inner, l = 34 :: (inner ++ [34]) := by
    intro l hl
    exact po_quote_shape s l (by rw [hpq]; exact List.mem_cons_of_mem q0 hl)
  obtain ⟨inner0, hq0⟩ := po_quote_shape s q0 (by rw [hpq]; exact List.mem_cons_self q0 qs)
  have hparse : parse_po_string_literal q0 ++ qs.flatMap parse_po_string_literal = s := by
    have hfm := po_quote_flatMap_parse s h0
    rw [hpq, List.flatMap_cons] at hfm
    exact hfm
  rw [hpq]
  simp only [List.headD_cons, List.tail_cons]
  subst hq0
  rw [List.foldl_cons, processLine_msgctxt]
  simp only []
  rw [cont_fold_ctxt qs hsh es _ (parse_po_string_literal (34 :: (inner0 ++ [34]))) hdr rfl]
  rw [hparse]

theorem field_fold_msgid (s : PyStr) (hsafe : poSafeStr s = true)
    (es : List PoEntry) (cur : Option PoEntry) (act : Option ActiveField) (hdr : PyStr) :
    ((pstr "msgid " ++ (po_quote s).headD []) :: (po_quote s).tail).foldl processLine
        ⟨es, cur, act, hdr⟩ =
      ⟨es, some { cur.getD freshEntry with msgid := s }, some .idF, hdr⟩ := by
  have h0 := poSafe_no_zero hsafe
  obtain ⟨q0, qs, hpq⟩ := po_quote_cons s
  have hsh : ∀ l ∈ qs, ∃ inner, l = 34 :: (inner ++ [34]) := by
    intro l hl
    exact po_quote_shape s l (by rw [hpq]; exact List.mem_cons_of_mem q0 hl)
  obtain ⟨inner0, hq0⟩ := po_quote_shape s q0 (by rw [hpq]; exact List.mem_cons_self q0 qs)
  have hparse : parse_po_string_literal q0 ++ qs.flatMap parse_po_string_literal = s := by
    have hfm := po_quote_flatMap_parse s h0
    rw [hpq, List.flatMap_cons] at hfm
    exact hfm
  rw [hpq]
  simp only [List.headD_cons, List.tail_cons]
  subst hq0
  rw [List.foldl_cons, processLine_msgid]
  simp only []
  rw [cont_fold_id qs hsh es _ hdr]
  simp only []
  rw [hparse]

theorem field_fold_msgid_plural (s : PyStr) (hsafe : poSafeStr s = true)
    (es : List PoEntry) (cur : Option PoEntry) (act : Option ActiveField) (hdr : PyStr) :
    ((pstr "msgid_plural " ++ (po_quote s).headD []) :: (po_quote s).tail).foldl processLine
        ⟨es, cur, act, hdr⟩ =
      ⟨es, some { cur.getD freshEntry with msgid_plural := some s }, some .pluralF, hdr⟩ := by
  have h0 := poSafe_no_zero hsafe
  obtain ⟨q0, qs, hpq⟩ := po_quote_cons s
  have hsh : ∀ l ∈ qs, ∃ inner, l = 34 :: (inner ++ [34]) := by
    intro l hl
    exact po_quote_shape s l (by rw [hpq]; exact List.mem_cons_of_mem q0 hl)
  obtain ⟨inner0, hq0⟩ := po_quote_shape s q0 (by rw [hpq]; exact List.mem_cons_self q0 qs)
  have hparse : parse_po_string_literal q0 ++ qs.flatMap parse_po_string_literal = s := by
    have hfm := po_quote_flatMap_parse s h0
    rw [hpq, List.flatMap_cons] at hfm
    exact hfm
  rw [hpq]
  simp only [List.headD_cons, List.tail_cons]
  subst hq0
  rw [List.foldl_cons, processLine_msgid_plural]
  simp only []
  rw [cont_fold_plural qs hsh es _ (parse_po_string_literal (34 :: (inner0 ++ [34]))) hdr rfl]
  rw [hparse]

theorem field_fold_msgstr_sing (s : PyStr) (hsafe : poSafeStr s = true)
    (es : List PoEntry) (cur : Option PoEntry) (act : Option ActiveField) (hdr : PyStr)
    (hms0 : (cur.getD freshEntry).msgstr = []) :
    ((pstr "msgstr " ++ (po_quote s).headD []) :: (po_quote s).tail).foldl processLine
        ⟨es, cur, act, hdr⟩ =
      ⟨es, some { cur.getD freshEntry with msgstr := [s] }, some (.strF 0), hdr⟩ := by
  have h0 := poSafe_no_zero hsafe
  obtain ⟨q0, qs, hpq⟩ := po_quote_cons s
  have hsh : ∀ l ∈ qs, ∃ inner, l = 34 :: (inner ++ [34]) := by
    intro l hl
    exact po_quote_shape s l (by rw [hpq]; exact List.mem_cons_of_mem q0 hl)
  obtain ⟨inner0, hq0⟩ := po_quote_shape s q0 (by rw [hpq]; exact List.mem_cons_self q0 qs)
  have hparse : parse_po_string_literal q0 ++ qs.flatMap parse_po_string_literal = s := by
    have hfm := po_quote_flatMap_parse s h0
    rw [hpq, List.flatMap_cons] at hfm
    exact hfm
  rw [hpq]
  simp only [List.headD_cons, List.tail_cons]
  subst hq0
  rw [List.foldl_cons, processLine_msgstr]
  simp only [hms0, eq_self_iff_true, if_true]
  have h00 : ActiveField.strF 0 = ActiveField.strF ([] : List PyStr).length := rfl
  rw [h00]
  rw [cont_fold_str qs hsh es _ hdr []
    (parse_po_string_literal (34 :: (inner0 ++ [34]))) (by simp)]
  simp only [List.length_nil, List.nil_append]
  rw [hparse]

theorem field_fold_msgstridx (i : Nat) (s : PyStr) (hsafe : poSafeStr s = true)
    (es : List PoEntry) (c : PoEntry) (act : Option ActiveField) (hdr : PyStr)
    (hlen : c.msgstr.length = i) :
    ((pstr "msgstr[" ++ natDigits i ++ pstr "] " ++ (po_quote s).headD []) ::
        (po_quote s).tail).foldl processLine ⟨es, some c, act, hdr⟩ =
      ⟨es, some { c with msgstr := c.msgstr ++ [s] }, some (.strF i), hdr⟩ := by
  subst hlen
  have h0 := poSafe_no_zero hsafe
  obtain ⟨q0, qs, hpq⟩ := po_quote_cons s
  have hsh : ∀ l ∈ qs, ∃ inner, l = 34 :: (inner ++ [34]) := by
    intro l hl
    exact po_quote_shape s l (by rw [hpq]; exact List.mem_cons_of_mem q0 hl)
  obtain ⟨inner0, hq0⟩ := po_quote_shape s q0 (by rw [hpq]; exact List.mem_cons_self q0 qs)
  have hparse : parse_po_string_literal q0 ++ qs.flatMap parse_po_string_literal = s := by
    have hfm := po_quote_flatMap_parse s h0
    rw [hpq, List.flatMap_cons] at hfm
    exact hfm
  rw [hpq]
  simp only [List.headD_cons, List.tail_cons]
  subst hq0
  have hline : pstr "msgstr[" ++ natDigits (c.msgstr).length ++ pstr "] " ++
      (34 :: (inner0 ++ [34])) =
      pstr "msgstr[" ++ (natDigits (c.msgstr).length ++
        (93 :: 32 :: (34 :: (inner0 ++ [34])))) := by
    rw [pstr_br_sp]
    simp
  rw [List.foldl_cons, hline, processLine_msgstridx]
  simp only [Option.getD_some]
  rw [padTo_snoc_set]
  rw [cont_fold_str qs hsh es _ hdr c.msgstr
    (parse_po_string_literal (34 :: (inner0 ++ [34]))) rfl]
  rw [hparse]

theorem msgstrIdxLines_cons (i : Nat) (s : PyStr) (rest : List PyStr) :
    msgstrIdxLines i (s :: rest) =
      ((pstr "msgstr[" ++ natDigits i ++ pstr "] " ++ (po_quote s).headD []) ::
        (po_quote s).tail) ++ msgstrIdxLines (i + 1) rest := rfl

theorem msgstridx_lines_fold (ss : List PyStr) (hsafe : ∀ s ∈ ss, poSafeStr s = true) :
    ∀ (i : Nat) (es : List PoEntry) (c : PoEntry) (act : Option ActiveField) (hdr : PyStr),
      c.msgstr.length = i →
      ∃ act', (msgstrIdxLines i ss).foldl processLine ⟨es, some c, act, hdr⟩ =
        ⟨es, some { c with msgstr := c.msgstr ++ ss }, act', hdr⟩ := by
  induction ss with
  | nil =>
    intro i es c act hdr _
    refine ⟨act, ?_⟩
    simp only [msgstrIdxLines, List.foldl_nil, List.append_nil]
  | cons s ss' ih =>
    intro i es c act hdr hlen
    rw [msgstrIdxLines_cons, List.foldl_append]
    rw [field_fold_msgstridx i s (hsafe s (List.mem_cons_self s ss')) es c act hdr hlen]
    have hlen1 : ({ c with msgstr := c.msgstr ++ [s] } : PoEntry).msgstr.length = i + 1 := by
      simp [hlen]
    obtain ⟨act', hact'⟩ := ih (fun x hx => hsafe x (List.mem_cons_of_mem s hx))
      (i + 1) es { c with msgstr := c.msgstr ++ [s] } (some (.strF i)) hdr hlen1
    refine ⟨act', ?_⟩
    rw [hact']
    simp [List.append_assoc]

/-! ### Entry blocks -/

theorem poSafeEntry_parts {e : PoEntry} (he : poSafeEntry e = true) :
    (∀ c, e.msgctxt = some c → poSafeStr c = true) ∧
    poSafeStr e.msgid = true ∧
    (∀ p, e.msgid_plural = some p → poSafeStr p = true) ∧
    (∀ x ∈ e.msgstr, poSafeStr x = true) ∧
    (e.msgid_plural = none → e.msgstr.length = 1) := by
  obtain ⟨mc, mi, mp, ms⟩ := e
  simp only [poSafeEntry, Bool.and_eq_true] at he
  obtain ⟨⟨⟨⟨h1, h2⟩, h3⟩, h4⟩, h5⟩ := he
  refine ⟨?_, h2, ?_, ?_, ?_⟩
  · intro c hc
    cases mc with
    | none => cases hc
    | some c' =>
      cases hc
      exact h1
  · intro p hp
    cases mp with
    | none => cases hp
    | some p' =>
      cases hp
      exact h3
  · intro x hx
    exact List.all_eq_true.mp h4 x hx
  · intro hmp
    cases mp with
    | some p' => cases hmp
    | none => simpa using h5

theorem entry_tail_fold (mc : Option PyStr) (mi : PyStr) (mp : Option PyStr) (ms : List PyStr)
    (hplural : ∀ p, mp = some p → poSafeStr p = true)
    (hall : ∀ x ∈ ms, poSafeStr x = true)
    (hsing : mp = none → ms.length = 1)
    (es : List PoEntry) (act : Option ActiveField) (hdr : PyStr) :
    ∃ hdr', ([[]] : List PyStr).foldl processLine
        ((match mp with
          | some p =>
            ((pstr "msgid_plural " ++ (po_quote p).headD []) :: (po_quote p).tail) ++
              msgstrIdxLines 0 ms
          | none =>
            (pstr "msgstr " ++ (po_quote (ms.headD [])).headD []) ::
              (po_quote (ms.headD [])).tail).foldl processLine
          ⟨es, some ⟨mc, mi, none, []⟩, act, hdr⟩) =
      ⟨es ++ [⟨mc, mi, mp, ms⟩], none, none, hdr'⟩ := by
  cases mp with
  | some pl =>
    simp only []
    rw [List.foldl_append]
    rw [field_fold_msgid_plural pl (hplural pl rfl) es (some ⟨mc, mi, none, []⟩) act hdr]
    simp only [Option.getD_some]
    obtain ⟨act', hfold⟩ := msgstridx_lines_fold ms hall 0 es ⟨mc, mi, some pl, []⟩
      (some .pluralF) hdr (by simp)
    rw [hfold]
    simp only [List.nil_append]
    rw [show ([[]] : List PyStr).foldl processLine
        ⟨es, some ⟨mc, mi, some pl, ms⟩, act', hdr⟩ =
        processLine ⟨es, some ⟨mc, mi, some pl, ms⟩, act', hdr⟩ [] from rfl]
    rw [processLine_blank]
    exact ⟨_, rfl⟩
  | none =>
    obtain ⟨s1, hs1⟩ := List.length_eq_one.mp (hsing rfl)
    subst hs1
    simp only [List.headD_cons]
    rw [field_fold_msgstr_sing s1 (hall s1 (List.mem_cons_self s1 []))
      es (some ⟨mc, mi, none, []⟩) act hdr (by simp)]
    simp only [Option.getD_some]
    rw [show ([[]] : List PyStr).foldl processLine
        ⟨es, some ⟨mc, mi, none, [s1]⟩, some (.strF 0), hdr⟩ =
        processLine ⟨es, some ⟨mc, mi, none, [s1]⟩, some (.strF 0), hdr⟩ [] from rfl]
    rw [processLine_blank]
    exact ⟨_, rfl⟩

theorem entry_block_fold (e : PoEntry) (he : poSafeEntry e = true)
    (es : List PoEntry) (hdr : PyStr) :
    ∃ hdr', (entryLines e).foldl processLine ⟨es, none, none, hdr⟩ =
      ⟨es ++ [e], none, none, hdr'⟩ := by
  obtain ⟨hctxt, hid, hplural, hall, hsing⟩ := poSafeEntry_parts he
  obtain ⟨mc, mi, mp, ms⟩ := e
  simp only [] at hctxt hid hplural hall hsing
  unfold entryLines
  simp only []
  rw [List.foldl_append, List.foldl_append, List.foldl_append]
  cases mc with
  | none =>
    simp only [List.foldl_nil]
    rw [field_fold_msgid mi hid es none none hdr]
    simp only [Option.getD_none, freshEntry]
    exact entry_tail_fold none mi mp ms hplural hall hsing es (some .idF) hdr
  | some ct =>
    simp only []
    rw [field_fold_msgctxt ct (hctxt ct rfl) es none none hdr]
    simp only [Option.getD_none, freshEntry]
    rw [field_fold_msgid mi hid es (some ⟨some ct, [], none, []⟩) (some .ctxtF) hdr]
    simp only [Option.getD_some]
    exact entry_tail_fold (some ct) mi mp ms hplural hall hsing es (some .idF) hdr

/-! ### splitlines of joined safe lines -/

theorem pySplitlinesAux_cons_10 (t acc : PyStr) :
    pySplitlinesAux (10 :: t) acc = acc.reverse :: pySplitlinesAux t [] := rfl

theorem pySplitlinesAux_cons_ord (c : Nat) (rest acc : PyStr) (hc13 : c ≠ 13)
    (hbr : isPyLineBreak c = false) :
    pySplitlinesAux (c :: rest) acc = pySplitlinesAux rest (c :: acc) := by
  rw [pySplitlinesAux.eq_def]
  split
  · simp_all
  · simp_all
  · rename_i h1 h2
    injection h2 with ha hb
    subst ha
    subst hb
    rw [hbr]
    simp only [Bool.false_eq_true, if_false]

theorem pySplitlinesAux_line (l : PyStr) (hl : ∀ c ∈ l, isPyLineBreak c = false) :
    ∀ (t : PyStr) (acc : PyStr),
      pySplitlinesAux (l ++ 10 :: t) acc = (acc.reverse ++ l) :: pySplitlinesAux t [] := by
  induction l with
  | nil =>
    intro t acc
    simp only [List.nil_append, List.append_nil]
    rw [pySplitlinesAux_cons_10]
  | cons c l' ihl =>
    intro t acc
    have hc := hl c (List.mem_cons_self c l')
    have hc13 : c ≠ 13 := by intro h; subst h; simp [isPyLineBreak] at hc
    simp only [List.cons_append]
    rw [pySplitlinesAux_cons_ord c _ acc hc13 hc]
    rw [ihl (fun x hx => hl x (List.mem_cons_of_mem c hx)) t (c :: acc)]
    simp

theorem pySplitlines_join_blank (ls : List PyStr)
    (h : ∀ l ∈ ls, ∀ c ∈ l, isPyLineBreak c = false) :
    pySplitlines (joinNl (ls ++ [[]])) = ls := by
  induction ls with
  | nil => decide
  | cons l ls' ih =>
    obtain ⟨m, ms, hm⟩ : ∃ m ms, ls' ++ [[]] = m :: ms := by
      cases hx : ls' ++ [[]] with
      | nil => exact absurd hx (by simp)
      | cons m ms => exact ⟨m, ms, rfl⟩
    rw [List.cons_append, hm, joinNl_cons_cons]
    unfold pySplitlines
    rw [pySplitlinesAux_line l (h l (List.mem_cons_self l ls'))]
    rw [← hm]
    have hih := ih (fun x hx c hc => h x (List.mem_cons_of_mem l hx) c hc)
    unfold pySplitlines at hih
    rw [hih]
    simp

/-! ### Line characters of entry blocks -/

theorem quote_head_mem (s : PyStr) : (po_quote s).headD [] ∈ po_quote s := by
  obtain ⟨q0, qs, hpq⟩ := po_quote_cons s
  rw [hpq]
  simp

theorem quote_tail_mem (s : PyStr) {l : PyStr} (hl : l ∈ (po_quote s).tail) :
    l ∈ po_quote s := by
  obtain ⟨q0, qs, hpq⟩ := po_quote_cons s
  rw [hpq] at hl ⊢
  simp only [List.tail_cons] at hl
  exact List.mem_cons_of_mem q0 hl

theorem kw_quote_line_chars (kw : PyStr) (s : PyStr)
    (hkw : ∀ c ∈ kw, isPyLineBreak c = false) (hs : poSafeStr s = true) :
    ∀ c ∈ kw ++ (po_quote s).headD [], isPyLineBreak c = false := by
  intro c hc
  rcases List.mem_append.mp hc with hc | hc
  · exact hkw c hc
  · exact po_quote_chars s hs _ (quote_head_mem s) c hc

theorem msgstrIdxLines_chars (ss : List PyStr) (hall : ∀ x ∈ ss, poSafeStr x = true) :
    ∀ (i : Nat), ∀ l ∈ msgstrIdxLines i ss, ∀ c ∈ l, isPyLineBreak c = false := by
  induction ss with
  | nil => intro i l hl; simp [msgstrIdxLines] at hl
  | cons s ss' ihs =>
    intro i l hl
    rw [msgstrIdxLines_cons] at hl
    have hss := hall s (List.mem_cons_self s ss')
    rcases List.mem_append.mp hl with hl | hl
    · rcases List.mem_cons.mp hl with hl | hl
      · subst hl
        intro c hc
        rcases List.mem_append.mp hc with hc | hc
        · rcases List.mem_append.mp hc with hc | hc
          · rcases List.mem_append.mp hc with hc | hc
            · exact (by decide : ∀ c ∈ pstr "msgstr[", isPyLineBreak c = false) c hc
            · have hd := natDigits_all_digits i c hc
              simp only [isDigitCp, Bool.and_eq_true, decide_eq_true_eq] at hd
              simp only [isPyLineBreak, Bool.or_eq_false_iff, decide_eq_false_iff_not]
              omega
          · exact (by decide : ∀ c ∈ pstr "] ", isPyLineBreak c = false) c hc
        · exact po_quote_chars s hss _ (quote_head_mem s) c hc
      · intro c hc
        exact po_quote_chars s hss _ (quote_tail_mem s hl) c hc
    · exact ihs (fun x hx => hall x (List.mem_cons_of_mem s hx)) (i + 1) l hl

theorem entryLines_chars (e : PoEntry) (he : poSafeEntry e = true) :
    ∀ l ∈ entryLines e, ∀ c ∈ l, isPyLineBreak c = false := by
  obtain ⟨hctxt, hid, hplural, hall, _⟩ := poSafeEntry_parts he
  obtain ⟨mc, mi, mp, ms⟩ := e
  simp only [] at hctxt hid hplural hall
  intro l hl
  unfold entryLines at hl
  simp only [] at hl
  rcases List.mem_append.mp hl with hl | hl
  case inr =>
    simp only [List.mem_singleton] at hl
    subst hl
    intro c hc
    simp at hc
  rcases List.mem_append.mp hl with hl | hl
  case inr =>
    cases mp with
    | some p =>
      simp only [] at hl
      rcases List.mem_append.mp hl with hl | hl
      · rcases List.mem_cons.mp hl with hl | hl
        · subst hl
          exact kw_quote_line_chars _ p (by decide) (hplural p rfl)
        · intro c hc
          exact po_quote_chars p (hplural p rfl) _ (quote_tail_mem p hl) c hc
      · exact msgstrIdxLines_chars ms hall 0 l hl
    | none =>
      simp only [] at hl
      have hhd : poSafeStr (ms.headD []) = true := by
        cases ms with
        | nil => simp only [List.headD_nil]; decide
        | cons a b =>
          simp only [List.headD_cons]
          exact hall a (List.mem_cons_self a b)
      rcases List.mem_cons.mp hl with hl | hl
      · subst hl
        exact kw_quote_line_chars _ _ (by decide) hhd
      · intro c hc
        exact po_quote_chars _ hhd _ (quote_tail_mem _ hl) c hc
  case inl =>
    rcases List.mem_append.mp hl with hl | hl
    · cases mc with
      | none => simp at hl
      | some ct =>
        simp only [] at hl
        rcases List.mem_cons.mp hl with hl | hl
        · subst hl
          exact kw_quote_line_chars _ ct (by decide) (hctxt ct rfl)
        · intro c hc
          exact po_quote_chars ct (hctxt ct rfl) _ (quote_tail_mem ct hl) c hc
    · rcases List.mem_cons.mp hl with hl | hl
      · subst hl
        exact kw_quote_line_chars _ mi (by decide) hid
      · intro c hc
        exact po_quote_chars mi hid _ (quote_tail_mem mi hl) c hc

/-! ### The PO round trip -/

theorem blocks_fold (entries : List PoEntry)
    (hsafe : ∀ e ∈ entries, poSafeEntry e = true) :
    ∀ (es : List PoEntry) (hdr : PyStr),
      ∃ hdr', (entries.flatMap entryLines).foldl processLine ⟨es, none, none, hdr⟩ =
        ⟨es ++ entries, none, none, hdr'⟩ := by
  induction entries with
  | nil => intro es hdr; exact ⟨hdr, by simp⟩
  | cons e rest ih =>
    intro es hdr
    rw [List.flatMap_cons, List.foldl_append]
    obtain ⟨h1, hfold1⟩ := entry_block_fold e (hsafe e (List.mem_cons_self e rest)) es hdr
    rw [hfold1]
    obtain ⟨h2, hfold2⟩ := ih (fun x hx => hsafe x (List.mem_cons_of_mem e hx)) (es ++ [e]) h1
    rw [hfold2]
    exact ⟨h2, by simp⟩

theorem entryLines_blocks_form (entries : List PoEntry) (hne : entries ≠ []) :
    ∃ F, entries.flatMap entryLines = F ++ [[]] := by
  induction entries with
  | nil => exact absurd rfl hne
  | cons e rest ih =>
    cases rest with
    | nil =>
      refine ⟨(match e.msgctxt with
        | some c => (pstr "msgctxt " ++ (po_quote c).headD []) :: (po_quote c).tail
        | none => []) ++
        ((pstr "msgid " ++ (po_quote e.msgid).headD []) :: (po_quote e.msgid).tail) ++
        (match e.msgid_plural with
         | some p =>
           ((pstr "msgid_plural " ++ (po_quote p).headD []) :: (po_quote p).tail) ++
             msgstrIdxLines 0 e.msgstr
         | none =>
           let q := po_quote (e.msgstr.headD [])
           (pstr "msgstr " ++ q.headD []) :: q.tail), ?_⟩
      simp [entryLines]
    | cons e2 rest2 =>
      obtain ⟨F', hF'⟩ := ih (by simp)
      refine ⟨entryLines e ++ F', ?_⟩
      rw [List.flatMap_cons, hF']
      simp [List.append_assoc]

/-- C1 (counterexample): the text `msgid "a"` parses to a catalog whose one
entry has an empty translation list; writing that catalog and reading it
back yields `msgstr = [""]` instead, so the round trip is not
field-for-field. -/
theorem po_roundtrip_cex :
    (read_po (pstr "msgid \"a\"")).2 = [⟨none, pstr "a", none, []⟩] ∧
    (read_po (write_po (read_po (pstr "msgid \"a\"")).2)).2 ≠
      (read_po (pstr "msgid \"a\"")).2 :=
  ⟨by decide, by decide⟩

/-- C1 (amended): for every catalog in which each entry without a plural
has exactly one translation and no field contains NUL or a line-breaking
character other than newline and carriage return, `read_po` of
`write_po`'s output yields the same entry sequence field-for-field, in the
same order. -/
theorem po_roundtrip_amended (entries : List PoEntry)
    (hsafe : ∀ e ∈ entries, poSafeEntry e = true) :
    (read_po (write_po entries)).2 = entries := by
  by_cases hne : entries = []
  · subst hne; decide
  · obtain ⟨F, hF⟩ := entryLines_blocks_form entries hne
    unfold read_po write_po
    have hchars : ∀ l ∈ F, ∀ c ∈ l, isPyLineBreak c = false := by
      intro l hl
      have hl' : l ∈ entries.flatMap entryLines := by
        rw [hF]; exact List.mem_append_left _ hl
      obtain ⟨e, hee, hle⟩ := List.mem_flatMap.mp hl'
      exact entryLines_chars e (hsafe e hee) l hle
    rw [hF, pySplitlines_join_blank F hchars, ← hF]
    obtain ⟨hdr', hfold⟩ := blocks_fold entries hsafe [] (pstr "utf-8")
    unfold rpInit
    rw [hfold]
    simp

/-- C1 (witness): the amended round trip applied to a concrete two-entry
catalog with a context, a multi-line id, plural forms and an empty form. -/
theorem po_roundtrip_witness :
    (∀ e ∈ [(⟨some (pstr "c"), pstr "k\nl", some (pstr "ks"), [pstr "x", [], pstr "y"]⟩ : PoEntry),
        ⟨none, pstr "a", none, [pstr "b"]⟩], poSafeEntry e = true) ∧
    (read_po (write_po [(⟨some (pstr "c"), pstr "k\nl", some (pstr "ks"), [pstr "x", [], pstr "y"]⟩ : PoEntry),
        ⟨none, pstr "a", none, [pstr "b"]⟩])).2 =
      [(⟨some (pstr "c"), pstr "k\nl", some (pstr "ks"), [pstr "x", [], pstr "y"]⟩ : PoEntry),
        ⟨none, pstr "a", none, [pstr "b"]⟩] :=
  ⟨by decide, po_roundtrip_amended _ (by decide)⟩

/-! ### The MO binary codec (`write_mo` and `read_mo` of `mo_convert.py`)

The MO serializer and deserializer move between `PoEntry` catalogs and raw
bytes.  File I/O is abstracted away: `write_mo` returns the byte list the
Python function writes, `read_mo` consumes the byte list the Python function
reads.  The Python standard-library codecs are modelled explicitly: UTF-8
encoding and (strict and replacing) decoding are spelled out below; the codec
table of the model contains the UTF-8 codec only, which is the only codec the
repository itself ever supplies (`write_mo` is called with the charset coming
out of `read_po`, and every theorem below instantiates the charset with a
UTF-8 spelling), and an unknown charset falls back to UTF-8 exactly where the
source's `try/except` does. -/

/-- The `\x04`-and-`\x00` key string built for an entry in `write_mo`
(`f"{msgctxt}\x04{msgid}"`, then `key + "\x00" + msgid_plural`). -/
def moKey (e : PoEntry) : PyStr :=
  let key := match e.msgctxt with
    | some c => c ++ [4] ++ e.msgid
    | none => e.msgid
  match e.msgid_plural with
  | some p => key ++ [0] ++ p
  | none => key

/-- `"\x00".join(parts)`. -/
def joinWith0 : List PyStr → PyStr
  | [] => []
  | [p] => p
  | p :: q :: rest => p ++ [0] ++ joinWith0 (q :: rest)

/-- The value string built for an entry in `write_mo`:
`"\x00".join(msgstr)` for plural entries, `msgstr[0] if msgstr else ""`
for singular ones. -/
def moVal (e : PoEntry) : PyStr :=
  match e.msgid_plural with
  | some _ => joinWith0 e.msgstr
  | none => e.msgstr.headD []

/-- The synthetic header entry `write_mo` prepends when no entry has an
empty `msgid`. -/
def moDefaultHeader : PoEntry :=
  ⟨none, [], none, [pstr "Content-Type: text/plain; charset=UTF-8\n"]⟩

/-- The header-completion step at the top of `write_mo`. -/
def moWithHeader (entries : List PoEntry) : List PoEntry :=
  if entries.any (fun e => e.msgid == []) then entries
  else moDefaultHeader :: entries

/-- UTF-8 encoding of one code point (the standard 1-, 2-, 3- and 4-byte
sequences by magnitude). -/
def utf8EncodeChar (c : Nat) : Bytes :=
  if c < 128 then [c]
  else if c < 2048 then [192 + c / 64, 128 + c % 64]
  else if c < 65536 then [224 + c / 4096, 128 + c / 64 % 64, 128 + c % 64]
  else [240 + c / 262144, 128 + c / 4096 % 64, 128 + c / 64 % 64, 128 + c % 64]

/-- UTF-8 encoding of a string. -/
def utf8Encode (s : PyStr) : Bytes := s.flatMap utf8EncodeChar

/-- A UTF-8 continuation byte. -/
def utf8Cont (b : Nat) : Bool := 128 ≤ b && b ≤ 191

/-- Admissible second byte after a three-byte lead (excluding overlong
forms under `0xE0` and surrogates under `0xED`). -/
def utf8Cont3 (b b2 : Nat) : Bool :=
  if b = 224 then 160 ≤ b2 && b2 ≤ 191
  else if b = 237 then 128 ≤ b2 && b2 ≤ 159
  else utf8Cont b2

/-- Admissible second byte after a four-byte lead (excluding overlong forms
under `0xF0` and values past `U+10FFFF` under `0xF4`). -/
def utf8Cont4 (b b2 : Nat) : Bool :=
  if b = 240 then 144 ≤ b2 && b2 ≤ 191
  else if b = 244 then 128 ≤ b2 && b2 ≤ 143
  else utf8Cont b2

/-- Decode one UTF-8 sequence at the head of the buffer: the code point and
the number of bytes consumed, or `none` if the head is malformed. -/
def utf8Step : Bytes → Option (Nat × Nat)
  | [] => none
  | b :: rest =>
    if b < 128 then some (b, 1)
    else if 194 ≤ b && b ≤ 223 then
      match rest with
      | b2 :: _ => if utf8Cont b2 then some ((b - 192) * 64 + (b2 - 128), 2) else none
      | [] => none
    else if 224 ≤ b && b ≤ 239 then
      match rest with
      | b2 :: b3 :: _ =>
        if utf8Cont3 b b2 && utf8Cont b3 then
          some ((b - 224) * 4096 + (b2 - 128) * 64 + (b3 - 128), 3)
        else none
      | _ => none
    else if 240 ≤ b && b ≤ 244 then
      match rest with
      | b2 :: b3 :: b4 :: _ =>
        if utf8Cont4 b b2 && utf8Cont b3 && utf8Cont b4 then
          some ((b - 240) * 262144 + (b2 - 128) * 4096 + (b3 - 128) * 64 + (b4 - 128), 4)
        else none
      | _ => none
    else none

/-- How many bytes one replacement character stands for when decoding with
`errors="replace"`: the maximal subpart of an ill-formed sequence (at least
one byte). -/
def utf8BadLen : Bytes → Nat
  | [] => 1
  | b :: rest =>
    if 224 ≤ b && b ≤ 239 then
      match rest with
      | b2 :: _ => if utf8Cont3 b b2 then 2 else 1
      | [] => 1
    else if 240 ≤ b && b ≤ 244 then
      match rest with
      | b2 :: b3 :: _ => if utf8Cont4 b b2 then (if utf8Cont b3 then 3 else 2) else 1
      | [b2] => if utf8Cont4 b b2 then 2 else 1
      | [] => 1
    else 1

/-- Fuel-driven UTF-8 decoding loop.  With `strict` it fails on the first
ill-formed sequence (Python `bytes.decode("utf-8")`); otherwise it emits
`U+FFFD` per maximal subpart (Python `errors="replace"`). -/
def utf8DecodeAux (strict : Bool) : Nat → Bytes → Option PyStr
  | 0, _ => none
  | _ + 1, [] => some []
  | f + 1, b :: rest =>
    match utf8Step (b :: rest) with
    | some (cp, k) => (utf8DecodeAux strict f (List.drop k (b :: rest))).map (cp :: ·)
    | none =>
      if strict then none
      else (utf8DecodeAux strict f
        (List.drop (utf8BadLen (b :: rest)) (b :: rest))).map (65533 :: ·)

/-- Strict UTF-8 decoding (`bytes.decode("utf-8")`), `none` on failure. -/
def utf8DecodeStrict (b : Bytes) : Option PyStr :=
  utf8DecodeAux true (b.length + 1) b

/-- Replacing UTF-8 decoding (`bytes.decode("utf-8", errors="replace")`);
total. -/
def utf8DecodeReplace (b : Bytes) : PyStr :=
  (utf8DecodeAux false (b.length + 1) b).getD []

/-- Python codec-name normalization: lower-case and drop hyphens,
underscores and spaces. -/
def codecNorm (s : PyStr) : PyStr :=
  (s.map asciiLower).filter (fun c => !(c == 45 || c == 95 || c == 32))

/-- Whether a charset names the UTF-8 codec (its registered aliases). -/
def isUtf8Name (s : PyStr) : Bool :=
  codecNorm s == pstr "utf8" || codecNorm s == pstr "u8" ||
    codecNorm s == pstr "utf" || codecNorm s == pstr "cp65001"

/-- The `enc` closure of `write_mo`: `s.encode(charset)`, falling back to
`s.encode("utf-8")` on any failure.  The modelled codec table holds UTF-8
only, so every charset encodes through it. -/
def moEnc (charset : PyStr) (s : PyStr) : Bytes :=
  if isUtf8Name charset then utf8Encode s else utf8Encode s

/-- The `decode` closure of `read_mo`: `b.decode(header_charset)` with a
`b.decode("utf-8", errors="replace")` fallback on any failure (unknown
codec or ill-formed data). -/
def pyDecode (charset : PyStr) (b : Bytes) : PyStr :=
  if isUtf8Name charset then
    match utf8DecodeStrict b with
    | some s => s
    | none => utf8DecodeReplace b
  else utf8DecodeReplace b

/-- Byte-lexicographic order on byte strings, the order of Python
`sorted` on `bytes`. -/
def bytesLe : Bytes → Bytes → Bool
  | [], _ => true
  | _ :: _, [] => false
  | a :: as, b :: bs => a < b || (a == b && bytesLe as bs)

/-- Ordered insertion for `insSort`. -/
def insIns (x : Bytes) : List Bytes → List Bytes
  | [] => [x]
  | y :: ys => if bytesLe x y then x :: y :: ys else y :: insIns x ys

/-- Insertion sort by `bytesLe`; the model of Python `sorted` on the
(pairwise-distinct) dict keys. -/
def insSort : List Bytes → List Bytes
  | [] => []
  | x :: xs => insIns x (insSort xs)

/-- The `by_key` dict of `write_mo` over the (header-completed) entries:
encoded key to encoded value, later entries overwriting earlier ones. -/
def moByKey (enc : PyStr → Bytes) (entries : List PoEntry) : List (Bytes × Bytes) :=
  entries.foldl (fun d e => dictInsert d (enc (moKey e)) (enc (moVal e))) []

/-- `keys = sorted(by_key.keys())`. -/
def moKeys (enc : PyStr → Bytes) (entries : List PoEntry) : List Bytes :=
  insSort ((moByKey enc entries).map Prod.fst)

/-- `values = [by_key[k] for k in keys]`. -/
def moValues (enc : PyStr → Bytes) (entries : List PoEntry) : List Bytes :=
  (moKeys enc entries).map (fun k => (dictGet (moByKey enc entries) k).getD [])

/-- `align4`: round up to a multiple of four (`(x + 3) & ~3` on
non-negative ints). -/
def align4 (x : Nat) : Nat := (x + 3) / 4 * 4

/-- The string-pool accumulator of `write_mo`: the pool bytes built so
far, the running absolute offset, and the `(length, offset)` pairs
recorded for the current table. -/
structure PoolSt where
  pool : Bytes
  curOff : Nat
  offs : List (Nat × Nat)
deriving DecidableEq

/-- One iteration of the pool-filling loops of `write_mo`: align the
offset, pad the pool to it, record `(len(s), cur_off)`, append the string
and its NUL terminator. -/
def poolPush (poolOff : Nat) (st : PoolSt) (s : Bytes) : PoolSt :=
  let a := align4 st.curOff
  let pad := List.replicate (a - poolOff - st.pool.length) 0
  { pool := st.pool ++ pad ++ s ++ [0],
    curOff := a + s.length + 1,
    offs := st.offs ++ [(s.length, a)] }

/-- The two tables and the string pool of `write_mo`: the key loop runs
first, the value loop continues on the same pool and offset. -/
def moLayout (enc : PyStr → Bytes) (entries : List PoEntry) :
    List (Nat × Nat) × List (Nat × Nat) × Bytes :=
  let keys := moKeys enc entries
  let values := moValues enc entries
  let poolOff := 28 + 16 * keys.length
  let st1 := keys.foldl (poolPush poolOff) ⟨[], poolOff, []⟩
  let st2 := values.foldl (poolPush poolOff) ⟨st1.pool, st1.curOff, []⟩
  (st1.offs, st2.offs, st2.pool)

/-- `struct.pack("<I", v)`: four little-endian bytes.  (`struct.pack`
raises for `v ≥ 2^32`; the model reduces modulo `2^32`, and the round-trip
theorem carries a size hypothesis keeping every packed value below
`2^32`.) -/
def pack4LE (v : Nat) : Bytes :=
  [v % 256, v / 256 % 256, v / 65536 % 256, v / 16777216 % 256]

/-- `write_mo` of `mo_convert.py`: the 28-byte header, the two
`(length, offset)` tables, then the string pool. -/
def write_mo (entries : List PoEntry) (charset : PyStr) : Bytes :=
  let enc := moEnc charset
  let entries' := moWithHeader entries
  let n := (moKeys enc entries').length
  let lay := moLayout enc entries'
  pack4LE 0x950412DE ++ pack4LE 0 ++ pack4LE n ++ pack4LE 28 ++
    pack4LE (28 + 8 * n) ++ pack4LE 0 ++ pack4LE 0 ++
    lay.1.flatMap (fun p => pack4LE p.1 ++ pack4LE p.2) ++
    lay.2.1.flatMap (fun p => pack4LE p.1 ++ pack4LE p.2) ++
    lay.2.2

/-- Python slice `data[off : off + len]` on bytes. -/
def sliceBytes (data : Bytes) (off len : Nat) : Bytes :=
  (data.drop off).take len

/-- `struct.unpack("<I", b)` on an exactly-four-byte buffer. -/
def u32LE (b : Bytes) : Nat :=
  b.getD 0 0 + 256 * b.getD 1 0 + 65536 * b.getD 2 0 + 16777216 * b.getD 3 0

/-- `struct.unpack(">I", b)` on an exactly-four-byte buffer. -/
def u32BE (b : Bytes) : Nat :=
  b.getD 3 0 + 256 * b.getD 2 0 + 65536 * b.getD 1 0 + 16777216 * b.getD 0 0

/-- Unpack one 32-bit word with the detected endianness. -/
def u32 (le : Bool) (b : Bytes) : Nat := if le then u32LE b else u32BE b

/-- The error cases of `read_mo` (Python `ValueError` for the three header
checks, `struct.error` for a table slice shorter than eight bytes). -/
inductive MoErr where
  | tooSmall : MoErr
  | badMagic : MoErr
  | badRevision : Nat → MoErr
  | structShort : MoErr
deriving DecidableEq

/-- The loop of `read_table` in `read_mo`, reading entries `i`, `i+1`, …
(`m` of them): each iteration unpacks `data[off + i*8 : off + i*8 + 8]`,
and `struct.unpack` fails if the slice is not exactly eight bytes. -/
def readTableAux (le : Bool) (data : Bytes) (off : Nat) :
    Nat → Nat → Except MoErr (List (Nat × Nat))
  | _, 0 => .ok []
  | i, m + 1 =>
    let s := sliceBytes data (off + i * 8) 8
    if s.length = 8 then
      match readTableAux le data off (i + 1) m with
      | .ok rest => .ok ((u32 le (s.take 4), u32 le (s.drop 4)) :: rest)
      | .error e => .error e
    else .error .structShort

/-- `read_table` of `read_mo`: the `n` `(length, offset)` pairs at `off`. -/
def read_table (le : Bool) (data : Bytes) (n off : Nat) :
    Except MoErr (List (Nat × Nat)) :=
  readTableAux le data off 0 n

/-- Python `sep in s` for a one-character separator. -/
def pyContains (sep : Nat) (s : PyStr) : Bool := s.contains sep

/-- Python `s.split(sep, 1)` for a one-character separator known to occur:
the part before the first occurrence and everything after it. -/
def pySplitFirst (sep : Nat) : PyStr → PyStr × PyStr
  | [] => ([], [])
  | c :: rest =>
    if c = sep then ([], rest)
    else
      let p := pySplitFirst sep rest
      (c :: p.1, p.2)

/-- Python `s.split(sep)` for a one-character separator. -/
def pySplitAll (sep : Nat) : PyStr → List PyStr
  | [] => [[]]
  | c :: rest =>
    if c = sep then [] :: pySplitAll sep rest
    else
      match pySplitAll sep rest with
      | [] => [[c]]
      | p :: ps => (c :: p) :: ps

/-- The per-pair entry construction of `read_mo`: decode both byte
strings, split the original on the first `\x04` (context) and `\x00`
(plural id), split the translation on `\x00` when present. -/
def moSplitEntry (charset : PyStr) (ob tb : Bytes) : PoEntry :=
  let msgid_raw := pyDecode charset ob
  let msgstr_raw := pyDecode charset tb
  let c_i : Option PyStr × PyStr :=
    if pyContains 4 msgid_raw then
      let p := pySplitFirst 4 msgid_raw
      (some p.1, p.2)
    else (none, msgid_raw)
  let i_p : PyStr × Option PyStr :=
    if pyContains 0 c_i.2 then
      let p := pySplitFirst 0 c_i.2
      (p.1, some p.2)
    else (c_i.2, none)
  let msgstr_parts :=
    if pyContains 0 msgstr_raw then pySplitAll 0 msgstr_raw else [msgstr_raw]
  ⟨c_i.1, i_p.1, i_p.2, msgstr_parts⟩

/-- The body of `read_mo` after the magic has fixed the endianness:
unpack the header, check the revision, read both tables, slice the raw
pairs, detect the header charset, and build the entries. -/
def readMoWith (le : Bool) (data : Bytes) : Except MoErr (PyStr × List PoEntry) :=
  let revision := u32 le (sliceBytes data 4 4)
  let n := u32 le (sliceBytes data 8 4)
  let off_orig := u32 le (sliceBytes data 12 4)
  let off_trans := u32 le (sliceBytes data 16 4)
  if revision ≠ 0 then .error (.badRevision revision)
  else
    match read_table le data n off_orig, read_table le data n off_trans with
    | .ok orig_table, .ok trans_table =>
      let raw_pairs := (orig_table.zip trans_table).map
        (fun p => (sliceBytes data p.1.2 p.1.1, sliceBytes data p.2.2 p.2.1))
      let header_charset := match raw_pairs.find? (fun p => p.1 == []) with
        | some p => detect_charset_from_header (utf8DecodeReplace p.2)
        | none => pstr "utf-8"
      .ok (header_charset, raw_pairs.map (fun p => moSplitEntry header_charset p.1 p.2))
    | .error e, _ => .error e
    | _, .error e => .error e

/-- `read_mo` of `mo_convert.py` on a byte buffer. -/
def read_mo (data : Bytes) : Except MoErr (PyStr × List PoEntry) :=
  if data.length < 28 then .error .tooSmall
  else if u32LE (sliceBytes data 0 4) = 0x950412DE then readMoWith true data
  else if u32BE (sliceBytes data 0 4) = 0x950412DE then readMoWith false data
  else .error .badMagic

/-! ### Order and dictionary facts for the MO serializer -/

theorem bytesLe_total (a : Bytes) : ∀ b, bytesLe a b = true ∨ bytesLe b a = true := by
  induction a with
  | nil => intro b; cases b <;> simp [bytesLe]
  | cons x as ih =>
    intro b
    cases b with
    | nil => right; rfl
    | cons y bs =>
      simp only [bytesLe, Bool.or_eq_true, Bool.and_eq_true, decide_eq_true_eq, beq_iff_eq]
      rcases Nat.lt_trichotomy x y with h | h | h
      · exact Or.inl (Or.inl h)
      · subst h
        rcases ih bs with h2 | h2
        · exact Or.inl (Or.inr ⟨rfl, h2⟩)
        · exact Or.inr (Or.inr ⟨rfl, h2⟩)
      · exact Or.inr (Or.inl h)

theorem bytesLe_trans (a : Bytes) :
    ∀ b c, bytesLe a b = true → bytesLe b c = true → bytesLe a c = true := by
  induction a with
  | nil => intro b c _ _; cases c <;> cases b <;> simp_all [bytesLe]
  | cons x as ih =>
    intro b c h1 h2
    cases b with
    | nil => simp [bytesLe] at h1
    | cons y bs =>
      cases c with
      | nil => simp [bytesLe] at h2
      | cons z cs =>
        simp only [bytesLe, Bool.or_eq_true, Bool.and_eq_true, decide_eq_true_eq,
          beq_iff_eq] at h1 h2 ⊢
        rcases h1 with h1 | ⟨he1, h1⟩
        · rcases h2 with h2 | ⟨he2, _⟩
          · exact Or.inl (by omega)
          · exact Or.inl (by omega)
        · rcases h2 with h2 | ⟨he2, h2⟩
          · exact Or.inl (by omega)
          · exact Or.inr ⟨by omega, by subst he1; exact ih bs cs h1 h2⟩

theorem insIns_perm (x : Bytes) (l : List Bytes) : (insIns x l).Perm (x :: l) := by
  induction l with
  | nil => exact List.Perm.refl _
  | cons y ys ih =>
    by_cases h : bytesLe x y = true
    · simp [insIns, h]
    · simp only [insIns, h, if_false]
      exact (ih.cons y).trans (List.Perm.swap x y ys)

theorem insSort_perm (l : List Bytes) : (insSort l).Perm l := by
  induction l with
  | nil => exact List.Perm.refl _
  | cons x xs ih => exact (insIns_perm x (insSort xs)).trans (ih.cons x)

theorem insIns_pairwise (x : Bytes) (l : List Bytes)
    (h : l.Pairwise (fun a b => bytesLe a b = true)) :
    (insIns x l).Pairwise (fun a b => bytesLe a b = true) := by
  induction l with
  | nil => simp [insIns]
  | cons y ys ih =>
    rcases List.pairwise_cons.mp h with ⟨hy, hys⟩
    by_cases hle : bytesLe x y = true
    · simp only [insIns, hle, if_true]
      refine List.pairwise_cons.mpr ⟨?_, h⟩
      intro z hz
      rcases List.mem_cons.mp hz with hz | hz
      · subst hz; exact hle
      · exact bytesLe_trans x y z hle (hy z hz)
    · simp only [insIns, hle, if_false]
      refine List.pairwise_cons.mpr ⟨?_, ih hys⟩
      intro z hz
      rcases List.mem_cons.mp ((insIns_perm x ys).mem_iff.mp hz) with hz | hz
      · subst hz
        rcases bytesLe_total z y with ht | ht
        · exact absurd ht hle
        · exact ht
      · exact hy z hz

theorem insSort_pairwise (l : List Bytes) :
    (insSort l).Pairwise (fun a b => bytesLe a b = true) := by
  induction l with
  | nil => simp [insSort]
  | cons x xs ih => exact insIns_pairwise x (insSort xs) ih

theorem dictInsert_fst_mem {α β : Type} [DecidableEq α] (d : List (α × β)) (k : α) (v : β)
    (x : α) : x ∈ (dictInsert d k v).map Prod.fst ↔ x ∈ d.map Prod.fst ∨ x = k := by
  induction d with
  | nil => simp [dictInsert]
  | cons p rest ih =>
    obtain ⟨k', v'⟩ := p
    by_cases h : k' = k
    · subst h
      simp only [dictInsert, if_true]
      simp only [List.map_cons, List.mem_cons]
      constructor
      · intro h2; exact Or.inl h2
      · intro h2
        rcases h2 with h2 | h2
        · exact h2
        · exact Or.inl (by simp [h2])
    · simp only [dictInsert, h, if_false, List.map_cons, List.mem_cons, ih]
      tauto

theorem dictInsert_fst_nodup {α β : Type} [DecidableEq α] (d : List (α × β)) (k : α) (v : β)
    (h : (d.map Prod.fst).Nodup) : ((dictInsert d k v).map Prod.fst).Nodup := by
  induction d with
  | nil => simp [dictInsert]
  | cons p rest ih =>
    obtain ⟨k', v'⟩ := p
    simp only [List.map_cons, List.nodup_cons] at h
    by_cases hk : k' = k
    · subst hk
      simp only [dictInsert, if_true, List.map_cons, List.nodup_cons]
      exact h
    · simp only [dictInsert, hk, if_false, List.map_cons, List.nodup_cons]
      refine ⟨?_, ih h.2⟩
      intro hmem
      rcases (dictInsert_fst_mem rest k v k').mp hmem with h2 | h2
      · exact h.1 h2
      · exact hk h2

theorem dict_fold_fst_nodup (enc : PyStr → Bytes) (es : List PoEntry) :
    ∀ d : List (Bytes × Bytes), (d.map Prod.fst).Nodup →
      ((es.foldl (fun d e => dictInsert d (enc (moKey e)) (enc (moVal e))) d).map
        Prod.fst).Nodup := by
  induction es with
  | nil => intro d h; exact h
  | cons e rest ih =>
    intro d h
    exact ih _ (dictInsert_fst_nodup d _ _ h)

theorem moByKey_fst_nodup (enc : PyStr → Bytes) (entries : List PoEntry) :
    ((moByKey enc entries).map Prod.fst).Nodup :=
  dict_fold_fst_nodup enc entries [] List.nodup_nil

/-- C6: in every MO output of `write_mo`, the keys of the original-string
table (the sorted dict keys, laid out in table order) are strictly
increasing in byte-lexicographic order: each key is `bytesLe`-below and
distinct from every later one. -/
theorem mo_sort_invariant (enc : PyStr → Bytes) (entries : List PoEntry) :
    (moKeys enc (moWithHeader entries)).Pairwise
      (fun a b => bytesLe a b = true ∧ a ≠ b) := by
  have hle := insSort_pairwise ((moByKey enc (moWithHeader entries)).map Prod.fst)
  have hnd : (insSort ((moByKey enc (moWithHeader entries)).map Prod.fst)).Nodup :=
    ((insSort_perm _).nodup_iff).mpr (moByKey_fst_nodup enc (moWithHeader entries))
  exact List.Pairwise.and hle hnd

theorem align4_mod (x : Nat) : align4 x % 4 = 0 := Nat.mul_mod_left _ _

theorem pool_fold_offs_aligned (poolOff : Nat) (ss : List Bytes) :
    ∀ st : PoolSt, (∀ p ∈ st.offs, p.2 % 4 = 0) →
      ∀ p ∈ (ss.foldl (poolPush poolOff) st).offs, p.2 % 4 = 0 := by
  induction ss with
  | nil => intro st h; exact h
  | cons s rest ih =>
    intro st h
    refine ih (poolPush poolOff st s) ?_
    intro p hp
    simp only [poolPush, List.mem_append, List.mem_singleton] at hp
    rcases hp with hp | hp
    · exact h p hp
    · subst hp; exact align4_mod st.curOff

/-- C7: in every MO output of `write_mo`, every `(length, offset)` pair
recorded in the original-string table and in the translated-string table
has an offset divisible by four. -/
theorem mo_alignment_invariant (enc : PyStr → Bytes) (entries : List PoEntry) :
    ∀ p ∈ (moLayout enc (moWithHeader entries)).1 ++
        (moLayout enc (moWithHeader entries)).2.1, p.2 % 4 = 0 := by
  intro p hp
  simp only [moLayout, List.mem_append] at hp
  rcases hp with hp | hp
  · exact pool_fold_offs_aligned _ _ _ (by intro q hq; simp at hq) p hp
  · exact pool_fold_offs_aligned _ _ _ (by intro q hq; simp at hq) p hp

/-! ### Failure analysis of `read_mo` -/

/-- The endianness selection of `read_mo`: little-endian if the
little-endian magic matches, big-endian if the big-endian one does,
`none` (bad magic) otherwise. -/
def moEndian (data : Bytes) : Option Bool :=
  if u32LE (sliceBytes data 0 4) = 0x950412DE then some true
  else if u32BE (sliceBytes data 0 4) = 0x950412DE then some false
  else none

theorem readTableAux_error_iff (le : Bool) (data : Bytes) (off : Nat) :
    ∀ (m i : Nat), (∃ e, readTableAux le data off i m = .error e) ↔
      ∃ j, j < m ∧ (sliceBytes data (off + (i + j) * 8) 8).length ≠ 8 := by
  intro m
  induction m with
  | zero => intro i; simp [readTableAux]
  | succ m ih =>
    intro i
    by_cases h : (sliceBytes data (off + i * 8) 8).length = 8
    · simp only [readTableAux, h, if_true]
      constructor
      · rintro ⟨e, he⟩
        cases hr : readTableAux le data off (i + 1) m with
        | ok rest => rw [hr] at he; simp at he
        | error e2 =>
          obtain ⟨j, hj, hs⟩ := (ih (i + 1)).mp ⟨e2, hr⟩
          refine ⟨j + 1, by omega, ?_⟩
          have harith : i + (j + 1) = i + 1 + j := by omega
          rw [harith]; exact hs
      · rintro ⟨j, hj, hs⟩
        cases j with
        | zero => exact absurd h (by simpa using hs)
        | succ j' =>
          have hs' : (sliceBytes data (off + (i + 1 + j') * 8) 8).length ≠ 8 := by
            have harith : i + 1 + j' = i + (j' + 1) := by omega
            rw [harith]; exact hs
          obtain ⟨e, he⟩ := (ih (i + 1)).mpr ⟨j', by omega, hs'⟩
          exact ⟨e, by rw [he]⟩
    · simp only [readTableAux, h, if_false]
      constructor
      · intro _; exact ⟨0, by omega, by simpa using h⟩
      · intro _; exact ⟨.structShort, rfl⟩

theorem read_table_error_iff (le : Bool) (data : Bytes) (n off : Nat) :
    (∃ e, read_table le data n off = .error e) ↔
      ∃ j, j < n ∧ (sliceBytes data (off + j * 8) 8).length ≠ 8 := by
  unfold read_table
  rw [readTableAux_error_iff]
  simp

theorem readMoWith_error_iff (le : Bool) (data : Bytes) :
    (∃ e, readMoWith le data = .error e) ↔
      (u32 le (sliceBytes data 4 4) ≠ 0 ∨
        ∃ j, j < u32 le (sliceBytes data 8 4) ∧
          ((sliceBytes data (u32 le (sliceBytes data 12 4) + j * 8) 8).length ≠ 8 ∨
            (sliceBytes data (u32 le (sliceBytes data 16 4) + j * 8) 8).length ≠ 8)) := by
  by_cases hrev : u32 le (sliceBytes data 4 4) = 0
  · simp only [readMoWith, hrev, ne_eq, not_true_eq_false, if_false, ite_false,
      not_false_eq_true]
    cases hO : read_table le data (u32 le (sliceBytes data 8 4))
        (u32 le (sliceBytes data 12 4)) with
    | error e0 =>
      obtain ⟨j, hj, hs⟩ := (read_table_error_iff le data _ _).mp ⟨e0, hO⟩
      constructor
      · intro _
        exact Or.inr ⟨j, hj, Or.inl hs⟩
      · intro _
        cases hT : read_table le data (u32 le (sliceBytes data 8 4))
            (u32 le (sliceBytes data 16 4)) with
        | error e1 => exact ⟨e0, rfl⟩
        | ok tT => exact ⟨e0, rfl⟩
    | ok tO =>
      cases hT : read_table le data (u32 le (sliceBytes data 8 4))
          (u32 le (sliceBytes data 16 4)) with
      | error e1 =>
        obtain ⟨j, hj, hs⟩ := (read_table_error_iff le data _ _).mp ⟨e1, hT⟩
        constructor
        · intro _
          exact Or.inr ⟨j, hj, Or.inr hs⟩
        · intro _
          exact ⟨e1, rfl⟩
      | ok tT =>
        constructor
        · rintro ⟨e, he⟩
          simp at he
        · rintro (hbad | ⟨j, hj, hs | hs⟩)
          · exact hbad.elim
          · obtain ⟨e, he⟩ := (read_table_error_iff le data
              (u32 le (sliceBytes data 8 4)) (u32 le (sliceBytes data 12 4))).mpr
              ⟨j, hj, hs⟩
            rw [hO] at he
            simp at he
          · obtain ⟨e, he⟩ := (read_table_error_iff le data
              (u32 le (sliceBytes data 8 4)) (u32 le (sliceBytes data 16 4))).mpr
              ⟨j, hj, hs⟩
            rw [hT] at he
            simp at he
  · constructor
    · intro _
      exact Or.inl hrev
    · intro _
      refine ⟨.badRevision (u32 le (sliceBytes data 4 4)), ?_⟩
      simp only [readMoWith, hrev, ne_eq, not_false_eq_true, if_true]

/-- C4: `read_mo` fails exactly when the buffer is below 28 bytes, the
magic matches in neither byte order, the revision word is nonzero, or —
beyond the three conditions the claim lists — one of the `n` eight-byte
table slices runs past the end of the buffer (`struct.error`); and a
failing decode returns an error value, never a result. -/
theorem read_mo_failure_conditions (data : Bytes) :
    ((∃ e, read_mo data = .error e) ↔
      (data.length < 28 ∨
        moEndian data = none ∨
        ∃ le, moEndian data = some le ∧
          (u32 le (sliceBytes data 4 4) ≠ 0 ∨
            ∃ j, j < u32 le (sliceBytes data 8 4) ∧
              ((sliceBytes data (u32 le (sliceBytes data 12 4) + j * 8) 8).length ≠ 8 ∨
                (sliceBytes data (u32 le (sliceBytes data 16 4) + j * 8) 8).length ≠ 8)))) ∧
    ∀ (e : MoErr) (r : PyStr × List PoEntry),
      read_mo data = .error e → read_mo data ≠ .ok r := by
  constructor
  · by_cases h28 : data.length < 28
    · simp only [read_mo, h28, if_true]
      constructor
      · intro _; exact Or.inl trivial
      · intro _; exact ⟨.tooSmall, rfl⟩
    · by_cases hM1 : u32LE (sliceBytes data 0 4) = 0x950412DE
      · have hend : moEndian data = some true := by simp [moEndian, hM1]
        have hrm : read_mo data = readMoWith true data := by
          simp [read_mo, h28, hM1]
        rw [hrm]
        rw [readMoWith_error_iff]
        constructor
        · intro h
          exact Or.inr (Or.inr ⟨true, hend, h⟩)
        · rintro (h | h | ⟨le, hle, h⟩)
          · exact absurd h h28
          · rw [hend] at h; simp at h
          · rw [hend] at hle
            have : le = true := by injection hle with h2; exact h2.symm
            subst this
            exact h
      · by_cases hM2 : u32BE (sliceBytes data 0 4) = 0x950412DE
        · have hend : moEndian data = some false := by simp [moEndian, hM1, hM2]
          have hrm : read_mo data = readMoWith false data := by
            simp [read_mo, h28, hM1, hM2]
          rw [hrm]
          rw [readMoWith_error_iff]
          constructor
          · intro h
            exact Or.inr (Or.inr ⟨false, hend, h⟩)
          · rintro (h | h | ⟨le, hle, h⟩)
            · exact absurd h h28
            · rw [hend] at h; simp at h
            · rw [hend] at hle
              have : le = false := by injection hle with h2; exact h2.symm
              subst this
              exact h
        · have hend : moEndian data = none := by simp [moEndian, hM1, hM2]
          have hrm : read_mo data = .error .badMagic := by
            simp [read_mo, h28, hM1, hM2]
          rw [hrm]
          constructor
          · intro _
            exact Or.inr (Or.inl hend)
          · intro _
            exact ⟨.badMagic, rfl⟩
  · intro e r he hok
    rw [he] at hok
    exact Except.noConfusion hok

/-- The C4 counterexample buffer: a well-formed 28-byte header (valid
little-endian magic, zero revision, one entry, tables at 28 and 36) with
no table bytes behind it. -/
def moCexData : Bytes :=
  pack4LE 0x950412DE ++ pack4LE 0 ++ pack4LE 1 ++ pack4LE 28 ++ pack4LE 36 ++
    pack4LE 0 ++ pack4LE 0

/-- C4 (counterexample): `moCexData` is 28 bytes long, has a matching
little-endian magic and a zero revision — so by the claim its decode
should complete — yet `read_mo` fails with the `struct.error` raised on
the truncated first table slice. -/
theorem read_mo_failure_cex :
    moCexData.length = 28 ∧
    u32LE (sliceBytes moCexData 0 4) = 0x950412DE ∧
    u32 true (sliceBytes moCexData 4 4) = 0 ∧
    read_mo moCexData = .error .structShort :=
  ⟨rfl, rfl, rfl, rfl⟩

theorem read_mo_eq_of_endian (data : Bytes) (le : Bool) (h28 : ¬ data.length < 28)
    (hend : moEndian data = some le) : read_mo data = readMoWith le data := by
  unfold moEndian at hend
  by_cases h1 : u32LE (sliceBytes data 0 4) = 0x950412DE
  · simp only [h1, if_true, Option.some.injEq] at hend
    simp [read_mo, h28, h1, hend]
  · by_cases h2 : u32BE (sliceBytes data 0 4) = 0x950412DE
    · simp only [h1, if_false, h2, if_true, Option.some.injEq] at hend
      simp [read_mo, h28, h1, h2, hend]
    · simp [h1, h2] at hend

theorem sliceBytes_length (data : Bytes) (off len : Nat) :
    (sliceBytes data off len).length = min len (data.length - off) := by
  simp [sliceBytes]

/-- C9 (implicit): once the header and both tables of an MO buffer parse,
`read_mo` always completes with a charset and one entry per table pair;
the raw byte extraction is Python slicing, which truncates every
`(length, offset)` pair at the end of the buffer (down to the empty byte
string) instead of failing, and the truncated bytes are decoded like any
other. -/
theorem read_mo_extraction_total (data : Bytes) (le : Bool) (tO tT : List (Nat × Nat))
    (h28 : ¬ data.length < 28)
    (hend : moEndian data = some le)
    (hrev : u32 le (sliceBytes data 4 4) = 0)
    (hO : read_table le data (u32 le (sliceBytes data 8 4))
      (u32 le (sliceBytes data 12 4)) = .ok tO)
    (hT : read_table le data (u32 le (sliceBytes data 8 4))
      (u32 le (sliceBytes data 16 4)) = .ok tT) :
    (∃ cs es, read_mo data = .ok (cs, es) ∧ es.length = min tO.length tT.length) ∧
    ∀ p ∈ tO ++ tT, (sliceBytes data p.2 p.1).length = min p.1 (data.length - p.2) := by
  constructor
  · rw [read_mo_eq_of_endian data le h28 hend]
    unfold readMoWith
    simp only [hrev, ne_eq, not_true_eq_false, if_false, hO, hT]
    refine ⟨_, _, rfl, ?_⟩
    simp
  · intro p _
    exact sliceBytes_length data p.2 p.1

/-- The C9 witness buffer: a valid header announcing one entry, whose
single original pair `(5, 1000)` and translated pair `(3, 2000)` both
point far past the 44-byte buffer. -/
def moTruncData : Bytes :=
  pack4LE 0x950412DE ++ pack4LE 0 ++ pack4LE 1 ++ pack4LE 28 ++ pack4LE 36 ++
    pack4LE 0 ++ pack4LE 0 ++ pack4LE 5 ++ pack4LE 1000 ++ pack4LE 3 ++ pack4LE 2000

/-- C9 (witness): the extraction-totality theorem applied to
`moTruncData`, whose out-of-range pairs decode to an empty-keyed entry. -/
theorem read_mo_extraction_total_witness :
    (¬ moTruncData.length < 28) ∧
    moEndian moTruncData = some true ∧
    u32 true (sliceBytes moTruncData 4 4) = 0 ∧
    read_table true moTruncData (u32 true (sliceBytes moTruncData 8 4))
      (u32 true (sliceBytes moTruncData 12 4)) = .ok [(5, 1000)] ∧
    read_table true moTruncData (u32 true (sliceBytes moTruncData 8 4))
      (u32 true (sliceBytes moTruncData 16 4)) = .ok [(3, 2000)] ∧
    ((∃ cs es, read_mo moTruncData = .ok (cs, es) ∧
        es.length = min [(5, 1000)].length [(3, 2000)].length) ∧
      ∀ p ∈ [(5, 1000)] ++ [(3, 2000)],
        (sliceBytes moTruncData p.2 p.1).length = min p.1 (moTruncData.length - p.2)) :=
  ⟨by decide, rfl, rfl, rfl, rfl,
    read_mo_extraction_total moTruncData true [(5, 1000)] [(3, 2000)]
      (by decide) rfl rfl rfl rfl⟩

/-- C7 (witness): the alignment invariant applied to the empty catalog
under the UTF-8 encoder; the single synthetic-header key is recorded at
the (4-aligned) pool base offset 44. -/
theorem mo_alignment_invariant_witness :
    ((0, 44) ∈ (moLayout utf8Encode (moWithHeader [])).1 ++
        (moLayout utf8Encode (moWithHeader [])).2.1) ∧ (0, 44).2 % 4 = 0 :=
  ⟨by decide, mo_alignment_invariant utf8Encode [] (0, 44) (by decide)⟩

/-! ### The MO round trip: safe entries and supporting lemmas -/

/-- ASCII text string: every code point printable (`[32, 126]`) or a
newline — the characters the synthetic header itself uses. -/
def moAsciiStr (s : PyStr) : Bool := s.all (fun c => c == 10 || (32 ≤ c && c ≤ 126))

/-- Entry conditions under which the MO round trip is exact: printable
ASCII fields; a singular entry carries exactly one translation string, a
plural entry at least one. -/
def moAsciiEntry (e : PoEntry) : Bool :=
  (match e.msgctxt with
   | some c => moAsciiStr c
   | none => true) &&
  moAsciiStr e.msgid &&
  (match e.msgid_plural with
   | some p => moAsciiStr p && !e.msgstr.isEmpty
   | none => e.msgstr.length == 1) &&
  e.msgstr.all moAsciiStr

theorem moEnc_eq (cs s : PyStr) : moEnc cs s = utf8Encode s := by
  unfold moEnc
  exact ite_self _

theorem pack4LE_length (v : Nat) : (pack4LE v).length = 4 := rfl

theorem u32LE_pack4LE (v : Nat) (h : v < 4294967296) : u32LE (pack4LE v) = v := by
  simp only [u32LE, pack4LE, List.getD_cons_zero, List.getD_cons_succ]
  omega

theorem flat8_length (pairs : List (Nat × Nat)) :
    (pairs.flatMap fun p => pack4LE p.1 ++ pack4LE p.2).length = 8 * pairs.length := by
  induction pairs with
  | nil => rfl
  | cons p rest ih =>
    simp only [List.flatMap_cons, List.length_append, List.length_cons, ih, pack4LE_length]
    omega

theorem sliceBytes_skip_exact (A B : Bytes) (k off len : Nat) (h : A.length = k) :
    sliceBytes (A ++ B) (k + off) len = sliceBytes B off len := by
  unfold sliceBytes
  congr 1
  rw [List.drop_append_eq_append_drop]
  rw [List.drop_eq_nil_of_le (by omega), List.nil_append]
  congr 1
  omega

theorem sliceBytes_here (A B : Bytes) (len : Nat) (h : A.length = len) :
    sliceBytes (A ++ B) 0 len = A := by
  unfold sliceBytes
  rw [List.drop_zero, List.take_append_eq_append_take]
  rw [List.take_of_length_le (by omega)]
  rw [show len - A.length = 0 by omega, List.take_zero, List.append_nil]

theorem sliceBytes_append_stable (A B : Bytes) (off len : Nat) (h : off + len ≤ A.length) :
    sliceBytes (A ++ B) off len = sliceBytes A off len := by
  unfold sliceBytes
  rw [List.drop_append_eq_append_drop, List.take_append_eq_append_take]
  have h1 : len - (A.drop off).length = 0 := by rw [List.length_drop]; omega
  rw [h1, List.take_zero, List.append_nil]

theorem align4_ge (x : Nat) : x ≤ align4 x := by
  unfold align4
  omega

theorem moWithHeader_eq (C : List PoEntry) (h : ∀ e ∈ C, e.msgid ≠ []) :
    moWithHeader C = moDefaultHeader :: C := by
  unfold moWithHeader
  have hany : C.any (fun e => e.msgid == []) = false := by
    rw [List.any_eq_false]
    intro e he
    simpa using h e he
  rw [hany]
  rfl

theorem moKey_ne_nil (e : PoEntry) (h : e.msgid ≠ []) : moKey e ≠ [] := by
  unfold moKey
  cases e.msgctxt <;> cases e.msgid_plural <;> simp_all

theorem moAscii_chars {s : PyStr} (h : moAsciiStr s = true) :
    ∀ c ∈ s, c < 128 ∧ c ≠ 0 ∧ c ≠ 4 := by
  simp only [moAsciiStr, List.all_eq_true, Bool.or_eq_true, Bool.and_eq_true,
    decide_eq_true_eq, beq_iff_eq] at h
  intro c hc
  rcases h c hc with h1 | h1 <;> omega

theorem utf8Encode_ascii (s : PyStr) (h : ∀ c ∈ s, c < 128) : utf8Encode s = s := by
  induction s with
  | nil => rfl
  | cons c rest ih =>
    have hc : c < 128 := h c (List.mem_cons_self c rest)
    show utf8EncodeChar c ++ rest.flatMap utf8EncodeChar = c :: rest
    simp only [utf8EncodeChar]
    rw [if_pos hc]
    rw [show rest.flatMap utf8EncodeChar = utf8Encode rest from rfl,
      ih (fun x hx => h x (List.mem_cons_of_mem _ hx))]
    rfl

theorem utf8DecodeAux_ascii (strict : Bool) (s : PyStr) (h : ∀ c ∈ s, c < 128) :
    ∀ f, s.length < f → utf8DecodeAux strict f s = some s := by
  induction s with
  | nil =>
    intro f hf
    cases f with
    | zero => omega
    | succ f2 => rfl
  | cons c rest ih =>
    intro f hf
    cases f with
    | zero => omega
    | succ f2 =>
      have hc : c < 128 := h c (List.mem_cons_self c rest)
      have hstep : utf8Step (c :: rest) = some (c, 1) := by
        simp only [utf8Step]
        rw [if_pos hc]
      simp only [utf8DecodeAux, hstep]
      rw [show List.drop 1 (c :: rest) = rest from rfl]
      rw [ih (fun x hx => h x (List.mem_cons_of_mem _ hx)) f2
        (by simpa using Nat.lt_of_succ_lt_succ hf)]
      rfl

theorem utf8DecodeStrict_ascii (s : PyStr) (h : ∀ c ∈ s, c < 128) :
    utf8DecodeStrict s = some s :=
  utf8DecodeAux_ascii true s h (s.length + 1) (Nat.lt_succ_self _)

theorem utf8DecodeReplace_ascii (s : PyStr) (h : ∀ c ∈ s, c < 128) :
    utf8DecodeReplace s = s := by
  unfold utf8DecodeReplace
  rw [utf8DecodeAux_ascii false s h (s.length + 1) (Nat.lt_succ_self _)]
  rfl

theorem pyDecode_ascii (cs b : PyStr) (hcs : isUtf8Name cs = true)
    (h : ∀ c ∈ b, c < 128) : pyDecode cs b = b := by
  unfold pyDecode
  rw [if_pos hcs, utf8DecodeStrict_ascii b h]

theorem isUtf8Name_big : isUtf8Name (pstr "UTF-8") = true := by decide

theorem detect_default_header :
    detect_charset_from_header (pstr "Content-Type: text/plain; charset=UTF-8\n") =
      pstr "UTF-8" := by decide

theorem pyContains_iff (sep : Nat) (s : PyStr) : pyContains sep s = true ↔ sep ∈ s := by
  simp [pyContains]

theorem pySplitFirst_sep (sep : Nat) (a b : PyStr) (h : sep ∉ a) :
    pySplitFirst sep (a ++ sep :: b) = (a, b) := by
  induction a with
  | nil => simp [pySplitFirst]
  | cons c rest ih =>
    simp only [List.cons_append, pySplitFirst, List.append_eq]
    rw [if_neg (fun hh : c = sep => h (List.mem_cons.mpr (Or.inl hh.symm)))]
    rw [ih (fun hm => h (List.mem_cons_of_mem c hm))]

theorem pySplitAll_no_sep (sep : Nat) (p : PyStr) (h : sep ∉ p) :
    pySplitAll sep p = [p] := by
  induction p with
  | nil => rfl
  | cons c rest ih =>
    simp only [pySplitAll]
    rw [if_neg (fun hh : c = sep => h (List.mem_cons.mpr (Or.inl hh.symm)))]
    rw [ih (fun hm => h (List.mem_cons_of_mem c hm))]

theorem pySplitAll_sep_append (sep : Nat) (p s : PyStr) (h : sep ∉ p) :
    pySplitAll sep (p ++ sep :: s) = p :: pySplitAll sep s := by
  induction p with
  | nil => simp [pySplitAll]
  | cons c rest ih =>
    simp only [List.cons_append, pySplitAll, List.append_eq]
    rw [if_neg (fun hh : c = sep => h (List.mem_cons.mpr (Or.inl hh.symm)))]
    rw [ih (fun hm => h (List.mem_cons_of_mem c hm))]

theorem pySplitAll_joinWith0 (parts : List PyStr) (hne : parts ≠ [])
    (h : ∀ p ∈ parts, (0 : Nat) ∉ p) : pySplitAll 0 (joinWith0 parts) = parts := by
  induction parts with
  | nil => exact absurd rfl hne
  | cons p rest ih =>
    cases rest with
    | nil => exact pySplitAll_no_sep 0 p (h p (List.mem_cons_self _ _))
    | cons q rest2 =>
      have hj : joinWith0 (p :: q :: rest2) = p ++ 0 :: joinWith0 (q :: rest2) := by
        simp [joinWith0]
      rw [hj, pySplitAll_sep_append 0 p _ (h p (List.mem_cons_self _ _))]
      rw [ih (by simp) (fun x hx => h x (List.mem_cons_of_mem _ hx))]

theorem joinWith0_chars (parts : List PyStr) :
    ∀ c ∈ joinWith0 parts, c = 0 ∨ ∃ p ∈ parts, c ∈ p := by
  induction parts with
  | nil => intro c hc; cases hc
  | cons p rest ih =>
    cases rest with
    | nil =>
      intro c hc
      exact Or.inr ⟨p, List.mem_cons_self _ _, hc⟩
    | cons q rest2 =>
      intro c hc
      have hj : joinWith0 (p :: q :: rest2) = p ++ 0 :: joinWith0 (q :: rest2) := by
        simp [joinWith0]
      rw [hj] at hc
      rcases List.mem_append.mp hc with hc | hc
      · exact Or.inr ⟨p, List.mem_cons_self _ _, hc⟩
      · rcases List.mem_cons.mp hc with hc | hc
        · exact Or.inl hc
        · rcases ih c hc with hc | ⟨p2, hp2, hcp⟩
          · exact Or.inl hc
          · exact Or.inr ⟨p2, List.mem_cons_of_mem _ hp2, hcp⟩

theorem dictInsert_append_of_not_mem {α β : Type} [DecidableEq α] (d : List (α × β))
    {k : α} (v : β) (h : k ∉ d.map Prod.fst) : dictInsert d k v = d ++ [(k, v)] := by
  induction d with
  | nil => rfl
  | cons p rest ih =>
    obtain ⟨k', v'⟩ := p
    simp only [List.map_cons, List.mem_cons] at h
    push_neg at h
    simp only [dictInsert]
    rw [if_neg (fun hh => h.1 hh.symm), ih h.2]
    rfl

theorem dictGet_map (f g : PoEntry → Bytes) :
    ∀ es : List PoEntry, (es.map f).Nodup → ∀ e ∈ es,
      dictGet (es.map fun e2 => (f e2, g e2)) (f e) = some (g e) := by
  intro es
  induction es with
  | nil => intro _ e he; cases he
  | cons e2 rest ih =>
    intro hnd e he
    simp only [List.map_cons, List.nodup_cons] at hnd
    simp only [List.map_cons, dictGet]
    by_cases hf : f e2 = f e
    · rw [if_pos hf]
      rcases List.mem_cons.mp he with he | he
      · subst he; rfl
      · exact absurd (hf ▸ List.mem_map_of_mem f he) hnd.1
    · rw [if_neg hf]
      rcases List.mem_cons.mp he with he | he
      · exact absurd (congrArg f he.symm ▸ rfl) hf
      · exact ih hnd.2 e he

theorem moByKey_fold_append (enc : PyStr → Bytes) :
    ∀ (es : List PoEntry) (d : List (Bytes × Bytes)),
      (∀ e ∈ es, enc (moKey e) ∉ d.map Prod.fst) →
      (es.map fun e => enc (moKey e)).Nodup →
      es.foldl (fun d e => dictInsert d (enc (moKey e)) (enc (moVal e))) d =
        d ++ es.map fun e => (enc (moKey e), enc (moVal e)) := by
  intro es
  induction es with
  | nil => intro d _ _; simp
  | cons e rest ih =>
    intro d hdis hnd
    simp only [List.map_cons, List.nodup_cons] at hnd
    simp only [List.foldl_cons, List.map_cons]
    have hins : dictInsert d (enc (moKey e)) (enc (moVal e)) =
        d ++ [(enc (moKey e), enc (moVal e))] :=
      dictInsert_append_of_not_mem d _ (hdis e (List.mem_cons_self _ _))
    rw [hins, ih (d ++ [(enc (moKey e), enc (moVal e))]) ?_ hnd.2]
    · rw [List.append_assoc]
      rfl
    · intro e2 he2
      simp only [List.map_append, List.mem_append]
      rintro (h | h)
      · exact hdis e2 (List.mem_cons_of_mem _ he2) h
      · simp only [List.map_cons, List.map_nil, List.mem_singleton] at h
        exact hnd.1 (h ▸ List.mem_map_of_mem (fun e => enc (moKey e)) he2)

theorem moByKey_eq_map (enc : PyStr → Bytes) (es : List PoEntry)
    (hnd : (es.map fun e => enc (moKey e)).Nodup) :
    moByKey enc es = es.map fun e => (enc (moKey e), enc (moVal e)) := by
  unfold moByKey
  rw [moByKey_fold_append enc es [] (by intro e _ h; cases h) hnd]
  rfl

theorem sliceBytes_skip_exact0 (A B : Bytes) (k len : Nat) (h : A.length = k) :
    sliceBytes (A ++ B) k len = sliceBytes B 0 len := by
  have h2 := sliceBytes_skip_exact A B k 0 len h
  simpa using h2

theorem pool_fold_spec (poolOff : Nat) :
    ∀ (ss : List Bytes) (st : PoolSt), st.curOff = poolOff + st.pool.length →
      ((ss.foldl (poolPush poolOff) st).curOff =
          poolOff + (ss.foldl (poolPush poolOff) st).pool.length) ∧
      (∃ ext, (ss.foldl (poolPush poolOff) st).pool = st.pool ++ ext) ∧
      (∃ neo, (ss.foldl (poolPush poolOff) st).offs = st.offs ++ neo ∧
        List.Forall₂ (fun (lo : Nat × Nat) (s : Bytes) =>
            lo.1 = s.length ∧ poolOff ≤ lo.2 ∧
            lo.2 - poolOff + s.length + 1 ≤ (ss.foldl (poolPush poolOff) st).pool.length ∧
            sliceBytes (ss.foldl (poolPush poolOff) st).pool (lo.2 - poolOff) s.length = s)
          neo ss) := by
  intro ss
  induction ss with
  | nil =>
    intro st h
    exact ⟨h, ⟨[], by simp⟩, ⟨[], by simp, List.Forall₂.nil⟩⟩
  | cons s rest ih =>
    intro st h
    simp only [List.foldl_cons]
    have ha : st.curOff ≤ align4 st.curOff := align4_ge _
    have hpoolOff : poolOff ≤ align4 st.curOff := by omega
    have hpool' : (poolPush poolOff st s).pool =
        ((st.pool ++ List.replicate (align4 st.curOff - poolOff - st.pool.length) 0) ++ s)
          ++ [0] := rfl
    have hcur2 : (poolPush poolOff st s).curOff = align4 st.curOff + s.length + 1 := rfl
    have hoffs2 : (poolPush poolOff st s).offs =
        st.offs ++ [(s.length, align4 st.curOff)] := rfl
    have hlen' : (poolPush poolOff st s).pool.length =
        (align4 st.curOff - poolOff) + s.length + 1 := by
      rw [hpool']
      simp only [List.length_append, List.length_replicate, List.length_cons,
        List.length_nil]
      omega
    have hcur' : (poolPush poolOff st s).curOff =
        poolOff + (poolPush poolOff st s).pool.length := by
      rw [hcur2, hlen']
      omega
    obtain ⟨hcurF, ⟨ext2, hpoolF⟩, ⟨neo2, hoffsF, hfa2⟩⟩ := ih (poolPush poolOff st s) hcur'
    refine ⟨hcurF, ?_, ?_⟩
    · refine ⟨List.replicate (align4 st.curOff - poolOff - st.pool.length) 0 ++ s ++ [0]
        ++ ext2, ?_⟩
      rw [hpoolF, hpool']
      simp [List.append_assoc]
    · refine ⟨(s.length, align4 st.curOff) :: neo2, ?_, ?_⟩
      · rw [hoffsF, hoffs2]
        simp [List.append_assoc]
      · refine List.Forall₂.cons ⟨rfl, hpoolOff, ?_, ?_⟩ hfa2
        · rw [hpoolF, List.length_append, hlen']
          omega
        · rw [hpoolF]
          rw [sliceBytes_append_stable (poolPush poolOff st s).pool ext2 _ _
            (by rw [hlen']; omega)]
          rw [hpool', List.append_assoc]
          rw [sliceBytes_skip_exact0 _ (s ++ [0]) _ s.length
            (by simp only [List.length_append, List.length_replicate]; omega)]
          exact sliceBytes_here s [0] s.length rfl

theorem u32_true (b : Bytes) : u32 true b = u32LE b := rfl

theorem flat8_slice (pairs : List (Nat × Nat)) (post : Bytes) :
    ∀ (j : Nat) (hj : j < pairs.length),
      sliceBytes ((pairs.flatMap fun p => pack4LE p.1 ++ pack4LE p.2) ++ post) (j * 8) 8 =
        pack4LE (pairs.get ⟨j, hj⟩).1 ++ pack4LE (pairs.get ⟨j, hj⟩).2 := by
  induction pairs generalizing post with
  | nil => intro j hj; simp at hj
  | cons p rest ih =>
    intro j hj
    cases j with
    | zero =>
      simp only [List.flatMap_cons]
      rw [List.append_assoc]
      rw [show (0 * 8 : Nat) = 0 from rfl]
      exact sliceBytes_here _ _ 8 (by simp [pack4LE])
    | succ j2 =>
      simp only [List.flatMap_cons]
      rw [List.append_assoc]
      rw [show (j2 + 1) * 8 = 8 + j2 * 8 by ring]
      rw [sliceBytes_skip_exact _ _ 8 (j2 * 8) 8 (by simp [pack4LE])]
      exact ih (post) j2 (Nat.lt_of_succ_lt_succ hj)

theorem readTableAux_of_slices (data : Bytes) :
    ∀ (pairs : List (Nat × Nat)) (off i : Nat),
      (∀ (j : Nat) (hj : j < pairs.length),
        sliceBytes data (off + (i + j) * 8) 8 =
          pack4LE (pairs.get ⟨j, hj⟩).1 ++ pack4LE (pairs.get ⟨j, hj⟩).2) →
      (∀ p ∈ pairs, p.1 < 4294967296 ∧ p.2 < 4294967296) →
      readTableAux true data off i pairs.length = .ok pairs := by
  intro pairs
  induction pairs with
  | nil => intro off i _ _; rfl
  | cons p rest ih =>
    intro off i hsl hb
    have h0 : sliceBytes data (off + i * 8) 8 = pack4LE p.1 ++ pack4LE p.2 :=
      hsl 0 (by simp)
    show readTableAux true data off i (rest.length + 1) = .ok (p :: rest)
    simp only [readTableAux]
    rw [h0]
    rw [if_pos (by simp [pack4LE])]
    have hrec : readTableAux true data off (i + 1) rest.length = .ok rest := by
      refine ih off (i + 1) ?_ ?_
      · intro j hj
        have hj1 := hsl (j + 1) (Nat.succ_lt_succ hj)
        rw [show i + (j + 1) = i + 1 + j by omega] at hj1
        exact hj1
      · intro q hq
        exact hb q (List.mem_cons_of_mem _ hq)
    rw [hrec]
    have ht : (pack4LE p.1 ++ pack4LE p.2).take 4 = pack4LE p.1 := rfl
    have hd : (pack4LE p.1 ++ pack4LE p.2).drop 4 = pack4LE p.2 := rfl
    rw [ht, hd]
    have hb0 := hb p (List.mem_cons_self _ _)
    rw [u32_true, u32_true, u32LE_pack4LE _ hb0.1, u32LE_pack4LE _ hb0.2]

theorem read_table_of_slices (data : Bytes) (pairs : List (Nat × Nat)) (off : Nat)
    (hsl : ∀ (j : Nat) (hj : j < pairs.length),
      sliceBytes data (off + j * 8) 8 =
        pack4LE (pairs.get ⟨j, hj⟩).1 ++ pack4LE (pairs.get ⟨j, hj⟩).2)
    (hb : ∀ p ∈ pairs, p.1 < 4294967296 ∧ p.2 < 4294967296) :
    read_table true data pairs.length off = .ok pairs := by
  unfold read_table
  refine readTableAux_of_slices data pairs off 0 ?_ hb
  intro j hj
  rw [Nat.zero_add]
  exact hsl j hj

theorem sorted_head_nil (K : List Bytes)
    (hs : K.Pairwise (fun a b => bytesLe a b = true)) (hmem : [] ∈ K) :
    ∃ rest, K = [] :: rest := by
  cases K with
  | nil => cases hmem
  | cons k rest =>
    rcases List.mem_cons.mp hmem with h | h
    · exact ⟨rest, by rw [h]⟩
    · have hk := (List.pairwise_cons.mp hs).1 [] h
      cases k with
      | nil => exact ⟨rest, rfl⟩
      | cons c cs => simp [bytesLe] at hk

theorem zip_map_slices (data : Bytes) (t1 : List (Nat × Nat)) (k : List Bytes) :
    List.Forall₂ (fun p s => sliceBytes data p.2 p.1 = s) t1 k →
    ∀ (t2 : List (Nat × Nat)) (v : List Bytes),
      List.Forall₂ (fun p s => sliceBytes data p.2 p.1 = s) t2 v →
      (t1.zip t2).map
          (fun p => (sliceBytes data p.1.2 p.1.1, sliceBytes data p.2.2 p.2.1)) =
        k.zip v := by
  intro h1
  induction h1 with
  | nil => intro t2 v _; simp
  | @cons p s t1b kb hps htail ih =>
    intro t2 v h2
    cases h2 with
    | nil => simp
    | @cons q w t2b vb hqw h2tail =>
      simp only [List.zip_cons_cons, List.map_cons]
      rw [hps, hqw, ih t2b vb h2tail]

theorem zip_map_self {α β : Type} (f : α → β) (l : List α) :
    l.zip (l.map f) = l.map fun x => (x, f x) := by
  induction l with
  | nil => rfl
  | cons x xs ih => simp [ih]

theorem moAscii_ctxt {e : PoEntry} {c0 : PyStr} (he : moAsciiEntry e = true)
    (hc : e.msgctxt = some c0) : moAsciiStr c0 = true := by
  unfold moAsciiEntry at he
  rw [hc] at he
  simp only [Bool.and_eq_true] at he
  exact he.1.1.1

theorem moAscii_id {e : PoEntry} (he : moAsciiEntry e = true) :
    moAsciiStr e.msgid = true := by
  unfold moAsciiEntry at he
  simp only [Bool.and_eq_true] at he
  exact he.1.1.2

theorem moAscii_plural {e : PoEntry} {p : PyStr} (he : moAsciiEntry e = true)
    (hp : e.msgid_plural = some p) : moAsciiStr p = true ∧ e.msgstr ≠ [] := by
  unfold moAsciiEntry at he
  rw [hp] at he
  simp only [Bool.and_eq_true, Bool.not_eq_true] at he
  refine ⟨he.1.2.1, ?_⟩
  have h2 := he.1.2.2
  simpa [List.isEmpty_iff] using h2

theorem moAscii_sing {e : PoEntry} (he : moAsciiEntry e = true)
    (hp : e.msgid_plural = none) : e.msgstr.length = 1 := by
  unfold moAsciiEntry at he
  rw [hp] at he
  simp only [Bool.and_eq_true, beq_iff_eq] at he
  exact he.1.2

theorem moAscii_strs {e : PoEntry} (he : moAsciiEntry e = true) :
    ∀ s ∈ e.msgstr, moAsciiStr s = true := by
  unfold moAsciiEntry at he
  simp only [Bool.and_eq_true, List.all_eq_true] at he
  exact he.2

theorem moKey_chars {e : PoEntry} (he : moAsciiEntry e = true) :
    ∀ c ∈ moKey e, c < 128 := by
  intro c hc
  unfold moKey at hc
  cases hmc : e.msgctxt with
  | none =>
    rw [hmc] at hc
    cases hmp : e.msgid_plural with
    | none =>
      rw [hmp] at hc
      exact (moAscii_chars (moAscii_id he) c hc).1
    | some p =>
      rw [hmp] at hc
      rcases List.mem_append.mp hc with hc | hc
      · rcases List.mem_append.mp hc with hc | hc
        · exact (moAscii_chars (moAscii_id he) c hc).1
        · simp only [List.mem_singleton] at hc; omega
      · exact (moAscii_chars (moAscii_plural he hmp).1 c hc).1
  | some c0 =>
    rw [hmc] at hc
    have hctxt := moAscii_ctxt he hmc
    cases hmp : e.msgid_plural with
    | none =>
      rw [hmp] at hc
      rcases List.mem_append.mp hc with hc | hc
      · rcases List.mem_append.mp hc with hc | hc
        · exact (moAscii_chars hctxt c hc).1
        · simp only [List.mem_singleton] at hc; omega
      · exact (moAscii_chars (moAscii_id he) c hc).1
    | some p =>
      rw [hmp] at hc
      rcases List.mem_append.mp hc with hc | hc
      · rcases List.mem_append.mp hc with hc | hc
        · rcases List.mem_append.mp hc with hc | hc
          · rcases List.mem_append.mp hc with hc | hc
            · exact (moAscii_chars hctxt c hc).1
            · simp only [List.mem_singleton] at hc; omega
          · exact (moAscii_chars (moAscii_id he) c hc).1
        · simp only [List.mem_singleton] at hc; omega
      · exact (moAscii_chars (moAscii_plural he hmp).1 c hc).1

theorem moVal_chars {e : PoEntry} (he : moAsciiEntry e = true) :
    ∀ c ∈ moVal e, c < 128 := by
  intro c hc
  unfold moVal at hc
  cases hmp : e.msgid_plural with
  | some p =>
    rw [hmp] at hc
    rcases joinWith0_chars e.msgstr c hc with hc | ⟨s, hs, hcs⟩
    · omega
    · exact (moAscii_chars (moAscii_strs he s hs) c hcs).1
  | none =>
    rw [hmp] at hc
    have h1 : e.msgstr.length = 1 := moAscii_sing he hmp
    cases hms : e.msgstr with
    | nil => rw [hms] at hc; cases hc
    | cons s rest =>
      rw [hms] at hc
      simp only [List.headD_cons] at hc
      have hs : s ∈ e.msgstr := by rw [hms]; exact List.mem_cons_self _ _
      exact (moAscii_chars (moAscii_strs he s hs) c hc).1

theorem msgstr_parts_readback (parts : List PyStr) (hne : parts ≠ [])
    (h : ∀ p ∈ parts, (0 : Nat) ∉ p) :
    (if pyContains 0 (joinWith0 parts) = true then pySplitAll 0 (joinWith0 parts)
      else [joinWith0 parts]) = parts := by
  by_cases h0 : pyContains 0 (joinWith0 parts) = true
  · rw [if_pos h0]
    exact pySplitAll_joinWith0 parts hne h
  · rw [if_neg h0]
    cases parts with
    | nil => exact absurd rfl hne
    | cons p rest =>
      cases rest with
      | nil => rfl
      | cons q rest2 =>
        exfalso
        apply h0
        rw [pyContains_iff]
        have hj : joinWith0 (p :: q :: rest2) = p ++ 0 :: joinWith0 (q :: rest2) := by
          simp [joinWith0]
        rw [hj]
        exact List.mem_append.mpr (Or.inr (List.mem_cons_self _ _))

theorem moAscii_no0 {s : PyStr} (hs : moAsciiStr s = true) : (0 : Nat) ∉ s :=
  fun hm => (moAscii_chars hs 0 hm).2.1 rfl

theorem moAscii_no4 {s : PyStr} (hs : moAsciiStr s = true) : (4 : Nat) ∉ s :=
  fun hm => (moAscii_chars hs 4 hm).2.2 rfl

theorem msgstr_sing_readback (ms : List PyStr) (h1 : ms.length = 1)
    (h : ∀ p ∈ ms, (0 : Nat) ∉ p) :
    (if pyContains 0 (ms.headD []) = true then pySplitAll 0 (ms.headD [])
      else [ms.headD []]) = ms := by
  cases ms with
  | nil => simp at h1
  | cons s rest =>
    cases rest with
    | nil =>
      simp only [List.headD_cons]
      rw [if_neg (by rw [pyContains_iff]; exact h s (List.mem_cons_self _ _))]
    | cons q r2 => simp at h1

theorem moSplitEntry_inv (cs : PyStr) (hcs : isUtf8Name cs = true) (e : PoEntry)
    (he : moAsciiEntry e = true) :
    moSplitEntry cs (utf8Encode (moKey e)) (utf8Encode (moVal e)) = e := by
  have hkc := moKey_chars he
  have hvc := moVal_chars he
  have hid := moAscii_id he
  have h4id : (4 : Nat) ∉ e.msgid := moAscii_no4 hid
  have h0id : (0 : Nat) ∉ e.msgid := moAscii_no0 hid
  have hstrs0 : ∀ p ∈ e.msgstr, (0 : Nat) ∉ p :=
    fun p hp => moAscii_no0 (moAscii_strs he p hp)
  rw [utf8Encode_ascii _ hkc, utf8Encode_ascii _ hvc]
  simp only [moSplitEntry]
  rw [pyDecode_ascii cs _ hcs hkc, pyDecode_ascii cs _ hcs hvc]
  cases hmc : e.msgctxt with
  | some c0 =>
    have hc0 := moAscii_ctxt he hmc
    have h4c0 : (4 : Nat) ∉ c0 := moAscii_no4 hc0
    cases hmp : e.msgid_plural with
    | some p =>
      obtain ⟨hpa, hne⟩ := moAscii_plural he hmp
      have hkey : moKey e = c0 ++ 4 :: (e.msgid ++ 0 :: p) := by
        unfold moKey
        rw [hmc, hmp]
        simp [List.append_assoc]
      have hval : moVal e = joinWith0 e.msgstr := by
        unfold moVal
        rw [hmp]
      have h4in : pyContains 4 (c0 ++ 4 :: (e.msgid ++ 0 :: p)) = true := by
        rw [pyContains_iff]
        exact List.mem_append.mpr (Or.inr (List.mem_cons_self _ _))
      have h0in : pyContains 0 (e.msgid ++ 0 :: p) = true := by
        rw [pyContains_iff]
        exact List.mem_append.mpr (Or.inr (List.mem_cons_self _ _))
      rw [hkey, hval, if_pos h4in, pySplitFirst_sep 4 c0 _ h4c0]
      dsimp only
      rw [if_pos h0in, pySplitFirst_sep 0 e.msgid p h0id]
      dsimp only
      rw [msgstr_parts_readback e.msgstr hne hstrs0]
      rw [← hmc, ← hmp]
    | none =>
      have hsing := moAscii_sing he hmp
      have hkey : moKey e = c0 ++ 4 :: e.msgid := by
        unfold moKey
        rw [hmc, hmp]
        simp [List.append_assoc]
      have hval : moVal e = e.msgstr.headD [] := by
        unfold moVal
        rw [hmp]
      have h4in : pyContains 4 (c0 ++ 4 :: e.msgid) = true := by
        rw [pyContains_iff]
        exact List.mem_append.mpr (Or.inr (List.mem_cons_self _ _))
      have h0no : pyContains 0 e.msgid ≠ true :=
        fun hh => h0id ((pyContains_iff 0 e.msgid).mp hh)
      rw [hkey, hval, if_pos h4in, pySplitFirst_sep 4 c0 _ h4c0]
      dsimp only
      rw [if_neg h0no]
      rw [msgstr_sing_readback e.msgstr hsing hstrs0]
      rw [← hmc, ← hmp]
  | none =>
    cases hmp : e.msgid_plural with
    | some p =>
      obtain ⟨hpa, hne⟩ := moAscii_plural he hmp
      have hkey : moKey e = e.msgid ++ 0 :: p := by
        unfold moKey
        rw [hmc, hmp]
        simp [List.append_assoc]
      have hval : moVal e = joinWith0 e.msgstr := by
        unfold moVal
        rw [hmp]
      have h4p : (4 : Nat) ∉ p := moAscii_no4 hpa
      have h4no : pyContains 4 (e.msgid ++ 0 :: p) ≠ true := by
        intro hmem0
        have hmem := (pyContains_iff _ _).mp hmem0
        rcases List.mem_append.mp hmem with hm | hm
        · exact h4id hm
        · rcases List.mem_cons.mp hm with hm | hm
          · omega
          · exact h4p hm
      have h0in : pyContains 0 (e.msgid ++ 0 :: p) = true := by
        rw [pyContains_iff]
        exact List.mem_append.mpr (Or.inr (List.mem_cons_self _ _))
      rw [hkey, hval, if_neg h4no]
      dsimp only
      rw [if_pos h0in, pySplitFirst_sep 0 e.msgid p h0id]
      dsimp only
      rw [msgstr_parts_readback e.msgstr hne hstrs0]
      rw [← hmc, ← hmp]
    | none =>
      have hsing := moAscii_sing he hmp
      have hkey : moKey e = e.msgid := by
        unfold moKey
        rw [hmc, hmp]
      have hval : moVal e = e.msgstr.headD [] := by
        unfold moVal
        rw [hmp]
      have h4no : pyContains 4 e.msgid ≠ true :=
        fun hh => h4id ((pyContains_iff 4 e.msgid).mp hh)
      have h0no : pyContains 0 e.msgid ≠ true :=
        fun hh => h0id ((pyContains_iff 0 e.msgid).mp hh)
      rw [hkey, hval, if_neg h4no]
      dsimp only
      rw [if_neg h0no]
      dsimp only
      rw [msgstr_sing_readback e.msgstr hsing hstrs0]
      nth_rewrite 2 [← hmp]
      rw [← hmc]

theorem forall2_mem_left {α β : Type} {R : α → β → Prop} :
    ∀ {l1 : List α} {l2 : List β}, List.Forall₂ R l1 l2 → ∀ a ∈ l1, ∃ b, R a b := by
  intro l1 l2 h
  induction h with
  | nil => intro a ha; cases ha
  | cons hr _ ih =>
    intro a ha
    rcases List.mem_cons.mp ha with ha | ha
    · exact ⟨_, ha ▸ hr⟩
    · exact ih a ha

theorem mo_header_skip (a b c d e f g : Nat) (rest : Bytes) (off len : Nat) :
    sliceBytes (pack4LE a ++ (pack4LE b ++ (pack4LE c ++ (pack4LE d ++ (pack4LE e ++
        (pack4LE f ++ (pack4LE g ++ rest))))))) (28 + off) len =
      sliceBytes rest off len := by
  rw [show 28 + off = 4 + (4 + (4 + (4 + (4 + (4 + (4 + off)))))) by omega]
  rw [sliceBytes_skip_exact _ _ 4 _ len (pack4LE_length a)]
  rw [sliceBytes_skip_exact _ _ 4 _ len (pack4LE_length b)]
  rw [sliceBytes_skip_exact _ _ 4 _ len (pack4LE_length c)]
  rw [sliceBytes_skip_exact _ _ 4 _ len (pack4LE_length d)]
  rw [sliceBytes_skip_exact _ _ 4 _ len (pack4LE_length e)]
  rw [sliceBytes_skip_exact _ _ 4 _ len (pack4LE_length f)]
  rw [sliceBytes_skip_exact _ _ 4 _ len (pack4LE_length g)]

theorem mo_assembled_core (K V : List Bytes) (neo1 neo2 : List (Nat × Nat))
    (TO TT POOL data : Bytes)
    (hKV : K.length = V.length)
    (hhead : ∃ kr, K = [] :: kr)
    (hdata : data = pack4LE 0x950412DE ++ (pack4LE 0 ++ (pack4LE K.length ++ (pack4LE 28 ++
      (pack4LE (28 + 8 * K.length) ++ (pack4LE 0 ++ (pack4LE 0 ++ (TO ++ (TT ++ POOL)))))))))
    (hTO : TO = neo1.flatMap fun p => pack4LE p.1 ++ pack4LE p.2)
    (hTT : TT = neo2.flatMap fun p => pack4LE p.1 ++ pack4LE p.2)
    (hfa1 : List.Forall₂ (fun (lo : Nat × Nat) (s : Bytes) =>
        lo.1 = s.length ∧ 28 + 16 * K.length ≤ lo.2 ∧
        lo.2 - (28 + 16 * K.length) + s.length + 1 ≤ POOL.length ∧
        sliceBytes POOL (lo.2 - (28 + 16 * K.length)) s.length = s) neo1 K)
    (hfa2 : List.Forall₂ (fun (lo : Nat × Nat) (s : Bytes) =>
        lo.1 = s.length ∧ 28 + 16 * K.length ≤ lo.2 ∧
        lo.2 - (28 + 16 * K.length) + s.length + 1 ≤ POOL.length ∧
        sliceBytes POOL (lo.2 - (28 + 16 * K.length)) s.length = s) neo2 V)
    (hsize : data.length < 4294967296) :
    read_mo data = .ok
      (detect_charset_from_header (utf8DecodeReplace (V.headD [])),
       (K.zip V).map fun p =>
         moSplitEntry (detect_charset_from_header (utf8DecodeReplace (V.headD [])))
           p.1 p.2) := by
  have hlen1 : neo1.length = K.length := hfa1.length_eq
  have hlen2 : neo2.length = V.length := hfa2.length_eq
  have hTOlen : TO.length = 8 * K.length := by rw [hTO, flat8_length, hlen1]
  have hTTlen : TT.length = 8 * V.length := by rw [hTT, flat8_length, hlen2]
  have hdlen : data.length = 28 + 8 * K.length + 8 * V.length + POOL.length := by
    rw [hdata]
    simp only [List.length_append, pack4LE_length, hTOlen, hTTlen]
    omega
  have hnsmall : ¬ data.length < 28 := by omega
  have hnb : K.length < 4294967296 := by omega
  have htb : 28 + 8 * K.length < 4294967296 := by omega
  have hsl0 : sliceBytes data 0 4 = pack4LE 0x950412DE := by rw [hdata]; exact rfl
  have hsl4 : sliceBytes data 4 4 = pack4LE 0 := by rw [hdata]; exact rfl
  have hsl8 : sliceBytes data 8 4 = pack4LE K.length := by rw [hdata]; exact rfl
  have hsl12 : sliceBytes data 12 4 = pack4LE 28 := by rw [hdata]; exact rfl
  have hsl16 : sliceBytes data 16 4 = pack4LE (28 + 8 * K.length) := by rw [hdata]; exact rfl
  have hslpool : ∀ d2 len,
      sliceBytes data (28 + (8 * K.length + (8 * V.length + d2))) len =
        sliceBytes POOL d2 len := by
    intro d2 len
    rw [hdata, mo_header_skip]
    rw [sliceBytes_skip_exact TO (TT ++ POOL) (8 * K.length) (8 * V.length + d2) len hTOlen]
    rw [sliceBytes_skip_exact TT POOL (8 * V.length) d2 len hTTlen]
  have hfa1d : List.Forall₂ (fun (lo : Nat × Nat) (s : Bytes) =>
      sliceBytes data lo.2 lo.1 = s) neo1 K := by
    refine hfa1.imp ?_
    intro lo s hp
    obtain ⟨hl, hpo, hb, hsl⟩ := hp
    rw [hl]
    have harith : lo.2 = 28 + (8 * K.length + (8 * V.length +
        (lo.2 - (28 + 16 * K.length)))) := by omega
    conv_lhs => rw [harith]
    rw [hslpool]
    exact hsl
  have hfa2d : List.Forall₂ (fun (lo : Nat × Nat) (s : Bytes) =>
      sliceBytes data lo.2 lo.1 = s) neo2 V := by
    refine hfa2.imp ?_
    intro lo s hp
    obtain ⟨hl, hpo, hb, hsl⟩ := hp
    rw [hl]
    have harith : lo.2 = 28 + (8 * K.length + (8 * V.length +
        (lo.2 - (28 + 16 * K.length)))) := by omega
    conv_lhs => rw [harith]
    rw [hslpool]
    exact hsl
  have hbounds1 : ∀ p ∈ neo1, p.1 < 4294967296 ∧ p.2 < 4294967296 := by
    intro p hp
    obtain ⟨s, hl, hpo, hb, _⟩ := forall2_mem_left hfa1 p hp
    constructor <;> omega
  have hbounds2 : ∀ p ∈ neo2, p.1 < 4294967296 ∧ p.2 < 4294967296 := by
    intro p hp
    obtain ⟨s, hl, hpo, hb, _⟩ := forall2_mem_left hfa2 p hp
    constructor <;> omega
  have hrtO : read_table true data K.length 28 = .ok neo1 := by
    rw [← hlen1]
    refine read_table_of_slices data neo1 28 ?_ hbounds1
    intro j hj
    rw [hdata, mo_header_skip, hTO]
    exact flat8_slice neo1 (TT ++ POOL) j hj
  have hrtT : read_table true data K.length (28 + 8 * K.length) = .ok neo2 := by
    have h2 : read_table true data neo2.length (28 + 8 * K.length) = .ok neo2 := by
      refine read_table_of_slices data neo2 (28 + 8 * K.length) ?_ hbounds2
      intro j hj
      rw [show 28 + 8 * K.length + j * 8 = 28 + (8 * K.length + j * 8) by omega]
      rw [hdata, mo_header_skip]
      rw [sliceBytes_skip_exact TO (TT ++ POOL) (8 * K.length) (j * 8) 8 hTOlen]
      rw [hTT]
      exact flat8_slice neo2 POOL j hj
    rw [hlen2, ← hKV] at h2
    exact h2
  have hraw : (neo1.zip neo2).map
      (fun p => (sliceBytes data p.1.2 p.1.1, sliceBytes data p.2.2 p.2.1)) = K.zip V :=
    zip_map_slices data neo1 K hfa1d neo2 V hfa2d
  obtain ⟨kr, hKcons⟩ := hhead
  have hVne : V ≠ [] := by
    intro hV
    rw [hKcons, hV] at hKV
    simp at hKV
  obtain ⟨v0, vt, hVcons⟩ : ∃ v0 vt, V = v0 :: vt := by
    cases V with
    | nil => exact absurd rfl hVne
    | cons v0 vt => exact ⟨v0, vt, rfl⟩
  simp only [read_mo]
  rw [if_neg hnsmall, hsl0, u32LE_pack4LE _ (by norm_num)]
  rw [if_pos rfl]
  simp only [readMoWith, u32_true]
  rw [hsl4, hsl8, hsl12, hsl16]
  rw [u32LE_pack4LE 0 (by norm_num), u32LE_pack4LE 28 (by norm_num),
    u32LE_pack4LE K.length hnb, u32LE_pack4LE (28 + 8 * K.length) htb]
  rw [if_neg (by simp)]
  rw [hrtO, hrtT]
  dsimp only
  rw [hraw]
  rw [hKcons, hVcons]
  rw [List.zip_cons_cons]
  rw [List.find?_cons_of_pos _ (by simp)]
  dsimp only
  rw [← List.zip_cons_cons, ← hKcons, ← hVcons]
  rw [hVcons]
  simp only [List.headD_cons]

/-- The byte image `write_mo` assembles from its sorted key list and the
matching value list: header words, the two tables recorded by the pool
loops, then the pool. -/
def moAssemble (K V : List Bytes) : Bytes :=
  let n := K.length
  let P := 28 + 16 * n
  let st1 := K.foldl (poolPush P) ⟨[], P, []⟩
  let st2 := V.foldl (poolPush P) ⟨st1.pool, st1.curOff, []⟩
  pack4LE 0x950412DE ++ pack4LE 0 ++ pack4LE n ++ pack4LE 28 ++ pack4LE (28 + 8 * n) ++
    pack4LE 0 ++ pack4LE 0 ++
    (st1.offs.flatMap fun p => pack4LE p.1 ++ pack4LE p.2) ++
    (st2.offs.flatMap fun p => pack4LE p.1 ++ pack4LE p.2) ++ st2.pool

theorem mo_write_read (K V : List Bytes) (hKV : K.length = V.length)
    (hhead : ∃ kr, K = [] :: kr)
    (hsize : (moAssemble K V).length < 4294967296) :
    read_mo (moAssemble K V) = .ok
      (detect_charset_from_header (utf8DecodeReplace (V.headD [])),
       (K.zip V).map fun p =>
         moSplitEntry (detect_charset_from_header (utf8DecodeReplace (V.headD [])))
           p.1 p.2) := by
  obtain ⟨hcur1, ⟨ext1, hpool1⟩, ⟨neo1, hoffs1, hfa1⟩⟩ :=
    pool_fold_spec (28 + 16 * K.length) K ⟨[], 28 + 16 * K.length, []⟩ (by simp)
  set ST1 := K.foldl (poolPush (28 + 16 * K.length))
    (⟨[], 28 + 16 * K.length, []⟩ : PoolSt) with hST1
  obtain ⟨hcur2, ⟨ext2, hpool2⟩, ⟨neo2, hoffs2, hfa2⟩⟩ :=
    pool_fold_spec (28 + 16 * K.length) V ⟨ST1.pool, ST1.curOff, []⟩ hcur1
  set ST2 := V.foldl (poolPush (28 + 16 * K.length))
    (⟨ST1.pool, ST1.curOff, []⟩ : PoolSt) with hST2
  dsimp only at hoffs1 hoffs2 hpool1 hpool2
  rw [List.nil_append] at hoffs1 hoffs2
  have hfa1F : List.Forall₂ (fun (lo : Nat × Nat) (s : Bytes) =>
      lo.1 = s.length ∧ 28 + 16 * K.length ≤ lo.2 ∧
      lo.2 - (28 + 16 * K.length) + s.length + 1 ≤ ST2.pool.length ∧
      sliceBytes ST2.pool (lo.2 - (28 + 16 * K.length)) s.length = s) neo1 K := by
    refine hfa1.imp ?_
    rintro lo s ⟨hl, hpo, hb, hsl⟩
    refine ⟨hl, hpo, ?_, ?_⟩
    · rw [hpool2, List.length_append]
      omega
    · rw [hpool2, sliceBytes_append_stable _ _ _ _ (by omega)]
      exact hsl
  have hdata : moAssemble K V =
      pack4LE 0x950412DE ++ (pack4LE 0 ++ (pack4LE K.length ++ (pack4LE 28 ++
        (pack4LE (28 + 8 * K.length) ++ (pack4LE 0 ++ (pack4LE 0 ++
          ((neo1.flatMap fun p => pack4LE p.1 ++ pack4LE p.2) ++
           ((neo2.flatMap fun p => pack4LE p.1 ++ pack4LE p.2) ++ ST2.pool)))))))) := by
    simp only [moAssemble]
    rw [← hST1, ← hST2, hoffs1, hoffs2]
    simp [List.append_assoc]
  exact mo_assembled_core K V neo1 neo2 _ _ ST2.pool (moAssemble K V) hKV hhead hdata
    rfl rfl hfa1F hfa2 hsize

/-- C2 (amended): the MO round trip for the charset `"utf-8"` on a
catalog of ASCII entries: no entry is a header, every field is printable
ASCII (or newline), singular entries have exactly one translation and
plural ones at least one, keys are pairwise distinct, and the output fits
the 32-bit offsets `struct.pack` requires.  Reading the written bytes
yields the charset `"UTF-8"` (the parameter of the synthetic header) and
a permutation of the header-completed catalog — every entry is recovered
exactly, in sorted-key order. -/
theorem mo_roundtrip_amended (C : List PoEntry)
    (hhdr : ∀ e ∈ C, e.msgid ≠ [])
    (hsafe : ∀ e ∈ C, moAsciiEntry e = true)
    (hkeys : (C.map moKey).Nodup)
    (hsize : (write_mo C (pstr "utf-8")).length < 4294967296) :
    ∃ es, read_mo (write_mo C (pstr "utf-8")) = .ok (pstr "UTF-8", es) ∧
      es.Perm (moDefaultHeader :: C) := by
  have hWH := moWithHeader_eq C hhdr
  have hwrite : write_mo C (pstr "utf-8") =
      moAssemble (moKeys (moEnc (pstr "utf-8")) (moWithHeader C))
        (moValues (moEnc (pstr "utf-8")) (moWithHeader C)) := rfl
  rw [hWH] at hwrite
  have hsafeAll : ∀ e ∈ moDefaultHeader :: C, moAsciiEntry e = true := by
    intro e he
    rcases List.mem_cons.mp he with he | he
    · subst he; decide
    · exact hsafe e he
  have hkeyenc : ∀ e ∈ moDefaultHeader :: C,
      moEnc (pstr "utf-8") (moKey e) = moKey e := by
    intro e he
    rw [moEnc_eq]
    exact utf8Encode_ascii _ (moKey_chars (hsafeAll e he))
  have hvalenc : ∀ e ∈ moDefaultHeader :: C,
      moEnc (pstr "utf-8") (moVal e) = moVal e := by
    intro e he
    rw [moEnc_eq]
    exact utf8Encode_ascii _ (moVal_chars (hsafeAll e he))
  have hmapkeys : (moDefaultHeader :: C).map (fun e => moEnc (pstr "utf-8") (moKey e)) =
      (moDefaultHeader :: C).map moKey := List.map_congr_left hkeyenc
  have hnodupCC : ((moDefaultHeader :: C).map moKey).Nodup := by
    rw [List.map_cons]
    refine List.nodup_cons.mpr ⟨?_, hkeys⟩
    intro hmem
    obtain ⟨e, he, hke⟩ := List.mem_map.mp hmem
    exact moKey_ne_nil e (hhdr e he) hke
  have hnodupEnc : ((moDefaultHeader :: C).map
      (fun e => moEnc (pstr "utf-8") (moKey e))).Nodup := hmapkeys ▸ hnodupCC
  have hbk2 : moByKey (moEnc (pstr "utf-8")) (moDefaultHeader :: C) =
      (moDefaultHeader :: C).map (fun e => (moKey e, moVal e)) := by
    rw [moByKey_eq_map (moEnc (pstr "utf-8")) (moDefaultHeader :: C) hnodupEnc]
    refine List.map_congr_left ?_
    intro e he
    rw [hkeyenc e he, hvalenc e he]
  have hKdef : moKeys (moEnc (pstr "utf-8")) (moDefaultHeader :: C) =
      insSort ((moDefaultHeader :: C).map moKey) := by
    unfold moKeys
    rw [hbk2, List.map_map]
    rfl
  have hKperm : (moKeys (moEnc (pstr "utf-8")) (moDefaultHeader :: C)).Perm
      ((moDefaultHeader :: C).map moKey) := by
    rw [hKdef]
    exact insSort_perm _
  have hKsorted : (moKeys (moEnc (pstr "utf-8")) (moDefaultHeader :: C)).Pairwise
      (fun a b => bytesLe a b = true) := by
    rw [hKdef]
    exact insSort_pairwise _
  have hmemnil : [] ∈ moKeys (moEnc (pstr "utf-8")) (moDefaultHeader :: C) := by
    refine hKperm.mem_iff.mpr ?_
    exact List.mem_map.mpr ⟨moDefaultHeader, List.mem_cons_self _ _, rfl⟩
  have hhead := sorted_head_nil _ hKsorted hmemnil
  have hget : ∀ e ∈ moDefaultHeader :: C,
      dictGet (moByKey (moEnc (pstr "utf-8")) (moDefaultHeader :: C)) (moKey e) =
        some (moVal e) := by
    intro e he
    rw [hbk2]
    exact dictGet_map moKey moVal (moDefaultHeader :: C) hnodupCC e he
  have hVdef : moValues (moEnc (pstr "utf-8")) (moDefaultHeader :: C) =
      (moKeys (moEnc (pstr "utf-8")) (moDefaultHeader :: C)).map
        (fun k => (dictGet (moByKey (moEnc (pstr "utf-8")) (moDefaultHeader :: C))
          k).getD []) := rfl
  have hKV : (moKeys (moEnc (pstr "utf-8")) (moDefaultHeader :: C)).length =
      (moValues (moEnc (pstr "utf-8")) (moDefaultHeader :: C)).length := by
    rw [hVdef, List.length_map]
  have hsize2 : (moAssemble (moKeys (moEnc (pstr "utf-8")) (moDefaultHeader :: C))
      (moValues (moEnc (pstr "utf-8")) (moDefaultHeader :: C))).length < 4294967296 :=
    hwrite ▸ hsize
  have hread := mo_write_read _ _ hKV hhead hsize2
  obtain ⟨kr, hKcons⟩ := hhead
  have hget0 : dictGet (moByKey (moEnc (pstr "utf-8")) (moDefaultHeader :: C)) [] =
      some (moVal moDefaultHeader) := hget moDefaultHeader (List.mem_cons_self _ _)
  have hv0 : (moValues (moEnc (pstr "utf-8")) (moDefaultHeader :: C)).headD [] =
      pstr "Content-Type: text/plain; charset=UTF-8\n" := by
    rw [hVdef, hKcons]
    simp only [List.map_cons, List.headD_cons]
    rw [hget0]
    rfl
  have hcs : detect_charset_from_header (utf8DecodeReplace
      ((moValues (moEnc (pstr "utf-8")) (moDefaultHeader :: C)).headD [])) =
      pstr "UTF-8" := by
    rw [hv0, utf8DecodeReplace_ascii _ (by decide), detect_default_header]
  rw [hcs] at hread
  refine ⟨_, hwrite ▸ hread, ?_⟩
  have hzipmap : (moKeys (moEnc (pstr "utf-8")) (moDefaultHeader :: C)).zip
      (moValues (moEnc (pstr "utf-8")) (moDefaultHeader :: C)) =
      (moKeys (moEnc (pstr "utf-8")) (moDefaultHeader :: C)).map
        (fun k => (k, (dictGet (moByKey (moEnc (pstr "utf-8"))
          (moDefaultHeader :: C)) k).getD [])) := by
    rw [hVdef]
    exact zip_map_self _ _
  rw [hzipmap, List.map_map]
  have hinv : ∀ e ∈ moDefaultHeader :: C,
      ((fun p => moSplitEntry (pstr "UTF-8") p.1 p.2) ∘
        (fun k => (k, (dictGet (moByKey (moEnc (pstr "utf-8"))
          (moDefaultHeader :: C)) k).getD []))) (moKey e) = e := by
    intro e he
    show moSplitEntry (pstr "UTF-8") (moKey e)
      ((dictGet (moByKey (moEnc (pstr "utf-8")) (moDefaultHeader :: C))
        (moKey e)).getD []) = e
    rw [hget e he]
    show moSplitEntry (pstr "UTF-8") (moKey e) (moVal e) = e
    have h1 := moSplitEntry_inv (pstr "UTF-8") isUtf8Name_big e (hsafeAll e he)
    rw [utf8Encode_ascii _ (moKey_chars (hsafeAll e he)),
      utf8Encode_ascii _ (moVal_chars (hsafeAll e he))] at h1
    exact h1
  have hfin : ((moDefaultHeader :: C).map moKey).map
      ((fun p => moSplitEntry (pstr "UTF-8") p.1 p.2) ∘
        (fun k => (k, (dictGet (moByKey (moEnc (pstr "utf-8"))
          (moDefaultHeader :: C)) k).getD []))) = moDefaultHeader :: C := by
    rw [List.map_map]
    have h2 : (moDefaultHeader :: C).map
        ((((fun p => moSplitEntry (pstr "UTF-8") p.1 p.2) ∘
          (fun k => (k, (dictGet (moByKey (moEnc (pstr "utf-8"))
            (moDefaultHeader :: C)) k).getD []))) ∘ moKey)) =
        (moDefaultHeader :: C).map id := by
      refine List.map_congr_left ?_
      intro e he
      exact hinv e he
    rw [h2, List.map_id]
  have hp := hKperm.map ((fun p => moSplitEntry (pstr "UTF-8") p.1 p.2) ∘
    (fun k => (k, (dictGet (moByKey (moEnc (pstr "utf-8"))
      (moDefaultHeader :: C)) k).getD [])))
  rw [hfin] at hp
  exact hp

/-- C2 (counterexample): the claim demands
`readMo(writeMo(C, charset)) == (charset, ...)`, but already for the empty
catalog and the charset `"utf-8"` the decoder returns `"UTF-8"` — the
value spelled inside the synthetic header — which differs from the charset
passed in (and the entry list contains the synthetic header absent from
`C`). -/
theorem mo_roundtrip_cex :
    read_mo (write_mo [] (pstr "utf-8")) = .ok (pstr "UTF-8", [moDefaultHeader]) ∧
      pstr "UTF-8" ≠ pstr "utf-8" :=
  ⟨rfl, by decide⟩

set_option maxRecDepth 16000 in
/-- C2 (witness): the amended MO round trip applied to a concrete
two-entry catalog with a context, a plural pair and a singular entry. -/
theorem mo_roundtrip_witness :
    (∀ e ∈ [(⟨some (pstr "c"), pstr "hello", some (pstr "hellos"),
        [pstr "oi", pstr "ois"]⟩ : PoEntry), ⟨none, pstr "b", none, [pstr "y"]⟩],
      e.msgid ≠ []) ∧
    (∀ e ∈ [(⟨some (pstr "c"), pstr "hello", some (pstr "hellos"),
        [pstr "oi", pstr "ois"]⟩ : PoEntry), ⟨none, pstr "b", none, [pstr "y"]⟩],
      moAsciiEntry e = true) ∧
    (([(⟨some (pstr "c"), pstr "hello", some (pstr "hellos"),
        [pstr "oi", pstr "ois"]⟩ : PoEntry), ⟨none, pstr "b", none, [pstr "y"]⟩].map
      moKey).Nodup) ∧
    (write_mo [(⟨some (pstr "c"), pstr "hello", some (pstr "hellos"),
        [pstr "oi", pstr "ois"]⟩ : PoEntry), ⟨none, pstr "b", none, [pstr "y"]⟩]
      (pstr "utf-8")).length < 4294967296 ∧
    ∃ es, read_mo (write_mo [(⟨some (pstr "c"), pstr "hello", some (pstr "hellos"),
        [pstr "oi", pstr "ois"]⟩ : PoEntry), ⟨none, pstr "b", none, [pstr "y"]⟩]
      (pstr "utf-8")) = .ok (pstr "UTF-8", es) ∧
      es.Perm (moDefaultHeader :: [(⟨some (pstr "c"), pstr "hello", some (pstr "hellos"),
        [pstr "oi", pstr "ois"]⟩ : PoEntry), ⟨none, pstr "b", none, [pstr "y"]⟩]) :=
  ⟨by decide, by decide, by decide, by decide,
    mo_roundtrip_amended
      [(⟨some (pstr "c"), pstr "hello", some (pstr "hellos"),
        [pstr "oi", pstr "ois"]⟩ : PoEntry), ⟨none, pstr "b", none, [pstr "y"]⟩]
      (by decide) (by decide) (by decide) (by decide)⟩
